import Mathlib

/-!
# Mutagen front end: lexer and parser

A shallow embedding of `src/core/lexer` and `src/core/parser` together with
theorems about them.

Conventions of the embedding.

* A source text is a `List Char`; every character stands for one byte of the
  C++ `std::string`, and the `<cctype>` predicates are the ones of the "C"
  locale (they are false on every non-ASCII character).
* `size_t` cursors are `Nat`, the `int` line and column counters are `Int`.
* Every C++ loop is a recursive function over an explicit iteration budget.
  The budget handed to a loop of the lexer is the number of characters that
  are left, which the loop can never exceed because every iteration consumes
  one character.
-/

namespace Mutagen

/-! ## token.hpp -/

/-- The enumeration `TokenType` of `token.hpp`. -/
inductive TokenType where
  | MAIN | FUNC | BLOCK | IF | ELSE | ITER | LOOP | WHILE | HEADER | AS
  | NUMBER | TEXT | BIN | HEX | COMPLEX | VECTOR | SEQUENCE | HASH_MAP | DATETIME | BOOL | RETURN
  | LBRACE | RBRACE | LPAREN | RPAREN | LBRACKET | RBRACKET | LSQUARE | RSQUARE
  | SEMICOLON | COMMA | COLON | DOT | HASH | ARROW | AT
  | PLUS | MINUS | MUL | DIV | MOD
  | AND | OR | NOT
  | EQ | NEQ | LT | GT | LTE | GTE
  | ASSIGN
  | INT_LITERAL | FLOAT_LITERAL | STRING_LITERAL
  | BIN_LITERAL | HEX_LITERAL | BOOL_LITERAL
  | COMPLEX_LITERAL | VECTOR_LITERAL | DATETIME_LITERAL
  | SEQUENCE_INST | HASH_MAP_INST | BLOCK_INST
  | IDENTIFIER
  | END_OF_FILE
  deriving DecidableEq, Repr, Inhabited

/-- The record `Token` of `token.hpp`. -/
structure Token where
  type : TokenType
  lexeme : String
  line : Int
  column : Int
  deriving DecidableEq, Repr, Inhabited

/-! ## lexer.hpp / lexer.cpp -/

/-- The static table `keywords` of `lexer.hpp`, in declaration order. -/
def keywords : List (String × TokenType) :=
  [ ("main", .MAIN), ("Block", .BLOCK), ("if", .IF), ("else", .ELSE),
    ("iter", .ITER), ("loop", .LOOP), ("while", .WHILE), ("@", .AT),
    ("func", .FUNC), ("header", .HEADER), ("as", .AS), ("number", .NUMBER),
    ("text", .TEXT), ("bin", .BIN), ("hex", .HEX), ("complex", .COMPLEX),
    ("vector", .VECTOR), ("sequence", .SEQUENCE), ("hash_map", .HASH_MAP),
    ("datetime", .DATETIME), ("bool", .BOOL), ("return", .RETURN) ]

/-- The C function `isdigit` in the "C" locale. -/
def isdigit (c : Char) : Bool := decide ('0' ≤ c ∧ c ≤ '9')

/-- The C function `isalpha` in the "C" locale. -/
def isalpha (c : Char) : Bool :=
  decide (('a' ≤ c ∧ c ≤ 'z') ∨ ('A' ≤ c ∧ c ≤ 'Z'))

/-- The C function `isalnum` in the "C" locale. -/
def isalnum (c : Char) : Bool := isalpha c || isdigit c

/-- The C function `isxdigit` in the "C" locale. -/
def isxdigit (c : Char) : Bool :=
  isdigit c || decide (('a' ≤ c ∧ c ≤ 'f') ∨ ('A' ≤ c ∧ c ≤ 'F'))

/-- The data members of class `Lexer`. -/
structure Lexer where
  src : List Char
  pos : Nat := 0
  line : Int := 1
  column : Int := 1
  deriving DecidableEq, Repr

namespace Lexer

/-- The call `src.substr(start, len)` as a lexeme. -/
def substr (lx : Lexer) (start len : Nat) : String :=
  String.mk ((lx.src.drop start).take len)

/-- Member `Lexer::isAtEnd`: `pos >= src.size()`. -/
def isAtEnd (lx : Lexer) : Bool := decide (lx.src.length ≤ lx.pos)

/-- Member `Lexer::peek`: the NUL character at the end, `src[pos]` otherwise. -/
def peek (lx : Lexer) : Char :=
  if lx.isAtEnd then '\x00' else lx.src.getD lx.pos '\x00'

/-- Member `Lexer::advance`: returns the peeked character and moves `pos` and
`column` on by one, also at the end of the input. -/
def advance (lx : Lexer) : Char × Lexer :=
  (lx.peek, { lx with pos := lx.pos + 1, column := lx.column + 1 })

/-- Member `Lexer::match`, here `matchChar` (`match` is reserved). -/
def matchChar (lx : Lexer) (expected : Char) : Bool × Lexer :=
  if lx.isAtEnd then (false, lx)
  else if lx.src.getD lx.pos '\x00' ≠ expected then (false, lx)
  else (true, { lx with pos := lx.pos + 1, column := lx.column + 1 })

/-- Member `Lexer::makeToken`: the column is the cursor column minus the
length of the lexeme. -/
def makeToken (lx : Lexer) (type : TokenType) (lexeme : String) : Token :=
  { type := type, lexeme := lexeme, line := lx.line,
    column := lx.column - (lexeme.length : Int) }

/-- The loop of `Lexer::skipWhitespace`. -/
def skipWhitespaceLoop : Nat → Lexer → Lexer
  | 0, lx => lx
  | n + 1, lx =>
    if lx.isAtEnd then lx
    else
      let c := lx.peek
      if c = ' ' ∨ c = '\t' ∨ c = '\r' then
        skipWhitespaceLoop n lx.advance.2
      else if c = '\n' then
        let lx1 := lx.advance.2
        skipWhitespaceLoop n { lx1 with line := lx1.line + 1, column := 1 }
      else lx

/-- Member `Lexer::skipWhitespace`. -/
def skipWhitespace (lx : Lexer) : Lexer :=
  skipWhitespaceLoop (lx.src.length - lx.pos) lx

/-- The loop shape `while (!isAtEnd() && p(peek())) advance();` shared by
`skipComment`, `identifier`, `number`, `binLiteral` and `hexLiteral`. -/
def advanceWhile (p : Char → Bool) : Nat → Lexer → Lexer
  | 0, lx => lx
  | n + 1, lx =>
    if !lx.isAtEnd && p lx.peek then advanceWhile p n lx.advance.2 else lx

/-- Member `Lexer::skipComment`. -/
def skipComment (lx : Lexer) : Lexer :=
  if lx.peek = '/' ∧ lx.pos + 1 < lx.src.length ∧ lx.src.getD (lx.pos + 1) '\x00' = '/' then
    advanceWhile (fun c => c != '\n') (lx.src.length - lx.pos) lx
  else lx

/-- Member `Lexer::identifier`. -/
def identifier (lx : Lexer) : Token × Lexer :=
  let start := lx.pos
  let lx1 := advanceWhile (fun c => isalnum c || c == '_') (lx.src.length - lx.pos) lx
  let text := lx1.substr start (lx1.pos - start)
  match keywords.lookup text with
  | some ty => (lx1.makeToken ty text, lx1)
  | none => (lx1.makeToken .IDENTIFIER text, lx1)

/-- The loop of `Lexer::stringLiteral`. -/
def stringLoop : Nat → Lexer → Lexer
  | 0, lx => lx
  | n + 1, lx =>
    if !lx.isAtEnd && lx.peek != '"' then
      let lx1 := if lx.peek = '\n' then { lx with line := lx.line + 1, column := 1 } else lx
      stringLoop n lx1.advance.2
    else lx

/-- Member `Lexer::stringLiteral`. It is entered after `tokenize` has already
consumed the opening quote, so `start` is the position after that quote. -/
def stringLiteral (lx : Lexer) : Token × Lexer :=
  let start := lx.pos
  let lx1 := lx.advance.2
  let lx2 := stringLoop (lx1.src.length - lx1.pos) lx1
  if lx2.isAtEnd then (lx2.makeToken .STRING_LITERAL "", lx2)
  else
    let lx3 := lx2.advance.2
    let value := lx3.substr start (lx3.pos - start)
    (lx3.makeToken .STRING_LITERAL value, lx3)

/-- Member `Lexer::number`. -/
def number (lx : Lexer) : Token × Lexer :=
  let start := lx.pos
  let lx1 := advanceWhile isdigit (lx.src.length - lx.pos) lx
  let lx2 :=
    if !lx1.isAtEnd && lx1.peek == '.' then
      let lx1a := lx1.advance.2
      advanceWhile isdigit (lx1a.src.length - lx1a.pos) lx1a
    else lx1
  let num := lx2.substr start (lx2.pos - start)
  (lx2.makeToken .FLOAT_LITERAL num, lx2)

/-- Member `Lexer::binLiteral`. -/
def binLiteral (lx : Lexer) : Token × Lexer :=
  let start := lx.pos - 2
  let lx1 := advanceWhile (fun c => c == '0' || c == '1') (lx.src.length - lx.pos) lx
  (lx1.makeToken .BIN_LITERAL (lx1.substr start (lx1.pos - start)), lx1)

/-- Member `Lexer::hexLiteral`. -/
def hexLiteral (lx : Lexer) : Token × Lexer :=
  let start := lx.pos - 2
  let lx1 := advanceWhile isxdigit (lx.src.length - lx.pos) lx
  (lx1.makeToken .HEX_LITERAL (lx1.substr start (lx1.pos - start)), lx1)

/-- A two-character operator of the `switch`: `match(second)` decides between
the long and the short token. -/
def twoChar (lx : Lexer) (second : Char) (long : TokenType) (longLexeme : String)
    (short : TokenType) (shortLexeme : String) : Option Token × Lexer :=
  let r := lx.matchChar second
  if r.1 then (some (r.2.makeToken long longLexeme), r.2)
  else (some (r.2.makeToken short shortLexeme), r.2)

/-- The `switch (c)` of `Lexer::tokenize`, entered after `char c = advance()`:
the token that is pushed, if any, and the lexer afterwards. -/
def scanToken (c : Char) (lx : Lexer) : Option Token × Lexer :=
  if c = '\x7b' then (some (lx.makeToken .LBRACE "\x7b"), lx)
  else if c = '\x7d' then (some (lx.makeToken .RBRACE "\x7d"), lx)
  else if c = '(' then (some (lx.makeToken .LPAREN "("), lx)
  else if c = ')' then (some (lx.makeToken .RPAREN ")"), lx)
  else if c = '[' then (some (lx.makeToken .LBRACKET "["), lx)
  else if c = ']' then (some (lx.makeToken .RBRACKET "]"), lx)
  else if c = ';' then (some (lx.makeToken .SEMICOLON ";"), lx)
  else if c = ',' then (some (lx.makeToken .COMMA ","), lx)
  else if c = ':' then (some (lx.makeToken .COLON ":"), lx)
  else if c = '.' then (some (lx.makeToken .DOT "."), lx)
  else if c = '#' then (some (lx.makeToken .HASH "#"), lx)
  else if c = '@' then (some (lx.makeToken .AT "@"), lx)
  else if c = '+' then (some (lx.makeToken .PLUS "+"), lx)
  else if c = '-' then twoChar lx '>' .ARROW "->" .MINUS "-"
  else if c = '*' then (some (lx.makeToken .MUL "*"), lx)
  else if c = '/' then (some (lx.makeToken .DIV "/"), lx)
  else if c = '%' then (some (lx.makeToken .MOD "%"), lx)
  else if c = '=' then twoChar lx '=' .EQ "==" .ASSIGN "="
  else if c = '!' then twoChar lx '=' .NEQ "!=" .NOT "!"
  else if c = '<' then twoChar lx '=' .LTE "<=" .LT "<"
  else if c = '>' then twoChar lx '=' .GTE ">=" .GT ">"
  else if c = '"' then
    let r := lx.stringLiteral
    (some r.1, r.2)
  else if c = '0' then
    if !lx.isAtEnd && lx.peek == 'b' then
      let r := lx.advance.2.binLiteral
      (some r.1, r.2)
    else if !lx.isAtEnd && lx.peek == 'x' then
      let r := lx.advance.2.hexLiteral
      (some r.1, r.2)
    else
      let r := lx.number
      (some r.1, r.2)
  else if isalpha c || c == '_' || c == '@' then
    let r := ({ lx with pos := lx.pos - 1, column := lx.column - 1 } : Lexer).identifier
    (some r.1, r.2)
  else if isdigit c then
    let r := ({ lx with pos := lx.pos - 1, column := lx.column - 1 } : Lexer).number
    (some r.1, r.2)
  else (none, lx)

/-- The `while (!isAtEnd())` loop of `Lexer::tokenize`: the lexer and the
token vector when the loop is left. -/
def tokenizeLoop : Nat → Lexer → List Token → Lexer × List Token
  | 0, lx, tokens => (lx, tokens)
  | n + 1, lx, tokens =>
    if lx.isAtEnd then (lx, tokens)
    else
      let lx1 := lx.skipWhitespace
      let lx2 := lx1.skipComment
      let lx3 := lx2.skipWhitespace
      if lx3.isAtEnd then (lx3, tokens)
      else
        let a := lx3.advance
        let r := scanToken a.1 a.2
        match r.1 with
        | some t => tokenizeLoop n r.2 (tokens ++ [t])
        | none => tokenizeLoop n r.2 tokens

/-- The lexer state when the loop of `Lexer::tokenize` is left (the final
scan position) together with the tokens pushed so far. -/
def scan (lx : Lexer) : Lexer × List Token :=
  tokenizeLoop lx.src.length lx []

/-- Member `Lexer::tokenize`: the scanned tokens followed by the
`END_OF_FILE` token at the final line and column. -/
def tokenize (lx : Lexer) : List Token :=
  let r := lx.scan
  r.2 ++ [{ type := .END_OF_FILE, lexeme := "", line := r.1.line, column := r.1.column }]

end Lexer

/-- The use `Lexer lexer(source); lexer.tokenize()` of `main.cpp`. -/
def tokenize (source : String) : List Token :=
  Lexer.tokenize { src := source.toList }

/-! ## ast.hpp

An owning pointer (`std::unique_ptr`) to an expression or a statement may be
null and is an `Option`; `std::optional` is an `Option` as well. The vectors
that the parser only ever extends behind a null test (`Block::statements`,
`Program::decls`, `BlockDecl::fields`, `BlockDecl::methods`) hold the nodes
themselves. -/

/-- The subclasses of `Expr`; `Option Expr` is an `ExprPtr`. -/
inductive Expr where
  | Identifier (name : String)
  | Literal (value : String) (litType : TokenType)
  | Unary (op : String) (right : Option Expr)
  | Binary (left : Option Expr) (op : String) (right : Option Expr)
  | Call (callee : Option Expr) (args : List (Option Expr))

/-- The alias `ExprPtr`. -/
abbrev ExprPtr := Option Expr

/-- The record `VarDecl` (a subclass of `Stmt`). -/
structure VarDecl where
  typeName : String
  varName : String
  initValue : Option ExprPtr

/-- The subclasses of `Stmt`. A `Block` is the list of its statements. -/
inductive Stmt where
  | ExprStmt (expr : ExprPtr)
  | ReturnStmt (value : Option ExprPtr)
  | IfStmt (ifBlock : ExprPtr × List Stmt)
      (elseIfs : Option (List (ExprPtr × List Stmt))) (elseBlock : Option (List Stmt))
  | WhileStmt (condition : ExprPtr) (body : List Stmt)
  | LoopStmt (dtype : Option String) (init : Option Stmt) (condition : ExprPtr)
      (step : Option Stmt) (body : List Stmt)
  | IterStmt (iterable : ExprPtr) (varName : String) (body : List Stmt)
  | VarDeclStmt (decl : VarDecl)

/-- The alias `StmtPtr`. -/
abbrev StmtPtr := Option Stmt

/-- The class `Block`: its private vector of statements. -/
abbrev Block := List Stmt

/-- Member `Block::addStatement` behind the test `if (s)` of its caller. -/
def Block.addStatement (block : Block) (s : StmtPtr) : Block :=
  match s with
  | some x => block ++ [x]
  | none => block

/-- The record `FuncDecl`; `body = none` is a forward declaration. -/
structure FuncDecl where
  name : String
  params : List (String × String)
  body : Option Block

/-- The record `BlockDecl`. -/
structure BlockDecl where
  name : String
  fields : List VarDecl
  methods : List FuncDecl

/-- The subclasses of `Decl`. -/
inductive Decl where
  | Header (name : String)
  | Func (func : FuncDecl)
  | Block (block : BlockDecl)

/-- The alias `DeclPtr`. -/
abbrev DeclPtr := Option Decl

/-- The record `Program`. -/
structure Program where
  decls : List Decl := []
  globalExprs : List ExprPtr := []
  globalVars : List VarDecl := []

/-! ## parser.hpp / parser.cpp -/

/-- The data members of class `Parser`. -/
structure Parser where
  tokens : List Token
  current : Nat := 0
  m_errors : List String := []

/-- The outcome of running a member function of the parser: it returns a value
and leaves a parser state, or it indexes `tokens` outside the vector (undefined
behaviour in C++), or the iteration budget of the embedding is used up. -/
inductive Res (α : Type) where
  | ok (val : α) (st : Parser)
  | outOfBounds
  | outOfFuel

/-- A member function of the parser with a result of type `α`. -/
def P (α : Type) : Type := Parser → Res α

/-- Sequencing of member function calls. -/
def P.bind {α β : Type} (x : P α) (f : α → P β) : P β := fun st =>
  match x st with
  | .ok a st1 => f a st1
  | .outOfBounds => .outOfBounds
  | .outOfFuel => .outOfFuel

instance : Monad P where
  pure a := fun st => .ok a st
  bind := P.bind

namespace Parser

/-- The budget is used up. -/
def outOfFuel {α : Type} : P α := fun _ => .outOfFuel

/-- Member `Parser::peek`: `tokens[current]`. -/
def peek : P Token := fun st =>
  match st.tokens[st.current]? with
  | some t => .ok t st
  | none => .outOfBounds

/-- Member `Parser::previous`: `tokens[current - 1]`. -/
def previous : P Token := fun st =>
  if st.current = 0 then .outOfBounds
  else
    match st.tokens[st.current - 1]? with
    | some t => .ok t st
    | none => .outOfBounds

/-- Member `Parser::isAtEnd`. -/
def isAtEnd : P Bool := do
  let t ← peek
  pure (t.type == TokenType.END_OF_FILE)

/-- The statement `current++`. -/
def incCurrent : P Unit := fun st => .ok () { st with current := st.current + 1 }

/-- Member `Parser::advance`. -/
def advance : P Token := do
  if !(← isAtEnd) then incCurrent
  previous

/-- Member `Parser::check`. -/
def check (t : TokenType) : P Bool := do
  if (← isAtEnd) then pure false
  else
    let p ← peek
    pure (p.type == t)

/-- Member `Parser::match`, here `matchTok` (`match` is reserved). -/
def matchTok (t : TokenType) : P Bool := do
  if (← check t) then
    let _ ← advance
    pure true
  else pure false

/-- The statement `m_errors.push_back(msg)`. -/
def pushError (msg : String) : P Unit := fun st =>
  .ok () { st with m_errors := st.m_errors ++ [msg] }

/-- Member `Parser::consume` (the copy of the message written to `std::cout`
is not modelled). -/
def consume (t : TokenType) (errMsg : String) : P Unit := do
  if !(← check t) then
    let p ← peek
    pushError ("Parse error at line " ++ toString p.line ++ " col " ++ toString p.column
      ++ ": " ++ errMsg)
  let _ ← advance
  pure ()

/-- Member `Parser::logError` (the copy of the message written to `std::cout`
is not modelled). -/
def logError (errMsg : String) : P Unit := do
  let p ← peek
  pushError ("Parse error at line " ++ toString p.line ++ ", col " ++ toString p.column
    ++ ": " ++ errMsg)

/-- Member `Parser::isDtypeToken`. -/
def isDtypeToken : P Bool := do
  let t := (← peek).type
  pure (t == .NUMBER || t == .TEXT || t == .BIN || t == .HEX || t == .COMPLEX || t == .VECTOR
    || t == .DATETIME || t == .BOOL || t == .BLOCK || t == .SEQUENCE || t == .HASH_MAP)

/-- Member `Parser::isLiteralToken`. -/
def isLiteralToken : P Bool := do
  let t := (← peek).type
  pure (t == .INT_LITERAL || t == .FLOAT_LITERAL || t == .STRING_LITERAL || t == .BIN_LITERAL
    || t == .HEX_LITERAL || t == .BOOL_LITERAL || t == .COMPLEX_LITERAL || t == .VECTOR_LITERAL
    || t == .DATETIME_LITERAL)

/-- The C++ operator `||` on two calls with side effects: the second call is
made only when the first one returns false. -/
def orElse (a b : P Bool) : P Bool := do
  if (← a) then pure true else b

/-- The C++ operator `&&` on two calls with side effects: the second call is
made only when the first one returns true. -/
def andThen (a b : P Bool) : P Bool := do
  if (← a) then b else pure false

/-- The negation `!` of a call. -/
def notP (a : P Bool) : P Bool := do
  pure (!(← a))

/-- Member `Parser::parseHeader`. -/
def parseHeader : P DeclPtr := do
  consume .LPAREN "Expected '(' after 'header'"
  let headerName ← (do
    if (← check .STRING_LITERAL) then pure (← peek).lexeme else pure "")
  let _ ← advance
  consume .RPAREN "Expected ')' after header declaration"
  consume .SEMICOLON "Expected ';' after header declaration"
  pure (some (Decl.Header headerName))

/-- The `while` loop of `Parser::parseArgList` with the vector `params`
filled so far. -/
def parseArgListLoop : Nat → List (String × String) → P (List (String × String))
  | 0, _ => outOfFuel
  | fuel + 1, params => do
    if (← orElse (notP (matchTok .RPAREN)) (matchTok .COMMA)) then
      let ptype ← (do
        if !(← isDtypeToken) then
          logError "Expected parameter type in function *args or **kwargs"
          pure ""
        else pure (← peek).lexeme)
      let _ ← advance
      let pname ← (do
        if (← matchTok .IDENTIFIER) then pure (← peek).lexeme
        else
          logError "Expected parameter name after type in function *args or **kwargs"
          pure "")
      let params1 := params ++ [(ptype, pname)]
      if (← orElse (andThen (notP (check .RPAREN)) (notP (check .COMMA))) isAtEnd) then
        logError "Expected ',' or ')' after function parameter"
        pure params1
      else parseArgListLoop fuel params1
    else pure params

/-- Member `Parser::parseArgList`. -/
def parseArgList (fuel : Nat) : P (List (String × String)) :=
  parseArgListLoop fuel []

/-- Appends an else-if branch: `if (!elseIfs) elseIfs.emplace();
elseIfs->push_back(...)`. -/
def pushElseIf (elseIfs : Option (List (ExprPtr × Block))) (b : ExprPtr × Block) :
    Option (List (ExprPtr × Block)) :=
  match elseIfs with
  | some l => some (l ++ [b])
  | none => some [b]

mutual

/-- Member `Parser::parseExpression`. -/
def parseExpression : Nat → P ExprPtr
  | 0 => outOfFuel
  | fuel + 1 => parseAssignment fuel

/-- Member `Parser::parseAssignment`. -/
def parseAssignment : Nat → P ExprPtr
  | 0 => outOfFuel
  | fuel + 1 => do
    let left ← parseOr fuel
    if (← matchTok .ASSIGN) then
      let value ← parseAssignment fuel
      pure (some (Expr.Binary left "=" value))
    else pure left

/-- Member `Parser::parseOr`. -/
def parseOr : Nat → P ExprPtr
  | 0 => outOfFuel
  | fuel + 1 => do
    let expr ← parseAnd fuel
    parseOrLoop fuel expr

/-- The `while` loop of `Parser::parseOr`. -/
def parseOrLoop : Nat → ExprPtr → P ExprPtr
  | 0, _ => outOfFuel
  | fuel + 1, expr => do
    if (← matchTok .OR) then
      let prev ← previous
      let op := if prev.lexeme.isEmpty then "||" else prev.lexeme
      let right ← parseAnd fuel
      parseOrLoop fuel (some (Expr.Binary expr op right))
    else pure expr

/-- Member `Parser::parseAnd`. -/
def parseAnd : Nat → P ExprPtr
  | 0 => outOfFuel
  | fuel + 1 => do
    let expr ← parseEquality fuel
    parseAndLoop fuel expr

/-- The `while` loop of `Parser::parseAnd`. -/
def parseAndLoop : Nat → ExprPtr → P ExprPtr
  | 0, _ => outOfFuel
  | fuel + 1, expr => do
    if (← matchTok .AND) then
      let prev ← previous
      let op := if prev.lexeme.isEmpty then "&&" else prev.lexeme
      let right ← parseEquality fuel
      parseAndLoop fuel (some (Expr.Binary expr op right))
    else pure expr

/-- Member `Parser::parseEquality`. -/
def parseEquality : Nat → P ExprPtr
  | 0 => outOfFuel
  | fuel + 1 => do
    let expr ← parseComparison fuel
    parseEqualityLoop fuel expr

/-- The `while` loop of `Parser::parseEquality`. -/
def parseEqualityLoop : Nat → ExprPtr → P ExprPtr
  | 0, _ => outOfFuel
  | fuel + 1, expr => do
    if (← orElse (matchTok .EQ) (matchTok .NEQ)) then
      let op := (← previous).lexeme
      let right ← parseComparison fuel
      parseEqualityLoop fuel (some (Expr.Binary expr op right))
    else pure expr

/-- Member `Parser::parseComparison`. -/
def parseComparison : Nat → P ExprPtr
  | 0 => outOfFuel
  | fuel + 1 => do
    let expr ← parseTerm fuel
    parseComparisonLoop fuel expr

/-- The `while` loop of `Parser::parseComparison`. -/
def parseComparisonLoop : Nat → ExprPtr → P ExprPtr
  | 0, _ => outOfFuel
  | fuel + 1, expr => do
    if (← orElse (orElse (orElse (matchTok .LT) (matchTok .LTE)) (matchTok .GT))
        (matchTok .GTE)) then
      let op := (← previous).lexeme
      let right ← parseTerm fuel
      parseComparisonLoop fuel (some (Expr.Binary expr op right))
    else pure expr

/-- Member `Parser::parseTerm`. -/
def parseTerm : Nat → P ExprPtr
  | 0 => outOfFuel
  | fuel + 1 => do
    let expr ← parseFactor fuel
    parseTermLoop fuel expr

/-- The `while` loop of `Parser::parseTerm`. -/
def parseTermLoop : Nat → ExprPtr → P ExprPtr
  | 0, _ => outOfFuel
  | fuel + 1, expr => do
    if (← orElse (matchTok .PLUS) (matchTok .MINUS)) then
      let op := (← previous).lexeme
      let right ← parseFactor fuel
      parseTermLoop fuel (some (Expr.Binary expr op right))
    else pure expr

/-- Member `Parser::parseFactor`. -/
def parseFactor : Nat → P ExprPtr
  | 0 => outOfFuel
  | fuel + 1 => do
    let expr ← parseUnary fuel
    parseFactorLoop fuel expr

/-- The `while` loop of `Parser::parseFactor`. -/
def parseFactorLoop : Nat → ExprPtr → P ExprPtr
  | 0, _ => outOfFuel
  | fuel + 1, expr => do
    if (← orElse (orElse (matchTok .MUL) (matchTok .DIV)) (matchTok .MOD)) then
      let op := (← previous).lexeme
      let right ← parseUnary fuel
      parseFactorLoop fuel (some (Expr.Binary expr op right))
    else pure expr

/-- Member `Parser::parseUnary`. -/
def parseUnary : Nat → P ExprPtr
  | 0 => outOfFuel
  | fuel + 1 => do
    if (← orElse (orElse (matchTok .NOT) (matchTok .MINUS)) (matchTok .PLUS)) then
      let op := (← previous).lexeme
      let right ← parseUnary fuel
      pure (some (Expr.Unary op right))
    else parsePrimary fuel

/-- Member `Parser::parsePrimary`. -/
def parsePrimary : Nat → P ExprPtr
  | 0 => outOfFuel
  | fuel + 1 => do
    if (← isLiteralToken) then
      let prev ← previous
      pure (some (Expr.Literal prev.lexeme prev.type))
    else if (← matchTok .IDENTIFIER) then
      let name := (← previous).lexeme
      let left : ExprPtr := some (Expr.Identifier name)
      if (← matchTok .LPAREN) then
        let args ← (do
          if !(← check .RPAREN) then parseCallArgs fuel [] else pure [])
        consume .RPAREN "Expected ')' after call arguments"
        pure (some (Expr.Call left args))
      else pure left
    else if (← matchTok .LPAREN) then
      let expr ← parseExpression fuel
      consume .RPAREN "Expected ')' after expression"
      pure expr
    else
      pushError ("Unexpected token in expression: " ++ (← peek).lexeme)
      let _ ← advance
      pure (some (Expr.Literal "0" .INT_LITERAL))

/-- The `do ... while (match(COMMA))` loop of `Parser::parsePrimary` with the
vector `args` filled so far. -/
def parseCallArgs : Nat → List ExprPtr → P (List ExprPtr)
  | 0, _ => outOfFuel
  | fuel + 1, args => do
    let e ← parseExpression fuel
    let args1 := args ++ [e]
    if (← matchTok .COMMA) then parseCallArgs fuel args1 else pure args1

end

/-- Member `Parser::parseVarDeclStmt`. -/
def parseVarDeclStmt : Nat → P (Option VarDecl)
  | 0 => outOfFuel
  | fuel + 1 => do
    let typeName := (← peek).lexeme
    let varName ← (do
      if !(← check .IDENTIFIER) then pure (← peek).lexeme
      else
        logError "Expected variable name after type"
        pure "")
    let _ ← advance
    let init ← (do
      if (← matchTok .ASSIGN) then pure (some (← parseExpression fuel)) else pure none)
    consume .SEMICOLON "Expected ';' after variable declaration"
    pure (some { typeName := typeName, varName := varName, initValue := init })

/-- Member `Parser::parseReturnStmt`. -/
def parseReturnStmt : Nat → P StmtPtr
  | 0 => outOfFuel
  | fuel + 1 => do
    let value ← (do
      if !(← check .SEMICOLON) then pure (some (← parseExpression fuel)) else pure none)
    consume .SEMICOLON "Expected ';' at the end of return statement"
    pure (some (Stmt.ReturnStmt value))

/-- Member `Parser::parseExprStmt`. -/
def parseExprStmt : Nat → P StmtPtr
  | 0 => outOfFuel
  | fuel + 1 => do
    let e ← parseExpression fuel
    consume .SEMICOLON "Expected ';' after expression"
    pure (some (Stmt.ExprStmt e))

/-- The tail shared by the statements with a body: `if (match(LBRACE)) body =
parseBlock(); else if (!check(SEMICOLON)) consume(SEMICOLON, msg);`, where
`parseBody` is the call `parseBlock()`. -/
def bodyOrSemicolon (parseBody : P Block) (msg : String) : P Block := do
  if (← matchTok .LBRACE) then parseBody
  else
    if !(← check .SEMICOLON) then consume .SEMICOLON msg
    pure []

mutual

/-- Member `Parser::parseStatement`. -/
def parseStatement : Nat → P StmtPtr
  | 0 => outOfFuel
  | fuel + 1 => do
    if (← matchTok .RETURN) then parseReturnStmt fuel
    else if (← matchTok .IF) then parseIfStmt fuel
    else if (← matchTok .WHILE) then parseWhileStmt fuel
    else if (← matchTok .LOOP) then parseLoopStmt fuel
    else if (← matchTok .ITER) then parseIterStmt fuel
    else if (← isDtypeToken) then
      let v ← parseVarDeclStmt fuel
      pure (v.map Stmt.VarDeclStmt)
    else if (← check .IDENTIFIER) then parseExprStmt fuel
    else
      logError ("Unexpected token in statement: " ++ (← peek).lexeme)
      let _ ← advance
      pure none

/-- Member `Parser::parseIfStmt`. -/
def parseIfStmt : Nat → P StmtPtr
  | 0 => outOfFuel
  | fuel + 1 => do
    let cond ← (do
      if (← matchTok .RPAREN) then parseExpression fuel
      else
        logError "Expected '(' after if"
        pure none)
    let thenBlock ← (do
      if (← check .LBRACE) then parseBlock fuel
      else
        if !(← check .SEMICOLON) then
          consume .SEMICOLON "Expected '\x7b' or ';' after if(condition)"
        pure [])
    if (← andThen (matchTok .ELSE) (check .LPAREN)) then
      let chain ← parseElseChain fuel none none
      pure (some (Stmt.IfStmt (cond, thenBlock) chain.1 chain.2))
    else pure (some (Stmt.IfStmt (cond, thenBlock) none none))

/-- The `while (match(ELSE))` loop of `Parser::parseIfStmt` with the members
`elseIfs` and `elseBlock` of the statement as filled so far. -/
def parseElseChain : Nat → Option (List (ExprPtr × Block)) → Option Block →
    P (Option (List (ExprPtr × Block)) × Option Block)
  | 0, _, _ => outOfFuel
  | fuel + 1, elseIfs, elseBlock => do
    if (← matchTok .ELSE) then
      if (← check .LBRACE) then
        let elseBlk ← parseBlock fuel
        parseElseChain fuel elseIfs (some elseBlk)
      else if (← check .LPAREN) then
        let econd ← parseExpression fuel
        if (← matchTok .LBRACE) then
          let blk ← parseBlock fuel
          parseElseChain fuel (pushElseIf elseIfs (econd, blk)) elseBlock
        else if !(← check .SEMICOLON) then
          consume .SEMICOLON "Expected '\x7b' or ';' after else(condition)"
          parseElseChain fuel elseIfs elseBlock
        else parseElseChain fuel (pushElseIf elseIfs (econd, [])) elseBlock
      else
        logError "Expected '\x7b' or '(' after else"
        parseElseChain fuel elseIfs elseBlock
    else pure (elseIfs, elseBlock)

/-- Member `Parser::parseWhileStmt`. -/
def parseWhileStmt : Nat → P StmtPtr
  | 0 => outOfFuel
  | fuel + 1 => do
    let cond ← (do
      if (← check .LPAREN) then parseExpression fuel else pure none)
    let body ← bodyOrSemicolon (parseBlock fuel) "Expected '\x7b' or ';' after while(condition)"
    pure (some (Stmt.WhileStmt cond body))

/-- Member `Parser::parseLoopStmt`. -/
def parseLoopStmt : Nat → P StmtPtr
  | 0 => outOfFuel
  | fuel + 1 => do
    if !(← matchTok .LPAREN) then
      logError "Expected '(' after loop"
      let body ← bodyOrSemicolon (parseBlock fuel) "Expected '\x7b' or ';' after loop(params)"
      pure (some (Stmt.LoopStmt none none none none body))
    else
      let dtype ← (do
        if (← isDtypeToken) then pure (some (← peek).lexeme) else pure none)
      let init ← (do
        if (← check .IDENTIFIER) then
          let e ← parseExpression fuel
          pure (some (Stmt.ExprStmt e))
        else pure none)
      if init.isNone then logError "Expected loop initialization statement"
      consume .COMMA "Expected ',' after loop init"
      let condition ← (do
        if (← orElse (check .IDENTIFIER) isLiteralToken) then parseExpression fuel
        else pure none)
      consume .COMMA "Expected ',' after loop condition"
      let step ← (do
        if (← orElse (check .IDENTIFIER) isLiteralToken) then
          let stepExpr ← parseExpression fuel
          pure (some (Stmt.ExprStmt stepExpr))
        else pure none)
      consume .RPAREN "Expected ')' after loop parameters"
      let body ← bodyOrSemicolon (parseBlock fuel) "Expected '\x7b' or ';' after loop(params)"
      pure (some (Stmt.LoopStmt dtype init condition step body))

/-- Member `Parser::parseIterStmt`. -/
def parseIterStmt : Nat → P StmtPtr
  | 0 => outOfFuel
  | fuel + 1 => do
    if !(← matchTok .LPAREN) then
      logError "Expected '(' after iter"
      let body ← bodyOrSemicolon (parseBlock fuel) "Expected '\x7b' or ';' after loop(params)"
      pure (some (Stmt.IterStmt none "" body))
    else
      let iterable ← (do
        if (← check .IDENTIFIER) then parseExpression fuel else pure none)
      if iterable.isNone then logError "Expected iterable expression in iter statement"
      consume .COMMA "Expected ',' after loop init"
      let varName ← (do
        if (← andThen isDtypeToken (check .IDENTIFIER)) then pure (← peek).lexeme else pure "")
      consume .RPAREN "Expected ')' after loop parameters"
      let body ← bodyOrSemicolon (parseBlock fuel) "Expected '\x7b' or ';' after loop(params)"
      pure (some (Stmt.IterStmt iterable varName body))

/-- Member `Parser::parseBlock`. -/
def parseBlock : Nat → P Block
  | 0 => outOfFuel
  | fuel + 1 => do
    let block ← parseBlockLoop fuel []
    consume .RBRACE "Expected '\x7d' to end block"
    pure block

/-- The `while` loop of `Parser::parseBlock` with the block filled so far. -/
def parseBlockLoop : Nat → Block → P Block
  | 0, _ => outOfFuel
  | fuel + 1, block => do
    if (← andThen (notP (check .RBRACE)) (notP isAtEnd)) then
      let s ← parseStatement fuel
      parseBlockLoop fuel (block.addStatement s)
    else pure block

end

/-- The part shared by `Parser::parseFuncDecl` and `Parser::parseFuncDef`:
the function name and the parameter list. -/
def parseFuncHead (fuel : Nat) : P (String × List (String × String)) := do
  let fname ← (do
    if (← check .IDENTIFIER) then pure (← peek).lexeme
    else
      logError "Expected function name after 'func'"
      pure "")
  let _ ← advance
  let params ← (do
    if (← matchTok .LPAREN) then parseArgList fuel
    else
      consume .LPAREN "Expected '(' after function name"
      pure [])
  pure (fname, params)

/-- Member `Parser::parseFuncDecl`. -/
def parseFuncDecl (fuel : Nat) : P (Option FuncDecl) := do
  let head ← parseFuncHead fuel
  consume .SEMICOLON "Expected ';' after function declaration."
  pure (some { name := head.1, params := head.2, body := none })

/-- Member `Parser::parseFuncDef`. -/
def parseFuncDef (fuel : Nat) : P (Option FuncDecl) := do
  let head ← parseFuncHead fuel
  let body ← (do
    if (← matchTok .LBRACE) then parseBlock fuel
    else
      consume .LBRACE "Expected '\x7b' to start function body"
      pure [])
  pure (some { name := head.1, params := head.2, body := some body })

/-- The `while` loop of `Parser::parseBlockDecl` with the members `fields` and
`methods` of the declaration as filled so far. -/
def parseBlockDeclLoop : Nat → List VarDecl → List FuncDecl →
    P (List VarDecl × List FuncDecl)
  | 0, _, _ => outOfFuel
  | fuel + 1, fields, methods => do
    if (← andThen (notP (check .RBRACE)) (notP isAtEnd)) then
      if (← isDtypeToken) then
        let fld ← parseVarDeclStmt fuel
        parseBlockDeclLoop fuel (fields ++ fld.toList) methods
      else if (← andThen (matchTok .AT) (check .FUNC)) then
        let _ ← advance
        let method ← parseFuncDecl fuel
        parseBlockDeclLoop fuel fields (methods ++ method.toList)
      else if (← matchTok .FUNC) then
        let method ← parseFuncDef fuel
        parseBlockDeclLoop fuel fields (methods ++ method.toList)
      else
        logError ("Unexpected token inside Block declaration: " ++ (← peek).lexeme)
        let _ ← advance
        parseBlockDeclLoop fuel fields methods
    else pure (fields, methods)

/-- Member `Parser::parseBlockDecl`. -/
def parseBlockDecl (fuel : Nat) : P DeclPtr := do
  let name ← (do
    if (← check .IDENTIFIER) then pure (← peek).lexeme
    else
      logError "Expected Block name after 'Block'"
      pure "")
  let _ ← advance
  if (← andThen (notP (check .LBRACE)) (notP (check .SEMICOLON))) then
    consume .SEMICOLON "Expected '\x7b' or ';' after Block name"
  if (← matchTok .LBRACE) then
    let r ← parseBlockDeclLoop fuel [] []
    consume .RBRACE "Unterminated Block, expected '\x7d'"
    pure (some (Decl.Block { name := name, fields := r.1, methods := r.2 }))
  else pure (some (Decl.Block { name := name, fields := [], methods := [] }))

/-- The part of `Parser::parseTopLevelDecl` from `if (match(FUNC))` to its
end. Control falls through to it when `@` is not followed by `func` and when
neither `Block` nor `@` matched. `parseDef`, `parseVar` and `again` are the
calls `parseFuncDef()`, `parseVarDeclStmt()` and `parseTopLevelDecl()`. -/
def topLevelFallThrough (parseDef : P (Option FuncDecl)) (parseVar : P (Option VarDecl))
    (again : P DeclPtr) : P DeclPtr := do
  if (← matchTok .FUNC) then
    pure ((← parseDef).map Decl.Func)
  else
    let h ← (do
      if (← matchTok .HEADER) then parseHeader else pure none)
    if h.isSome then pure h
    else if (← isDtypeToken) then
      let _ ← parseVar
      pure none
    else
      if (← andThen (notP isAtEnd) (do pure ((← peek).type != TokenType.END_OF_FILE))) then
        logError ("Unexpected token at top-level: " ++ (← peek).lexeme)
      let _ ← advance
      again

/-- Member `Parser::parseTopLevelDecl`. -/
def parseTopLevelDecl : Nat → P DeclPtr
  | 0 => outOfFuel
  | fuel + 1 => do
    if (← isAtEnd) then pure none
    else if (← matchTok .BLOCK) then parseBlockDecl fuel
    else if (← matchTok .AT) then
      if (← matchTok .FUNC) then
        pure ((← parseFuncDecl fuel).map Decl.Func)
      else
        logError "Expected 'func' after '@' for function declaration."
        topLevelFallThrough (parseFuncDef fuel) (parseVarDeclStmt fuel) (parseTopLevelDecl fuel)
    else
      topLevelFallThrough (parseFuncDef fuel) (parseVarDeclStmt fuel) (parseTopLevelDecl fuel)

/-- The `while` loop of `Parser::parse` with the vector `decls` filled so far. -/
def parseLoop : Nat → List Decl → P (List Decl)
  | 0, _ => outOfFuel
  | fuel + 1, decls => do
    if !(← isAtEnd) then
      let d ← parseTopLevelDecl fuel
      parseLoop fuel (decls ++ d.toList)
    else pure decls

/-- Member `Parser::parse` run with the iteration budget `fuel`. -/
def parseFuel (fuel : Nat) : P Program := do
  let decls ← parseLoop fuel []
  pure { decls := decls }

end Parser

/-- An iteration budget that every run of the parser stays below: sixteen
nested calls for each token and sixteen more. -/
def parseBudget (tokens : List Token) : Nat := 16 * tokens.length + 16

/-- The use `Parser parser(tokens); parser.parse()` of `main.cpp`: the run of
`Parser::parse` from a fresh parser over `tokens`. -/
def parse (tokens : List Token) : Res Program :=
  Parser.parseFuel (parseBudget tokens) { tokens := tokens }

/-! ## ast_printer.cpp (expressions) -/

mutual

/-- Member `AstPrinter::printExpr` on a non-null pointer, with `printLiteral`,
`printIdentifier`, `printUnary`, `printBinary` and `printCall` inlined at
their `dynamic_cast`. -/
def printExprNode : Expr → String
  | .Literal value _ => value
  | .Identifier name => name
  | .Unary op right =>
    op ++ (match right with
      | some r => printExprNode r
      | none => "<null>")
  | .Binary left op right =>
    "(" ++ (match left with
      | some l => printExprNode l
      | none => "<null>")
    ++ " " ++ op ++ " " ++ (match right with
      | some r => printExprNode r
      | none => "<null>") ++ ")"
  | .Call callee args =>
    (match callee with
      | some c => printExprNode c
      | none => "<null_expr>") ++ "(" ++ printArgs true args ++ ")"

/-- The loop over `c->args` of `AstPrinter::printCall`; `first` is its flag. -/
def printArgs : Bool → List (Option Expr) → String
  | _, [] => ""
  | first, a :: rest =>
    (if first then "" else ", ") ++ (match a with
      | some x => printExprNode x
      | none => "<null_expr>") ++ printArgs false rest

end

/-- Member `AstPrinter::printExpr`. -/
def printExpr (e : ExprPtr) : String :=
  match e with
  | some x => printExprNode x
  | none => "<null_expr>"

/-! ## Predicates used by the theorems -/

namespace Lexer

/-- What one call of a literal or identifier scanner does to the lexer: the
source is kept and the cursor does not move back. -/
def Keeps (lx lx1 : Lexer) : Prop := lx1.src = lx.src ∧ lx.pos ≤ lx1.pos

/-- What one pass through the `switch` of `Lexer::tokenize` must achieve
when it is entered on the lexer `lx`: the source is kept, at least one
character is consumed, and a pushed token is never `END_OF_FILE`. -/
def ScanOk (lx : Lexer) (r : Option Token × Lexer) : Prop :=
  r.2.src = lx.src ∧ lx.pos + 1 ≤ r.2.pos ∧ ∀ t, r.1 = some t → t.type ≠ .END_OF_FILE

end Lexer


/-- How tightly a token binds as a binary operator of the expression grammar
(the loop of `parseOr` is level 1, that of `parseFactor` level 6); the
parenthesis that opens a call binds tightest, and every other token has
level 0. -/
def bindLevel : TokenType → Nat
  | .OR => 1
  | .AND => 2
  | .EQ => 3
  | .NEQ => 3
  | .LT => 4
  | .LTE => 4
  | .GT => 4
  | .GTE => 4
  | .PLUS => 5
  | .MINUS => 5
  | .MUL => 6
  | .DIV => 6
  | .MOD => 6
  | .LPAREN => 7
  | _ => 0

/-- The token list `l` stands in `ts` from index `i` on. -/
def TokensAt (ts : List Token) (i : Nat) (l : List Token) : Prop :=
  ∃ r, ts.drop i = l ++ r

/-- The tokens of `o1 x1 o2 x2 ... on xn`, given as the pairs `(oj, xj)`. -/
def opOperands : List (Token × Token) → List Token
  | [] => []
  | (o, x) :: rest => o :: x :: opOperands rest

/-- The left-nested tree `Binary(...Binary(first, o1, x1)..., on, xn)` over
the pairs `(oj, xj)`; every node carries the lexeme of its operator token. -/
def leftNest (first : ExprPtr) : List (Token × Token) → ExprPtr
  | [] => first
  | (o, x) :: rest =>
    leftNest (some (Expr.Binary first o.lexeme (some (Expr.Identifier x.lexeme)))) rest

/-- The right-nested tree `Binary(x1, "=", Binary(x2, "=", ...))` of an
assignment chain whose first identifier is `first` and whose further
identifiers are the second components of `rest`. -/
def rightNest (first : Token) : List (Token × Token) → ExprPtr
  | [] => some (Expr.Identifier first.lexeme)
  | (_, x) :: rest =>
    some (Expr.Binary (some (Expr.Identifier first.lexeme)) "=" (rightNest x rest))

/-- The binary operators of the expression grammar that the lexer produces. -/
inductive BinOp where
  | assign | eq | neq | lt | lte | gt | gte | plus | minus | mul | div | mod
  deriving DecidableEq, Repr

/-- The token kind that `Lexer::tokenize` gives a binary operator. -/
def BinOp.type : BinOp → TokenType
  | .assign => .ASSIGN
  | .eq => .EQ
  | .neq => .NEQ
  | .lt => .LT
  | .lte => .LTE
  | .gt => .GT
  | .gte => .GTE
  | .plus => .PLUS
  | .minus => .MINUS
  | .mul => .MUL
  | .div => .DIV
  | .mod => .MOD

/-- The text of a binary operator, which is the lexeme of its token. -/
def BinOp.text : BinOp → String
  | .assign => "="
  | .eq => "=="
  | .neq => "!="
  | .lt => "<"
  | .lte => "<="
  | .gt => ">"
  | .gte => ">="
  | .plus => "+"
  | .minus => "-"
  | .mul => "*"
  | .div => "/"
  | .mod => "%"

/-- The precedence level of a binary operator: assignment (0) < equality (1)
< relational (2) < additive (3) < multiplicative (4). -/
def BinOp.level : BinOp → Nat
  | .assign => 0
  | .eq => 1
  | .neq => 1
  | .lt => 2
  | .lte => 2
  | .gt => 2
  | .gte => 2
  | .plus => 3
  | .minus => 3
  | .mul => 4
  | .div => 4
  | .mod => 4

/-- The token of a binary operator at a given line and column. -/
def BinOp.token (o : BinOp) (line column : Int) : Token :=
  { type := o.type, lexeme := o.text, line := line, column := column }

/-- The prefix operators `!`, `-` and `+`. -/
inductive PrefixOp where
  | not | minus | plus
  deriving DecidableEq, Repr

/-- The token kind of a prefix operator. -/
def PrefixOp.type : PrefixOp → TokenType
  | .not => .NOT
  | .minus => .MINUS
  | .plus => .PLUS

/-- The text of a prefix operator. -/
def PrefixOp.text : PrefixOp → String
  | .not => "!"
  | .minus => "-"
  | .plus => "+"

/-- The token of a prefix operator at a given line and column. -/
def PrefixOp.token (u : PrefixOp) (line column : Int) : Token :=
  { type := u.type, lexeme := u.text, line := line, column := column }

/-- An identifier token. -/
def identToken (name : String) (line column : Int) : Token :=
  { type := .IDENTIFIER, lexeme := name, line := line, column := column }

/-- An `END_OF_FILE` token. -/
def eofToken (line column : Int) : Token :=
  { type := .END_OF_FILE, lexeme := "", line := line, column := column }

/-- The expression `Identifier name` behind a non-null pointer. -/
def idExpr (name : String) : ExprPtr := some (Expr.Identifier name)

/-- The expression `Binary(left, op, right)` behind a non-null pointer. -/
def binExpr (left : ExprPtr) (op : String) (right : ExprPtr) : ExprPtr :=
  some (Expr.Binary left op right)

/-- The expression `Unary(op, operand)` behind a non-null pointer. -/
def unExpr (op : String) (operand : ExprPtr) : ExprPtr :=
  some (Expr.Unary op operand)


/-- The token kind at index `i` of `ts` (`END_OF_FILE` outside the list). -/
def typeAt (ts : List Token) (i : Nat) : TokenType :=
  match ts[i]? with
  | some t => t.type
  | none => .END_OF_FILE

/-- The token kinds accepted by `Parser::isDtypeToken`. -/
def isDtype (t : TokenType) : Bool :=
  t == .NUMBER || t == .TEXT || t == .BIN || t == .HEX || t == .COMPLEX || t == .VECTOR
    || t == .DATETIME || t == .BOOL || t == .BLOCK || t == .SEQUENCE || t == .HASH_MAP

/-- The token kinds accepted by `Parser::isLiteralToken`. -/
def isLiteralType (t : TokenType) : Bool :=
  t == .INT_LITERAL || t == .FLOAT_LITERAL || t == .STRING_LITERAL || t == .BIN_LITERAL
    || t == .HEX_LITERAL || t == .BOOL_LITERAL || t == .COMPLEX_LITERAL || t == .VECTOR_LITERAL
    || t == .DATETIME_LITERAL

/-- The token list `ts` has an `END_OF_FILE` token at index `k`. -/
structure EofAt (ts : List Token) (k : Nat) : Prop where
  lt : k < ts.length
  eof : typeAt ts k = .END_OF_FILE

/-- The member function `p`, started over the tokens `ts` with the cursor at
`i` and any diagnostics, returns normally: it leaves the tokens alone, the
cursor at some `j` with `i ≤ j ≤ k`, and its result `a` satisfies `Q a j`. -/
def Runs (ts : List Token) (k : Nat) {α : Type} (p : P α) (i : Nat)
    (Q : α → Nat → Prop) : Prop :=
  ∀ e : List String, ∃ a j e1, p ⟨ts, i, e⟩ = .ok a ⟨ts, j, e1⟩ ∧ i ≤ j ∧ j ≤ k ∧ Q a j

/-- The postcondition of an expression production: it consumes a token unless
it starts on a literal or on `END_OF_FILE`. -/
def MovesUnlessLiteral (ts : List Token) (i : Nat) {α : Type} : α → Nat → Prop :=
  fun _ j => isLiteralType (typeAt ts i) = false → typeAt ts i ≠ .END_OF_FILE → i < j

/-- The postcondition of a production that consumes a token unless it starts
on `END_OF_FILE`. -/
def MovesUnlessEof (ts : List Token) (i : Nat) {α : Type} : α → Nat → Prop :=
  fun _ j => typeAt ts i ≠ .END_OF_FILE → i < j

/-- The postcondition of a statement production with a body: it consumes a
token unless it starts on `;` or on `END_OF_FILE`. -/
def MovesUnlessSemicolon (ts : List Token) (i : Nat) {α : Type} : α → Nat → Prop :=
  fun _ j => typeAt ts i ≠ .SEMICOLON → typeAt ts i ≠ .END_OF_FILE → i < j

/-- The cursors at which an expression production may be entered: past the
first token, or on a first token that is neither a literal nor `END_OF_FILE`
(on these two `parsePrimary` calls `previous()` before the cursor has
moved). -/
abbrev ExprStart (ts : List Token) (i : Nat) : Prop :=
  1 ≤ i ∨ (isLiteralType (typeAt ts i) = false ∧ typeAt ts i ≠ .END_OF_FILE)

/-- The postcondition that holds of every run. -/
def Anyhow {α : Type} : α → Nat → Prop := fun _ _ => True

/-- The postcondition of `match` and of the tests built from it with `||`:
the cursor has moved by one token when the result is true and has not moved
when it is false. -/
def Matched (i : Nat) : Bool → Nat → Prop :=
  fun b j => (b = true → j = i + 1) ∧ (b = false → j = i)

/-- The expression productions return normally from every cursor `i ≤ k` at
which they may be entered when run with the budget `fuel`, provided `fuel` is
at least sixteen times the distance to `k` plus the rank of the production;
the loops of the binary levels and of the call arguments are entered past the
first token. -/
structure ExprRuns (ts : List Token) (k fuel : Nat) : Prop where
  primary : ∀ i, ExprStart ts i → i ≤ k → 16 * (k - i) + 1 ≤ fuel →
    Runs ts k (Parser.parsePrimary fuel) i (MovesUnlessLiteral ts i)
  unary : ∀ i, ExprStart ts i → i ≤ k → 16 * (k - i) + 2 ≤ fuel →
    Runs ts k (Parser.parseUnary fuel) i (MovesUnlessLiteral ts i)
  factorLoop : ∀ i expr, 1 ≤ i → i ≤ k → 16 * (k - i) + 1 ≤ fuel →
    Runs ts k (Parser.parseFactorLoop fuel expr) i Anyhow
  factor : ∀ i, ExprStart ts i → i ≤ k → 16 * (k - i) + 3 ≤ fuel →
    Runs ts k (Parser.parseFactor fuel) i (MovesUnlessLiteral ts i)
  termLoop : ∀ i expr, 1 ≤ i → i ≤ k → 16 * (k - i) + 1 ≤ fuel →
    Runs ts k (Parser.parseTermLoop fuel expr) i Anyhow
  term : ∀ i, ExprStart ts i → i ≤ k → 16 * (k - i) + 4 ≤ fuel →
    Runs ts k (Parser.parseTerm fuel) i (MovesUnlessLiteral ts i)
  comparisonLoop : ∀ i expr, 1 ≤ i → i ≤ k → 16 * (k - i) + 1 ≤ fuel →
    Runs ts k (Parser.parseComparisonLoop fuel expr) i Anyhow
  comparison : ∀ i, ExprStart ts i → i ≤ k → 16 * (k - i) + 5 ≤ fuel →
    Runs ts k (Parser.parseComparison fuel) i (MovesUnlessLiteral ts i)
  equalityLoop : ∀ i expr, 1 ≤ i → i ≤ k → 16 * (k - i) + 1 ≤ fuel →
    Runs ts k (Parser.parseEqualityLoop fuel expr) i Anyhow
  equality : ∀ i, ExprStart ts i → i ≤ k → 16 * (k - i) + 6 ≤ fuel →
    Runs ts k (Parser.parseEquality fuel) i (MovesUnlessLiteral ts i)
  andLoop : ∀ i expr, 1 ≤ i → i ≤ k → 16 * (k - i) + 1 ≤ fuel →
    Runs ts k (Parser.parseAndLoop fuel expr) i Anyhow
  and : ∀ i, ExprStart ts i → i ≤ k → 16 * (k - i) + 7 ≤ fuel →
    Runs ts k (Parser.parseAnd fuel) i (MovesUnlessLiteral ts i)
  orLoop : ∀ i expr, 1 ≤ i → i ≤ k → 16 * (k - i) + 1 ≤ fuel →
    Runs ts k (Parser.parseOrLoop fuel expr) i Anyhow
  or : ∀ i, ExprStart ts i → i ≤ k → 16 * (k - i) + 8 ≤ fuel →
    Runs ts k (Parser.parseOr fuel) i (MovesUnlessLiteral ts i)
  assignment : ∀ i, ExprStart ts i → i ≤ k → 16 * (k - i) + 9 ≤ fuel →
    Runs ts k (Parser.parseAssignment fuel) i (MovesUnlessLiteral ts i)
  expression : ∀ i, ExprStart ts i → i ≤ k → 16 * (k - i) + 10 ≤ fuel →
    Runs ts k (Parser.parseExpression fuel) i (MovesUnlessLiteral ts i)
  callArgs : ∀ i args, 1 ≤ i → i ≤ k → 16 * (k - i) + 11 ≤ fuel →
    Runs ts k (Parser.parseCallArgs fuel args) i Anyhow

/-- The statement productions return normally from every cursor `i ≤ k` that
is past the first token or not on `END_OF_FILE` when run with the budget
`fuel`, provided `fuel` is at least sixteen times the distance to `k` plus
the rank of the production. A statement and a block move the cursor unless
they start on `END_OF_FILE`; the statements with a body move it unless they
start on `;` or on `END_OF_FILE`. -/
structure StmtRuns (ts : List Token) (k fuel : Nat) : Prop where
  statement : ∀ i, 1 ≤ i ∨ typeAt ts i ≠ .END_OF_FILE → i ≤ k → 16 * (k - i) + 12 ≤ fuel →
    Runs ts k (Parser.parseStatement fuel) i (MovesUnlessEof ts i)
  ifStmt : ∀ i, 1 ≤ i ∨ typeAt ts i ≠ .END_OF_FILE → i ≤ k → 16 * (k - i) + 15 ≤ fuel →
    Runs ts k (Parser.parseIfStmt fuel) i (MovesUnlessSemicolon ts i)
  elseChain : ∀ i a b, 1 ≤ i → i ≤ k → 16 * (k - i) + 1 ≤ fuel →
    Runs ts k (Parser.parseElseChain fuel a b) i Anyhow
  whileStmt : ∀ i, 1 ≤ i ∨ typeAt ts i ≠ .END_OF_FILE → i ≤ k → 16 * (k - i) + 15 ≤ fuel →
    Runs ts k (Parser.parseWhileStmt fuel) i (MovesUnlessSemicolon ts i)
  loopStmt : ∀ i, 1 ≤ i ∨ typeAt ts i ≠ .END_OF_FILE → i ≤ k → 16 * (k - i) + 15 ≤ fuel →
    Runs ts k (Parser.parseLoopStmt fuel) i (MovesUnlessSemicolon ts i)
  iterStmt : ∀ i, 1 ≤ i ∨ typeAt ts i ≠ .END_OF_FILE → i ≤ k → 16 * (k - i) + 15 ≤ fuel →
    Runs ts k (Parser.parseIterStmt fuel) i (MovesUnlessSemicolon ts i)
  block : ∀ i, 1 ≤ i ∨ typeAt ts i ≠ .END_OF_FILE → i ≤ k → 16 * (k - i) + 14 ≤ fuel →
    Runs ts k (Parser.parseBlock fuel) i (MovesUnlessEof ts i)
  blockLoop : ∀ i b, 1 ≤ i ∨ typeAt ts i ≠ .END_OF_FILE → i ≤ k → 16 * (k - i) + 13 ≤ fuel →
    Runs ts k (Parser.parseBlockLoop fuel b) i
      (fun _ j => 1 ≤ j ∨ typeAt ts j ≠ .END_OF_FILE)

/-- The postcondition of the loop of `Parser::parse`: the cursor stands on an
`END_OF_FILE` token. -/
def StopsAtEof (ts : List Token) {α : Type} : α → Nat → Prop :=
  fun _ j => typeAt ts j = .END_OF_FILE

/-! ## Character classes and tables of the lexer claims -/

/-- The characters that `Lexer::skipWhitespace` skips. -/
def isSpace (c : Char) : Bool := c == ' ' || c == '\t' || c == '\r' || c == '\n'

/-- The characters that have a `case` of their own in the `switch` of
`Lexer::tokenize`, the quote and the zero apart: punctuation and operators. -/
def punctChars : List Char :=
  [ '\x7b', '\x7d', '(', ')', '[', ']', ';', ',', ':', '.', '#', '@', '+', '-', '*', '/', '%',
    '=', '!', '<', '>' ]

/-- A punctuation or operator character. -/
def isPunct (c : Char) : Bool := punctChars.contains c

/-- A character that is neither white space, punctuation or operator, the
quote, a letter, a digit nor the underscore. -/
def unrecognized (c : Char) : Bool :=
  !isSpace c && !isPunct c && !(c == '"') && !isalnum c && !(c == '_')

/-- The first character of an identifier or keyword: `[A-Za-z_]`. -/
def isWordStart (c : Char) : Bool := isalpha c || c == '_'

/-- A further character of an identifier or keyword: `[A-Za-z0-9_]`. -/
def isWordChar (c : Char) : Bool := isalnum c || c == '_'

/-- The keyword table as the specification lists it: 21 words. -/
def specKeywords : List (String × TokenType) :=
  [ ("main", .MAIN), ("Block", .BLOCK), ("if", .IF), ("else", .ELSE),
    ("iter", .ITER), ("loop", .LOOP), ("while", .WHILE),
    ("func", .FUNC), ("header", .HEADER), ("as", .AS), ("number", .NUMBER),
    ("text", .TEXT), ("bin", .BIN), ("hex", .HEX), ("complex", .COMPLEX),
    ("vector", .VECTOR), ("sequence", .SEQUENCE), ("hash_map", .HASH_MAP),
    ("datetime", .DATETIME), ("bool", .BOOL), ("return", .RETURN) ]

/-- The kind the specification gives a word: the keyword kind for one of the
21 keywords and `IDENTIFIER` for every other word. -/
def wordKind (w : String) : TokenType :=
  (specKeywords.lookup w).getD .IDENTIFIER

/-- The operators with a two-character form: first character, pairing
character, kind of the long token and kind of the short one. -/
def pairedOps : List (Char × Char × TokenType × TokenType) :=
  [ ('-', '>', .ARROW, .MINUS), ('=', '=', .EQ, .ASSIGN), ('!', '=', .NEQ, .NOT),
    ('<', '=', .LTE, .LT), ('>', '=', .GTE, .GT) ]

/-- A word of the shape `[A-Za-z_][A-Za-z0-9_]*`. -/
def isWord (w : String) : Bool :=
  match w.toList with
  | c :: rest => isWordStart c && rest.all isWordChar
  | [] => false

/-! ## Predicates of the parser claims -/

mutual

/-- No operand slot of the tree is a null pointer: both operands of every
`Binary` node and the operand of every `Unary` node are present, and so are
the callee and the arguments of every `Call` node. -/
def Expr.full : Expr → Bool
  | .Identifier _ => true
  | .Literal _ _ => true
  | .Unary _ right =>
    (match right with
      | some r => r.full
      | none => false)
  | .Binary left _ right =>
    (match left with
      | some l => l.full
      | none => false) &&
    (match right with
      | some r => r.full
      | none => false)
  | .Call callee args =>
    (match callee with
      | some c => c.full
      | none => false) && Expr.fullArgs args

/-- Every argument of the list is present and has no null operand slot. -/
def Expr.fullArgs : List (Option Expr) → Bool
  | [] => true
  | a :: rest =>
    (match a with
      | some x => x.full
      | none => false) && Expr.fullArgs rest

end

/-- The pointer is not null and the tree behind it has no null operand
slot. -/
def fullPtr (e : ExprPtr) : Bool :=
  match e with
  | some x => x.full
  | none => false

/-- Every normal return of the member function `p` gives a result that
satisfies `Q`. -/
def Yields {α : Type} (p : P α) (Q : α → Prop) : Prop :=
  ∀ st a st1, p st = .ok a st1 → Q a

/-- Every expression production, run with the budget `fuel`, returns only
non-null expressions without a null operand slot; the loops do so when they
are entered with such an expression. -/
structure ExprFull (fuel : Nat) : Prop where
  primary : Yields (Parser.parsePrimary fuel) (fun e => fullPtr e = true)
  unary : Yields (Parser.parseUnary fuel) (fun e => fullPtr e = true)
  factorLoop : ∀ expr, fullPtr expr = true →
    Yields (Parser.parseFactorLoop fuel expr) (fun e => fullPtr e = true)
  factor : Yields (Parser.parseFactor fuel) (fun e => fullPtr e = true)
  termLoop : ∀ expr, fullPtr expr = true →
    Yields (Parser.parseTermLoop fuel expr) (fun e => fullPtr e = true)
  term : Yields (Parser.parseTerm fuel) (fun e => fullPtr e = true)
  comparisonLoop : ∀ expr, fullPtr expr = true →
    Yields (Parser.parseComparisonLoop fuel expr) (fun e => fullPtr e = true)
  comparison : Yields (Parser.parseComparison fuel) (fun e => fullPtr e = true)
  equalityLoop : ∀ expr, fullPtr expr = true →
    Yields (Parser.parseEqualityLoop fuel expr) (fun e => fullPtr e = true)
  equality : Yields (Parser.parseEquality fuel) (fun e => fullPtr e = true)
  andLoop : ∀ expr, fullPtr expr = true →
    Yields (Parser.parseAndLoop fuel expr) (fun e => fullPtr e = true)
  and : Yields (Parser.parseAnd fuel) (fun e => fullPtr e = true)
  orLoop : ∀ expr, fullPtr expr = true →
    Yields (Parser.parseOrLoop fuel expr) (fun e => fullPtr e = true)
  or : Yields (Parser.parseOr fuel) (fun e => fullPtr e = true)
  assignment : Yields (Parser.parseAssignment fuel) (fun e => fullPtr e = true)
  expression : Yields (Parser.parseExpression fuel) (fun e => fullPtr e = true)
  callArgs : ∀ args, Expr.fullArgs args = true →
    Yields (Parser.parseCallArgs fuel args) (fun l => Expr.fullArgs l = true)

/-! ## Properties of every node of a program -/

mutual

/-- The test `p` holds of the statement and of every statement nested in it:
in the blocks of an `If` and of its else-if and else branches, in the body of
a `While`, a `Loop` or an `Iter`, and in the init and step of a `Loop`. -/
def Stmt.every (p : Stmt → Bool) : Stmt → Bool
  | .ExprStmt e => p (.ExprStmt e)
  | .ReturnStmt v => p (.ReturnStmt v)
  | .IfStmt (c, blk) elseIfs elseBlock =>
    p (.IfStmt (c, blk) elseIfs elseBlock) && Stmt.everyList p blk &&
      (match elseIfs with
        | some l => Stmt.everyBranch p l
        | none => true) &&
      (match elseBlock with
        | some b => Stmt.everyList p b
        | none => true)
  | .WhileStmt c body => p (.WhileStmt c body) && Stmt.everyList p body
  | .LoopStmt dtype init c step body =>
    p (.LoopStmt dtype init c step body) &&
      (match init with
        | some s => Stmt.every p s
        | none => true) &&
      (match step with
        | some s => Stmt.every p s
        | none => true) && Stmt.everyList p body
  | .IterStmt it v body => p (.IterStmt it v body) && Stmt.everyList p body
  | .VarDeclStmt d => p (.VarDeclStmt d)

/-- The test `p` holds of every statement of the list and of the statements
nested in them. -/
def Stmt.everyList (p : Stmt → Bool) : List Stmt → Bool
  | [] => true
  | s :: rest => Stmt.every p s && Stmt.everyList p rest

/-- The test `p` holds of every statement in the blocks of the branches. -/
def Stmt.everyBranch (p : Stmt → Bool) : List (ExprPtr × List Stmt) → Bool
  | [] => true
  | (_, blk) :: rest => Stmt.everyList p blk && Stmt.everyBranch p rest

end

/-- The test `p` holds of every statement in the body of the function, if it
has one. -/
def FuncDecl.every (p : Stmt → Bool) (f : FuncDecl) : Bool :=
  match f.body with
  | some b => Stmt.everyList p b
  | none => true

/-- The test `q` holds of every field and the test `p` of every statement of
every method of the declaration. -/
def Decl.every (p : Stmt → Bool) (q : VarDecl → Bool) : Decl → Bool
  | .Header _ => true
  | .Func f => f.every p
  | .Block b => b.fields.all q && b.methods.all (FuncDecl.every p)

/-- The test `q` holds of every global variable and of every field, and the
test `p` of every statement of the program. -/
def Program.every (p : Stmt → Bool) (q : VarDecl → Bool) (program : Program) : Bool :=
  program.decls.all (Decl.every p q) && program.globalVars.all q

/-- An `If` node has neither else-if branches nor an else block; every other
node passes. -/
def hasNoElse : Stmt → Bool
  | .IfStmt _ elseIfs elseBlock => elseIfs.isNone && elseBlock.isNone
  | _ => true

/-- The variable name of the declaration is its type name. -/
def namedByType (d : VarDecl) : Bool := d.varName == d.typeName

/-- A variable declaration statement has its type name as variable name;
every other node passes. -/
def declNamedByType : Stmt → Bool
  | .VarDeclStmt d => namedByType d
  | _ => true

/-- What a test on statements must grant for the parser to satisfy it on
every node it builds: it holds of the nodes other than `If` and variable
declarations, of an `If` without else-if branches and else block, and of a
variable declaration whose variable name is its type name. -/
structure BuiltBy (p : Stmt → Bool) : Prop where
  expr : ∀ e, p (.ExprStmt e) = true
  ret : ∀ v, p (.ReturnStmt v) = true
  whileStmt : ∀ c b, p (.WhileStmt c b) = true
  loopStmt : ∀ d i c s b, p (.LoopStmt d i c s b) = true
  iterStmt : ∀ it v b, p (.IterStmt it v b) = true
  ifStmt : ∀ ib, p (.IfStmt ib none none) = true
  varDecl : ∀ d, namedByType d = true → p (.VarDeclStmt d) = true

/-- The test `p` holds of every statement behind the pointer, if it is not
null. -/
def everyStmtPtr (p : Stmt → Bool) (s : StmtPtr) : Bool :=
  match s with
  | some x => Stmt.every p x
  | none => true

/-- The test `p` holds of every statement of the function behind the pointer,
if it is not null. -/
def everyFuncPtr (p : Stmt → Bool) (f : Option FuncDecl) : Bool :=
  match f with
  | some x => x.every p
  | none => true

/-- The tests hold of the declaration behind the pointer, if it is not
null. -/
def everyDeclPtr (p : Stmt → Bool) (q : VarDecl → Bool) (d : DeclPtr) : Bool :=
  match d with
  | some x => x.every p q
  | none => true

/-- Every statement production, run with the budget `fuel`, returns only
statements and blocks all of whose nodes pass the test `p`. -/
structure StmtBuilt (p : Stmt → Bool) (fuel : Nat) : Prop where
  statement : Yields (Parser.parseStatement fuel) (fun s => everyStmtPtr p s = true)
  ifStmt : Yields (Parser.parseIfStmt fuel) (fun s => everyStmtPtr p s = true)
  whileStmt : Yields (Parser.parseWhileStmt fuel) (fun s => everyStmtPtr p s = true)
  loopStmt : Yields (Parser.parseLoopStmt fuel) (fun s => everyStmtPtr p s = true)
  iterStmt : Yields (Parser.parseIterStmt fuel) (fun s => everyStmtPtr p s = true)
  block : Yields (Parser.parseBlock fuel) (fun b => Stmt.everyList p b = true)
  blockLoop : ∀ b, Stmt.everyList p b = true →
    Yields (Parser.parseBlockLoop fuel b) (fun b1 => Stmt.everyList p b1 = true)

/-! ## Line and column of the tokens -/

/-- The lexer stands on or after line 1, column 1. -/
def Lexer.Placed (lx : Lexer) : Prop := 1 ≤ lx.line ∧ 1 ≤ lx.column

/-- The lexer `r` was reached from `base` inside the input without crossing a
line break: same line, the column moved on by as much as the position, and
none of the characters passed is a line break. -/
def Lexer.Tracks (base r : Lexer) : Prop :=
  r.src = base.src ∧ r.line = base.line ∧ base.pos ≤ r.pos ∧ r.pos ≤ base.src.length ∧
    r.column = base.column + ((r.pos - base.pos : Nat) : Int) ∧
    ∀ idx, base.pos ≤ idx → idx < r.pos → base.src.getD idx '\x00' ≠ '\n'

/-- The position of a token as the lexer guarantees it: the line is at least
1, and the column is at least 1 exactly when the lexeme holds no line break
after its first character. -/
def Token.Placed (t : Token) : Prop :=
  1 ≤ t.line ∧ (1 ≤ t.column ↔ '\n' ∉ t.lexeme.toList.tail)

/-- The outcome of one pass through the `switch` of `Lexer::tokenize` keeps
the lexer and the pushed token placed. -/
def Lexer.ScanPlaced (r : Option Token × Lexer) : Prop :=
  r.2.Placed ∧ ∀ t, r.1 = some t → t.Placed

/-! ## The header of a `loop` statement -/

/-- The diagnostic that `Parser::logError` records for the message `msg` with
the cursor on the token `t`. -/
def logErrorText (t : Token) (msg : String) : String :=
  "Parse error at line " ++ toString t.line ++ ", col " ++ toString t.column ++ ": " ++ msg

/-- One optional part of a loop header that starts at cursor `i` and ends on
the separator `stop` at cursor `j`: either the part is left out (`none`) and
the separator is the token at `i` itself, or (`some e`) it begins with an
identifier and `parseExpression` reads it from `i` up to `j` as `e` without
recording a diagnostic. -/
def Parser.HeaderPart (ts : List Token) (fuel : Nat) (errs : List String) (stop : TokenType)
    (i : Nat) : Option ExprPtr → Nat → Prop
  | none, j => j = i ∧ typeAt ts i = stop
  | some e, j => typeAt ts i = .IDENTIFIER ∧
      Parser.parseExpression fuel ⟨ts, i, errs⟩ = .ok e ⟨ts, j, errs⟩ ∧ typeAt ts j = stop

/-- The diagnostics after the init part of a loop header: a missing init adds
the message of `parseLoopStmt` at the token `t` where it was expected. -/
def Parser.afterInit (errs : List String) (t : Token) (init : Option ExprPtr) : List String :=
  match init with
  | none => errs ++ [logErrorText t "Expected loop initialization statement"]
  | some _ => errs
/-! ## The lexer never stops early and emits `END_OF_FILE` only at the end -/

namespace Lexer

@[simp] theorem advance_src (lx : Lexer) : lx.advance.2.src = lx.src := rfl

@[simp] theorem advance_pos (lx : Lexer) : lx.advance.2.pos = lx.pos + 1 := rfl

theorem keywords_not_eof (text : String) (ty : TokenType)
    (h : keywords.lookup text = some ty) : ty ≠ .END_OF_FILE := by
  have key : ∀ (l : List (String × TokenType)), (∀ p ∈ l, p.2 ≠ TokenType.END_OF_FILE) →
      l.lookup text = some ty → ty ≠ .END_OF_FILE := by
    intro l
    induction l with
    | nil => intro _ h; simp [List.lookup] at h
    | cons p l ih =>
      intro hl h
      obtain ⟨a, b⟩ := p
      simp only [List.lookup] at h
      split at h
      · have := hl (a, b) (by simp)
        simp only [Option.some.injEq] at h
        subst h; exact this
      · exact ih (fun q hq => hl q (by simp [hq])) h
  exact key keywords (by decide) h

theorem advanceWhile_src (p : Char → Bool) (n : Nat) (lx : Lexer) :
    (advanceWhile p n lx).src = lx.src := by
  induction n generalizing lx with
  | zero => rfl
  | succ n ih =>
    simp only [advanceWhile]
    split
    · rw [ih]; rfl
    · rfl

theorem advanceWhile_pos (p : Char → Bool) (n : Nat) (lx : Lexer) :
    lx.pos ≤ (advanceWhile p n lx).pos := by
  induction n generalizing lx with
  | zero => exact Nat.le_refl _
  | succ n ih =>
    simp only [advanceWhile]
    split
    · have := ih lx.advance.2
      simp only [advance_pos] at this
      omega
    · exact Nat.le_refl _

theorem advanceWhile_progress (p : Char → Bool) (n : Nat) (lx : Lexer)
    (hn : 0 < n) (hend : lx.isAtEnd = false) (hp : p lx.peek = true) :
    lx.pos + 1 ≤ (advanceWhile p n lx).pos := by
  obtain ⟨m, rfl⟩ : ∃ m, n = m + 1 := ⟨n - 1, by omega⟩
  simp only [advanceWhile, hend, hp, Bool.not_false, Bool.and_self, if_true]
  have := advanceWhile_pos p m lx.advance.2
  simpa using this

theorem skipWhitespaceLoop_src (n : Nat) (lx : Lexer) :
    (skipWhitespaceLoop n lx).src = lx.src := by
  induction n generalizing lx with
  | zero => rfl
  | succ n ih =>
    simp only [skipWhitespaceLoop]
    split
    · rfl
    · split
      · rw [ih]; rfl
      · split
        · rw [ih]; rfl
        · rfl

theorem skipWhitespaceLoop_pos (n : Nat) (lx : Lexer) :
    lx.pos ≤ (skipWhitespaceLoop n lx).pos := by
  induction n generalizing lx with
  | zero => exact Nat.le_refl _
  | succ n ih =>
    simp only [skipWhitespaceLoop]
    split
    · exact Nat.le_refl _
    · split
      · have := ih lx.advance.2
        simp only [advance_pos] at this
        omega
      · split
        · refine Nat.le_trans ?_ (ih _)
          simp only [advance_pos]
          exact Nat.le_succ _
        · exact Nat.le_refl _

theorem skipWhitespace_src (lx : Lexer) : lx.skipWhitespace.src = lx.src :=
  skipWhitespaceLoop_src _ lx

theorem skipWhitespace_pos (lx : Lexer) : lx.pos ≤ lx.skipWhitespace.pos :=
  skipWhitespaceLoop_pos _ lx

theorem skipComment_src (lx : Lexer) : lx.skipComment.src = lx.src := by
  unfold skipComment
  split
  · exact advanceWhile_src _ _ lx
  · rfl

theorem skipComment_pos (lx : Lexer) : lx.pos ≤ lx.skipComment.pos := by
  unfold skipComment
  split
  · exact advanceWhile_pos _ _ lx
  · exact Nat.le_refl _

theorem stringLoop_src (n : Nat) (lx : Lexer) : (stringLoop n lx).src = lx.src := by
  induction n generalizing lx with
  | zero => rfl
  | succ n ih =>
    simp only [stringLoop]
    split
    · rw [ih]; simp only [advance_src]; split <;> rfl
    · rfl

theorem stringLoop_pos (n : Nat) (lx : Lexer) : lx.pos ≤ (stringLoop n lx).pos := by
  induction n generalizing lx with
  | zero => exact Nat.le_refl _
  | succ n ih =>
    simp only [stringLoop]
    split
    · refine Nat.le_trans ?_ (ih _)
      simp only [advance_pos]
      split <;> exact Nat.le_succ _
    · exact Nat.le_refl _

theorem stringLiteral_spec (lx : Lexer) :
    Keeps lx lx.stringLiteral.2 ∧ lx.stringLiteral.1.type = .STRING_LITERAL := by
  unfold stringLiteral Keeps
  have h1 := stringLoop_src (lx.advance.2.src.length - lx.advance.2.pos) lx.advance.2
  have h2 := stringLoop_pos (lx.advance.2.src.length - lx.advance.2.pos) lx.advance.2
  simp only [advance_src, advance_pos] at h1 h2
  simp only [advance_src, advance_pos]
  split
  · exact ⟨⟨h1, Nat.le_trans (Nat.le_succ _) h2⟩, rfl⟩
  · exact ⟨⟨h1, Nat.le_trans (Nat.le_succ _) (Nat.le_trans h2 (Nat.le_succ _))⟩, rfl⟩

theorem number_spec (lx : Lexer) :
    Keeps lx lx.number.2 ∧ lx.number.1.type = .FLOAT_LITERAL := by
  unfold number Keeps
  have h1 := advanceWhile_src isdigit (lx.src.length - lx.pos) lx
  have h2 := advanceWhile_pos isdigit (lx.src.length - lx.pos) lx
  simp only
  split
  · refine ⟨⟨?_, ?_⟩, rfl⟩
    · rw [advanceWhile_src, advance_src, h1]
    · refine Nat.le_trans ?_ (advanceWhile_pos _ _ _)
      simp only [advance_pos]; omega
  · exact ⟨⟨h1, h2⟩, rfl⟩

theorem number_progress (lx : Lexer) (hend : lx.isAtEnd = false)
    (hp : isdigit lx.peek = true) : lx.pos + 1 ≤ lx.number.2.pos := by
  have hlen : 0 < lx.src.length - lx.pos := by
    simp only [isAtEnd, decide_eq_false_iff_not, not_le] at hend
    omega
  have h2 := advanceWhile_progress isdigit (lx.src.length - lx.pos) lx hlen hend hp
  unfold number
  simp only
  split
  · refine Nat.le_trans ?_ (advanceWhile_pos _ _ _)
    simp only [advance_pos]; omega
  · exact h2

theorem identifier_spec (lx : Lexer) :
    Keeps lx lx.identifier.2 ∧ lx.identifier.1.type ≠ .END_OF_FILE := by
  unfold identifier Keeps
  simp only
  split
  · next ty h =>
    exact ⟨⟨advanceWhile_src _ _ lx, advanceWhile_pos _ _ lx⟩, keywords_not_eof _ ty h⟩
  · exact ⟨⟨advanceWhile_src _ _ lx, advanceWhile_pos _ _ lx⟩, by simp [makeToken]⟩

theorem identifier_progress (lx : Lexer) (hend : lx.isAtEnd = false)
    (hp : (isalnum lx.peek || lx.peek == '_') = true) : lx.pos + 1 ≤ lx.identifier.2.pos := by
  have hlen : 0 < lx.src.length - lx.pos := by
    simp only [isAtEnd, decide_eq_false_iff_not, not_le] at hend
    omega
  have h2 := advanceWhile_progress (fun c => isalnum c || c == '_')
    (lx.src.length - lx.pos) lx hlen hend hp
  unfold identifier
  simp only
  split <;> exact h2

theorem binLiteral_spec (lx : Lexer) :
    Keeps lx lx.binLiteral.2 ∧ lx.binLiteral.1.type = .BIN_LITERAL :=
  ⟨⟨advanceWhile_src _ _ lx, advanceWhile_pos _ _ lx⟩, rfl⟩

theorem hexLiteral_spec (lx : Lexer) :
    Keeps lx lx.hexLiteral.2 ∧ lx.hexLiteral.1.type = .HEX_LITERAL :=
  ⟨⟨advanceWhile_src _ _ lx, advanceWhile_pos _ _ lx⟩, rfl⟩

theorem twoChar_spec (lx : Lexer) (second : Char) (long short : TokenType)
    (ll sl : String) (hl : long ≠ .END_OF_FILE) (hs : short ≠ .END_OF_FILE) :
    Keeps lx (twoChar lx second long ll short sl).2 ∧
      ∀ t, (twoChar lx second long ll short sl).1 = some t → t.type ≠ .END_OF_FILE := by
  unfold twoChar matchChar Keeps
  simp only
  split
  · simp [makeToken, hs]
  · split
    · simp [makeToken, hs]
    · simp [makeToken, hl]

/-- The lexer after `pos--; column--;` on the state left by `advance()`. -/
theorem unadvance_facts (lx : Lexer) :
    let back : Lexer :=
      { lx.advance.2 with pos := lx.advance.2.pos - 1, column := lx.advance.2.column - 1 }
    back.src = lx.src ∧ back.pos = lx.pos ∧ back.isAtEnd = lx.isAtEnd ∧ back.peek = lx.peek := by
  simp [advance, peek, isAtEnd]

theorem scanOk_simple (lx : Lexer) (ty : TokenType) (s : String) (hty : ty ≠ .END_OF_FILE) :
    ScanOk lx (some (lx.advance.2.makeToken ty s), lx.advance.2) := by
  refine ⟨rfl, Nat.le_refl _, ?_⟩
  intro t ht
  simp only [Option.some.injEq] at ht
  subst ht
  exact hty

theorem scanOk_twoChar (lx : Lexer) (second : Char) (long short : TokenType) (ll sl : String)
    (hl : long ≠ .END_OF_FILE) (hs : short ≠ .END_OF_FILE) :
    ScanOk lx (twoChar lx.advance.2 second long ll short sl) := by
  obtain ⟨⟨h1, h2⟩, h3⟩ := twoChar_spec lx.advance.2 second long short ll sl hl hs
  exact ⟨h1, h2, h3⟩

theorem scanOk_literal (lx base : Lexer) (r : Token × Lexer) (hsrc : base.src = lx.src)
    (hpos : lx.pos + 1 ≤ base.pos) (hk : Keeps base r.2) (hty : r.1.type ≠ .END_OF_FILE) :
    ScanOk lx (some r.1, r.2) := by
  refine ⟨hk.1.trans hsrc, Nat.le_trans hpos hk.2, ?_⟩
  intro t ht
  simp only [Option.some.injEq] at ht
  subst ht
  exact hty

theorem scanOk_ite (lx : Lexer) {c : Prop} [Decidable c] {a b : Option Token × Lexer}
    (ha : c → ScanOk lx a) (hb : ¬c → ScanOk lx b) : ScanOk lx (if c then a else b) := by
  by_cases h : c
  · rw [if_pos h]; exact ha h
  · rw [if_neg h]; exact hb h

/-- One pass through the `switch` of `Lexer::tokenize`, entered away from the
end of the input, consumes at least one character and pushes no
`END_OF_FILE` token. -/
theorem scanToken_spec (lx : Lexer) (hend : lx.isAtEnd = false) :
    ScanOk lx (scanToken lx.advance.1 lx.advance.2) := by
  obtain ⟨bsrc, bpos, bend, bpeek⟩ := unadvance_facts lx
  simp only at bsrc bpos bend bpeek
  unfold scanToken
  iterate 11 refine scanOk_ite lx (fun _ => scanOk_simple lx _ _ (by decide)) (fun _ => ?_)
  refine scanOk_ite lx (fun _ => scanOk_simple lx _ _ (by decide)) (fun hat => ?_)
  refine scanOk_ite lx (fun _ => scanOk_simple lx _ _ (by decide)) (fun _ => ?_)
  refine scanOk_ite lx (fun _ => scanOk_twoChar lx _ _ _ _ _ (by decide) (by decide)) (fun _ => ?_)
  iterate 3 refine scanOk_ite lx (fun _ => scanOk_simple lx _ _ (by decide)) (fun _ => ?_)
  iterate 4
    refine scanOk_ite lx (fun _ => scanOk_twoChar lx _ _ _ _ _ (by decide) (by decide))
      (fun _ => ?_)
  refine scanOk_ite lx (fun _ => ?_) (fun _ => ?_)
  · have := stringLiteral_spec lx.advance.2
    exact scanOk_literal lx lx.advance.2 _ rfl (Nat.le_refl _) this.1 (by rw [this.2]; decide)
  refine scanOk_ite lx (fun _ => ?_) (fun _ => ?_)
  · refine scanOk_ite lx (fun _ => ?_) (fun _ => scanOk_ite lx (fun _ => ?_) (fun _ => ?_))
    · have := binLiteral_spec lx.advance.2.advance.2
      exact scanOk_literal lx lx.advance.2.advance.2 _ rfl (Nat.le_succ _) this.1
        (by rw [this.2]; decide)
    · have := hexLiteral_spec lx.advance.2.advance.2
      exact scanOk_literal lx lx.advance.2.advance.2 _ rfl (Nat.le_succ _) this.1
        (by rw [this.2]; decide)
    · have := number_spec lx.advance.2
      exact scanOk_literal lx lx.advance.2 _ rfl (Nat.le_refl _) this.1
        (by rw [this.2]; decide)
  refine scanOk_ite lx (fun halpha => ?_) (fun _ => scanOk_ite lx (fun hdigit => ?_) (fun _ => ?_))
  · have hp : (isalnum lx.peek || lx.peek == '_') = true := by
      have hc : lx.advance.1 = lx.peek := rfl
      rw [hc] at halpha hat
      simp only [Bool.or_eq_true, beq_iff_eq] at halpha ⊢
      rcases halpha with (h | h) | h
      · left; simp [isalnum, h]
      · right; exact h
      · exact absurd h hat
    have hs := identifier_spec
      { lx.advance.2 with pos := lx.advance.2.pos - 1, column := lx.advance.2.column - 1 }
    have hg := identifier_progress
      { lx.advance.2 with pos := lx.advance.2.pos - 1, column := lx.advance.2.column - 1 }
      (bend.trans hend) (by rw [bpeek]; exact hp)
    refine ⟨hs.1.1.trans bsrc, by rw [bpos] at hg; exact hg, ?_⟩
    intro t ht
    simp only [Option.some.injEq] at ht
    subst ht
    exact hs.2
  · have hp : isdigit lx.peek = true := hdigit
    have hs := number_spec
      { lx.advance.2 with pos := lx.advance.2.pos - 1, column := lx.advance.2.column - 1 }
    have hg := number_progress
      { lx.advance.2 with pos := lx.advance.2.pos - 1, column := lx.advance.2.column - 1 }
      (bend.trans hend) (by rw [bpeek]; exact hp)
    refine ⟨hs.1.1.trans bsrc, by rw [bpos] at hg; exact hg, ?_⟩
    intro t ht
    simp only [Option.some.injEq] at ht
    subst ht
    rw [hs.2]; decide
  · exact ⟨rfl, Nat.le_refl _, by intro t ht; simp at ht⟩

/-- The loop of `Lexer::tokenize` keeps the source, ends at the end of the
input when its budget covers the characters left, and pushes no
`END_OF_FILE` token. -/
theorem tokenizeLoop_spec (n : Nat) (lx : Lexer) (tokens : List Token)
    (hn : lx.src.length - lx.pos ≤ n)
    (htok : ∀ t ∈ tokens, t.type ≠ .END_OF_FILE) :
    (tokenizeLoop n lx tokens).1.isAtEnd = true ∧
    ∀ t ∈ (tokenizeLoop n lx tokens).2, t.type ≠ .END_OF_FILE := by
  induction n generalizing lx tokens with
  | zero =>
    refine ⟨?_, htok⟩
    simp only [tokenizeLoop, isAtEnd, decide_eq_true_eq]
    omega
  | succ n ih =>
    simp only [tokenizeLoop]
    split
    · next h => exact ⟨h, htok⟩
    · split
      · next h => exact ⟨h, htok⟩
      · next h0 h =>
        have hend : lx.skipWhitespace.skipComment.skipWhitespace.isAtEnd = false := by
          simpa using h
        obtain ⟨hsrc, hpos, hty⟩ := scanToken_spec _ hend
        have hsrc3 : lx.skipWhitespace.skipComment.skipWhitespace.src = lx.src := by
          rw [skipWhitespace_src, skipComment_src, skipWhitespace_src]
        have hpos3 : lx.pos ≤ lx.skipWhitespace.skipComment.skipWhitespace.pos :=
          Nat.le_trans (skipWhitespace_pos lx)
            (Nat.le_trans (skipComment_pos _) (skipWhitespace_pos _))
        have hfuel : (scanToken lx.skipWhitespace.skipComment.skipWhitespace.advance.1
            lx.skipWhitespace.skipComment.skipWhitespace.advance.2).2.src.length -
            (scanToken lx.skipWhitespace.skipComment.skipWhitespace.advance.1
            lx.skipWhitespace.skipComment.skipWhitespace.advance.2).2.pos ≤ n := by
          rw [hsrc, hsrc3]; omega
        split
        · next t ht =>
          apply ih _ _ hfuel
          intro u hu
          simp only [List.mem_append, List.mem_singleton] at hu
          rcases hu with hu | hu
          · exact htok u hu
          · subst hu; exact hty _ ht
        · exact ih _ _ hfuel htok

end Lexer

/-! ## Claims about the lexer -/

/-- C3: for every source string, `tokenize` returns the tokens pushed by the
scanning loop followed by one `END_OF_FILE` token; the loop is left at the
end of the input (the final scan position), the closing token has an empty
lexeme and the line and column of that position, and none of the tokens
before it is `END_OF_FILE`. -/
theorem C3_tokenize_ends_with_single_eof (source : String) :
    ∃ (toks : List Token) (final : Lexer),
      Lexer.scan { src := source.toList } = (final, toks) ∧
      final.isAtEnd = true ∧
      tokenize source = toks ++
        [{ type := .END_OF_FILE, lexeme := "", line := final.line, column := final.column }] ∧
      (tokenize source).getLast? =
        some { type := .END_OF_FILE, lexeme := "", line := final.line, column := final.column } ∧
      ∀ t ∈ toks, t.type ≠ .END_OF_FILE := by
  have h := Lexer.tokenizeLoop_spec source.toList.length { src := source.toList } []
    (by simp) (by simp)
  refine ⟨(Lexer.scan { src := source.toList }).2, (Lexer.scan { src := source.toList }).1,
    rfl, h.1, rfl, ?_, h.2⟩
  simp [tokenize, Lexer.tokenize]

/-- C5 (the code at the failing input): tokenizing `"abc"` yields one
`STRING_LITERAL` token and `END_OF_FILE`, but the lexeme of the literal is
`abc"`: it lacks the opening quote, because `stringLiteral` takes `start`
after `tokenize` has already consumed that quote. -/
theorem C5_string_lexeme_lacks_opening_quote :
    tokenize "\"abc\"" =
      [ { type := .STRING_LITERAL, lexeme := "abc\"", line := 1, column := 2 },
        { type := .END_OF_FILE, lexeme := "", line := 1, column := 6 } ] := by
  decide

/-- C6 (the code at the failing inputs): tokenizing `0` yields a
`FLOAT_LITERAL` whose lexeme is empty and tokenizing `0.5` one whose lexeme is
`.5`: in `case '0'` the scanner `number` starts after the consumed zero,
whereas a literal starting with any other digit keeps its whole text. -/
theorem C6_leading_zero_is_dropped :
    tokenize "0" =
      [ { type := .FLOAT_LITERAL, lexeme := "", line := 1, column := 2 },
        { type := .END_OF_FILE, lexeme := "", line := 1, column := 2 } ] ∧
    tokenize "0.5" =
      [ { type := .FLOAT_LITERAL, lexeme := ".5", line := 1, column := 2 },
        { type := .END_OF_FILE, lexeme := "", line := 1, column := 4 } ] ∧
    tokenize "42" =
      [ { type := .FLOAT_LITERAL, lexeme := "42", line := 1, column := 1 },
        { type := .END_OF_FILE, lexeme := "", line := 1, column := 3 } ] := by
  decide

/-- C7 (the code at the failing input): tokenizing the two comment lines
`// a` and `// b` yields four tokens, `DIV`, `DIV`, the identifier `b` and
`END_OF_FILE`: one pass of the loop skips at most one comment, so the second
comment line is scanned as code. -/
theorem C7_second_comment_line_is_scanned :
    tokenize "// a\n// b" =
      [ { type := .DIV, lexeme := "/", line := 2, column := 1 },
        { type := .DIV, lexeme := "/", line := 2, column := 2 },
        { type := .IDENTIFIER, lexeme := "b", line := 2, column := 4 },
        { type := .END_OF_FILE, lexeme := "", line := 2, column := 5 } ] := by
  decide

/-! ## Running the parser on given tokens -/

namespace Parser

@[simp] theorem bind_apply {α β : Type} (x : P α) (f : α → P β) (st : Parser) :
    (x >>= f) st = match x st with
      | .ok a st1 => f a st1
      | .outOfBounds => .outOfBounds
      | .outOfFuel => .outOfFuel := rfl

@[simp] theorem pure_apply {α : Type} (a : α) (st : Parser) :
    (pure a : P α) st = .ok a st := rfl

theorem peek_at (ts : List Token) (i : Nat) (e : List String) (t : Token)
    (h : ts[i]? = some t) : peek ⟨ts, i, e⟩ = .ok t ⟨ts, i, e⟩ := by
  simp [peek, h]

theorem previous_at (ts : List Token) (i : Nat) (e : List String) (t : Token)
    (h : ts[i]? = some t) : previous ⟨ts, i + 1, e⟩ = .ok t ⟨ts, i + 1, e⟩ := by
  simp [previous, h]

theorem isAtEnd_at (ts : List Token) (i : Nat) (e : List String) (t : Token)
    (h : ts[i]? = some t) :
    isAtEnd ⟨ts, i, e⟩ = .ok (t.type == TokenType.END_OF_FILE) ⟨ts, i, e⟩ := by
  simp [isAtEnd, peek_at ts i e t h]

theorem check_at (ts : List Token) (i : Nat) (e : List String) (t : Token) (ty : TokenType)
    (h : ts[i]? = some t) :
    check ty ⟨ts, i, e⟩ = .ok (t.type != TokenType.END_OF_FILE && t.type == ty) ⟨ts, i, e⟩ := by
  by_cases hh : t.type = TokenType.END_OF_FILE <;>
    simp [check, isAtEnd_at ts i e t h, peek_at ts i e t h, hh]

theorem matchTok_hit (ts : List Token) (i : Nat) (e : List String) (t : Token) (ty : TokenType)
    (h : ts[i]? = some t) (hty : t.type = ty) (hne : ty ≠ .END_OF_FILE) :
    matchTok ty ⟨ts, i, e⟩ = .ok true ⟨ts, i + 1, e⟩ := by
  have hne2 : t.type ≠ .END_OF_FILE := by rw [hty]; exact hne
  simp [matchTok, check_at ts i e t ty h, advance, isAtEnd_at ts i e t h, incCurrent,
    previous_at ts i e t h, hty, hne]

theorem matchTok_miss (ts : List Token) (i : Nat) (e : List String) (t : Token) (ty : TokenType)
    (h : ts[i]? = some t) (hty : t.type ≠ ty) :
    matchTok ty ⟨ts, i, e⟩ = .ok false ⟨ts, i, e⟩ := by
  simp [matchTok, check_at ts i e t ty h, hty]

theorem isLiteralToken_ident (ts : List Token) (i : Nat) (e : List String) (t : Token)
    (h : ts[i]? = some t) (hty : t.type = .IDENTIFIER) :
    isLiteralToken ⟨ts, i, e⟩ = .ok false ⟨ts, i, e⟩ := by
  simp [isLiteralToken, peek_at ts i e t h, hty]

theorem parsePrimary_ident (ts : List Token) (i : Nat) (e : List String) (x y : Token)
    (fuel : Nat) (hx : ts[i]? = some x) (hxt : x.type = .IDENTIFIER)
    (hy : ts[i + 1]? = some y) (hyt : y.type ≠ .LPAREN) :
    parsePrimary (fuel + 1) ⟨ts, i, e⟩ = .ok (some (Expr.Identifier x.lexeme)) ⟨ts, i + 1, e⟩ := by
  simp [parsePrimary, isLiteralToken_ident ts i e x hx hxt,
    matchTok_hit ts i e x .IDENTIFIER hx hxt (by decide), previous_at ts i e x hx,
    matchTok_miss ts (i + 1) e y .LPAREN hy hyt]

end Parser

theorem bindLevel_cases (t : TokenType) :
    (bindLevel t = 0 ∧ t ≠ .OR ∧ t ≠ .AND ∧ t ≠ .EQ ∧ t ≠ .NEQ ∧ t ≠ .LT ∧ t ≠ .LTE ∧ t ≠ .GT ∧
      t ≠ .GTE ∧ t ≠ .PLUS ∧ t ≠ .MINUS ∧ t ≠ .MUL ∧ t ≠ .DIV ∧ t ≠ .MOD ∧ t ≠ .LPAREN) ∨
    (bindLevel t = 1 ∧ t = .OR) ∨ (bindLevel t = 2 ∧ t = .AND) ∨
    (bindLevel t = 3 ∧ (t = .EQ ∨ t = .NEQ)) ∨
    (bindLevel t = 4 ∧ (t = .LT ∨ t = .LTE ∨ t = .GT ∨ t = .GTE)) ∨
    (bindLevel t = 5 ∧ (t = .PLUS ∨ t = .MINUS)) ∨
    (bindLevel t = 6 ∧ (t = .MUL ∨ t = .DIV ∨ t = .MOD)) ∨
    (bindLevel t = 7 ∧ t = .LPAREN) := by
  cases t <;> simp [bindLevel]

namespace Parser

theorem parseUnary_ident (ts : List Token) (i : Nat) (e : List String) (x y : Token)
    (fuel : Nat) (hx : ts[i]? = some x) (hxt : x.type = .IDENTIFIER)
    (hy : ts[i + 1]? = some y) (hyt : bindLevel y.type < 7) :
    parseUnary (fuel + 2) ⟨ts, i, e⟩ = .ok (some (Expr.Identifier x.lexeme)) ⟨ts, i + 1, e⟩ := by
  have hyp : y.type ≠ .LPAREN := by
    intro h; rw [h] at hyt; simp [bindLevel] at hyt
  simp [parseUnary, orElse, matchTok_miss ts i e x _ hx, hxt,
    parsePrimary_ident ts i e x y fuel hx hxt hy hyp]

theorem parseFactorLoop_stop (ts : List Token) (i : Nat) (e : List String) (y : Token)
    (fuel : Nat) (expr : ExprPtr) (hy : ts[i]? = some y) (hyt : bindLevel y.type ≠ 6) :
    parseFactorLoop (fuel + 1) expr ⟨ts, i, e⟩ = .ok expr ⟨ts, i, e⟩ := by
  have h1 : y.type ≠ .MUL := by intro h; rw [h] at hyt; simp [bindLevel] at hyt
  have h2 : y.type ≠ .DIV := by intro h; rw [h] at hyt; simp [bindLevel] at hyt
  have h3 : y.type ≠ .MOD := by intro h; rw [h] at hyt; simp [bindLevel] at hyt
  simp [parseFactorLoop, orElse, matchTok_miss ts i e y _ hy, h1, h2, h3]

theorem parseFactorLoop_step (ts : List Token) (i : Nat) (e : List String) (o : Token)
    (fuel : Nat) (expr : ExprPtr) (ho : ts[i]? = some o) (hot : bindLevel o.type = 6) :
    parseFactorLoop (fuel + 1) expr ⟨ts, i, e⟩ =
      (do
        let right ← parseUnary fuel
        parseFactorLoop fuel (some (Expr.Binary expr o.lexeme right))) ⟨ts, i + 1, e⟩ := by
  rcases bindLevel_cases o.type with h | h | h | h | h | h | h | h <;>
    try (exfalso; omega)
  rcases h.2 with h | h | h <;>
    simp [parseFactorLoop, orElse, matchTok_miss ts i e o _ ho, h,
      matchTok_hit ts i e o _ ho h, previous_at ts i e o ho]

theorem parseTermLoop_stop (ts : List Token) (i : Nat) (e : List String) (y : Token)
    (fuel : Nat) (expr : ExprPtr) (hy : ts[i]? = some y) (hyt : bindLevel y.type ≠ 5) :
    parseTermLoop (fuel + 1) expr ⟨ts, i, e⟩ = .ok expr ⟨ts, i, e⟩ := by
  have h1 : y.type ≠ .PLUS := by intro h; rw [h] at hyt; simp [bindLevel] at hyt
  have h2 : y.type ≠ .MINUS := by intro h; rw [h] at hyt; simp [bindLevel] at hyt
  simp [parseTermLoop, orElse, matchTok_miss ts i e y _ hy, h1, h2]

theorem parseTermLoop_step (ts : List Token) (i : Nat) (e : List String) (o : Token)
    (fuel : Nat) (expr : ExprPtr) (ho : ts[i]? = some o) (hot : bindLevel o.type = 5) :
    parseTermLoop (fuel + 1) expr ⟨ts, i, e⟩ =
      (do
        let right ← parseFactor fuel
        parseTermLoop fuel (some (Expr.Binary expr o.lexeme right))) ⟨ts, i + 1, e⟩ := by
  rcases bindLevel_cases o.type with h | h | h | h | h | h | h | h <;>
    try (exfalso; omega)
  rcases h.2 with h | h <;>
    simp [parseTermLoop, orElse, matchTok_miss ts i e o _ ho, h,
      matchTok_hit ts i e o _ ho h, previous_at ts i e o ho]

theorem parseComparisonLoop_stop (ts : List Token) (i : Nat) (e : List String) (y : Token)
    (fuel : Nat) (expr : ExprPtr) (hy : ts[i]? = some y) (hyt : bindLevel y.type ≠ 4) :
    parseComparisonLoop (fuel + 1) expr ⟨ts, i, e⟩ = .ok expr ⟨ts, i, e⟩ := by
  have h1 : y.type ≠ .LT := by intro h; rw [h] at hyt; simp [bindLevel] at hyt
  have h2 : y.type ≠ .LTE := by intro h; rw [h] at hyt; simp [bindLevel] at hyt
  have h3 : y.type ≠ .GT := by intro h; rw [h] at hyt; simp [bindLevel] at hyt
  have h4 : y.type ≠ .GTE := by intro h; rw [h] at hyt; simp [bindLevel] at hyt
  simp [parseComparisonLoop, orElse, matchTok_miss ts i e y _ hy, h1, h2, h3, h4]

theorem parseComparisonLoop_step (ts : List Token) (i : Nat) (e : List String) (o : Token)
    (fuel : Nat) (expr : ExprPtr) (ho : ts[i]? = some o) (hot : bindLevel o.type = 4) :
    parseComparisonLoop (fuel + 1) expr ⟨ts, i, e⟩ =
      (do
        let right ← parseTerm fuel
        parseComparisonLoop fuel (some (Expr.Binary expr o.lexeme right))) ⟨ts, i + 1, e⟩ := by
  rcases bindLevel_cases o.type with h | h | h | h | h | h | h | h <;>
    try (exfalso; omega)
  rcases h.2 with h | h | h | h <;>
    simp [parseComparisonLoop, orElse, matchTok_miss ts i e o _ ho, h,
      matchTok_hit ts i e o _ ho h, previous_at ts i e o ho]

theorem parseEqualityLoop_stop (ts : List Token) (i : Nat) (e : List String) (y : Token)
    (fuel : Nat) (expr : ExprPtr) (hy : ts[i]? = some y) (hyt : bindLevel y.type ≠ 3) :
    parseEqualityLoop (fuel + 1) expr ⟨ts, i, e⟩ = .ok expr ⟨ts, i, e⟩ := by
  have h1 : y.type ≠ .EQ := by intro h; rw [h] at hyt; simp [bindLevel] at hyt
  have h2 : y.type ≠ .NEQ := by intro h; rw [h] at hyt; simp [bindLevel] at hyt
  simp [parseEqualityLoop, orElse, matchTok_miss ts i e y _ hy, h1, h2]

theorem parseEqualityLoop_step (ts : List Token) (i : Nat) (e : List String) (o : Token)
    (fuel : Nat) (expr : ExprPtr) (ho : ts[i]? = some o) (hot : bindLevel o.type = 3) :
    parseEqualityLoop (fuel + 1) expr ⟨ts, i, e⟩ =
      (do
        let right ← parseComparison fuel
        parseEqualityLoop fuel (some (Expr.Binary expr o.lexeme right))) ⟨ts, i + 1, e⟩ := by
  rcases bindLevel_cases o.type with h | h | h | h | h | h | h | h <;>
    try (exfalso; omega)
  rcases h.2 with h | h <;>
    simp [parseEqualityLoop, orElse, matchTok_miss ts i e o _ ho, h,
      matchTok_hit ts i e o _ ho h, previous_at ts i e o ho]

theorem parseAndLoop_stop (ts : List Token) (i : Nat) (e : List String) (y : Token)
    (fuel : Nat) (expr : ExprPtr) (hy : ts[i]? = some y) (hyt : bindLevel y.type ≠ 2) :
    parseAndLoop (fuel + 1) expr ⟨ts, i, e⟩ = .ok expr ⟨ts, i, e⟩ := by
  have h1 : y.type ≠ .AND := by intro h; rw [h] at hyt; simp [bindLevel] at hyt
  simp [parseAndLoop, orElse, matchTok_miss ts i e y _ hy, h1]

theorem parseAndLoop_step (ts : List Token) (i : Nat) (e : List String) (o : Token)
    (fuel : Nat) (expr : ExprPtr) (ho : ts[i]? = some o) (hot : bindLevel o.type = 2) :
    parseAndLoop (fuel + 1) expr ⟨ts, i, e⟩ =
      (do
        let right ← parseEquality fuel
        parseAndLoop fuel (some (Expr.Binary expr (if o.lexeme.isEmpty then "&&" else o.lexeme) right))) ⟨ts, i + 1, e⟩ := by
  rcases bindLevel_cases o.type with h | h | h | h | h | h | h | h <;>
    try (exfalso; omega)
  simp [parseAndLoop, h.2, matchTok_hit ts i e o _ ho h.2, previous_at ts i e o ho]

theorem parseOrLoop_stop (ts : List Token) (i : Nat) (e : List String) (y : Token)
    (fuel : Nat) (expr : ExprPtr) (hy : ts[i]? = some y) (hyt : bindLevel y.type ≠ 1) :
    parseOrLoop (fuel + 1) expr ⟨ts, i, e⟩ = .ok expr ⟨ts, i, e⟩ := by
  have h1 : y.type ≠ .OR := by intro h; rw [h] at hyt; simp [bindLevel] at hyt
  simp [parseOrLoop, orElse, matchTok_miss ts i e y _ hy, h1]

theorem parseOrLoop_step (ts : List Token) (i : Nat) (e : List String) (o : Token)
    (fuel : Nat) (expr : ExprPtr) (ho : ts[i]? = some o) (hot : bindLevel o.type = 1) :
    parseOrLoop (fuel + 1) expr ⟨ts, i, e⟩ =
      (do
        let right ← parseAnd fuel
        parseOrLoop fuel (some (Expr.Binary expr (if o.lexeme.isEmpty then "||" else o.lexeme) right))) ⟨ts, i + 1, e⟩ := by
  rcases bindLevel_cases o.type with h | h | h | h | h | h | h | h <;>
    try (exfalso; omega)
  simp [parseOrLoop, h.2, matchTok_hit ts i e o _ ho h.2, previous_at ts i e o ho]

theorem parseFactor_ident (ts : List Token) (i : Nat) (e : List String) (x y : Token)
    (fuel : Nat) (hx : ts[i]? = some x) (hxt : x.type = .IDENTIFIER)
    (hy : ts[i + 1]? = some y) (hyt : bindLevel y.type < 6) :
    parseFactor (fuel + 3) ⟨ts, i, e⟩ = .ok (some (Expr.Identifier x.lexeme)) ⟨ts, i + 1, e⟩ := by
  simp [parseFactor, parseUnary_ident ts i e x y fuel hx hxt hy (by omega),
    parseFactorLoop_stop ts (i + 1) e y (fuel + 1) _ hy (by omega)]

theorem parseTerm_ident (ts : List Token) (i : Nat) (e : List String) (x y : Token)
    (fuel : Nat) (hx : ts[i]? = some x) (hxt : x.type = .IDENTIFIER)
    (hy : ts[i + 1]? = some y) (hyt : bindLevel y.type < 5) :
    parseTerm (fuel + 4) ⟨ts, i, e⟩ = .ok (some (Expr.Identifier x.lexeme)) ⟨ts, i + 1, e⟩ := by
  simp [parseTerm, parseFactor_ident ts i e x y fuel hx hxt hy (by omega),
    parseTermLoop_stop ts (i + 1) e y (fuel + 2) _ hy (by omega)]

theorem parseComparison_ident (ts : List Token) (i : Nat) (e : List String) (x y : Token)
    (fuel : Nat) (hx : ts[i]? = some x) (hxt : x.type = .IDENTIFIER)
    (hy : ts[i + 1]? = some y) (hyt : bindLevel y.type < 4) :
    parseComparison (fuel + 5) ⟨ts, i, e⟩ = .ok (some (Expr.Identifier x.lexeme)) ⟨ts, i + 1, e⟩ := by
  simp [parseComparison, parseTerm_ident ts i e x y fuel hx hxt hy (by omega),
    parseComparisonLoop_stop ts (i + 1) e y (fuel + 3) _ hy (by omega)]

theorem parseEquality_ident (ts : List Token) (i : Nat) (e : List String) (x y : Token)
    (fuel : Nat) (hx : ts[i]? = some x) (hxt : x.type = .IDENTIFIER)
    (hy : ts[i + 1]? = some y) (hyt : bindLevel y.type < 3) :
    parseEquality (fuel + 6) ⟨ts, i, e⟩ = .ok (some (Expr.Identifier x.lexeme)) ⟨ts, i + 1, e⟩ := by
  simp [parseEquality, parseComparison_ident ts i e x y fuel hx hxt hy (by omega),
    parseEqualityLoop_stop ts (i + 1) e y (fuel + 4) _ hy (by omega)]

theorem parseAnd_ident (ts : List Token) (i : Nat) (e : List String) (x y : Token)
    (fuel : Nat) (hx : ts[i]? = some x) (hxt : x.type = .IDENTIFIER)
    (hy : ts[i + 1]? = some y) (hyt : bindLevel y.type < 2) :
    parseAnd (fuel + 7) ⟨ts, i, e⟩ = .ok (some (Expr.Identifier x.lexeme)) ⟨ts, i + 1, e⟩ := by
  simp [parseAnd, parseEquality_ident ts i e x y fuel hx hxt hy (by omega),
    parseAndLoop_stop ts (i + 1) e y (fuel + 5) _ hy (by omega)]

theorem parseOr_ident (ts : List Token) (i : Nat) (e : List String) (x y : Token)
    (fuel : Nat) (hx : ts[i]? = some x) (hxt : x.type = .IDENTIFIER)
    (hy : ts[i + 1]? = some y) (hyt : bindLevel y.type < 1) :
    parseOr (fuel + 8) ⟨ts, i, e⟩ = .ok (some (Expr.Identifier x.lexeme)) ⟨ts, i + 1, e⟩ := by
  simp [parseOr, parseAnd_ident ts i e x y fuel hx hxt hy (by omega),
    parseOrLoop_stop ts (i + 1) e y (fuel + 6) _ hy (by omega)]

end Parser

theorem tokensAt_head {ts : List Token} {i : Nat} {a : Token} {l : List Token}
    (h : TokensAt ts i (a :: l)) : ts[i]? = some a := by
  obtain ⟨r, hr⟩ := h
  have h0 : (ts.drop i)[0]? = some a := by rw [hr]; simp
  rw [List.getElem?_drop] at h0
  simpa using h0

theorem tokensAt_tail {ts : List Token} {i : Nat} {a : Token} {l : List Token}
    (h : TokensAt ts i (a :: l)) : TokensAt ts (i + 1) l := by
  obtain ⟨r, hr⟩ := h
  refine ⟨r, ?_⟩
  have : ts.drop (i + 1) = (ts.drop i).drop 1 := by
    rw [List.drop_drop]
  rw [this, hr]; rfl

theorem tokensAt_self (l : List Token) : TokensAt l 0 l := ⟨[], by simp⟩

/-- The token after an operand of a chain at level `level`: the next operator
or the closing token. -/
theorem opOperands_head (level : Nat) (rest : List (Token × Token)) (z : Token)
    (hrest : ∀ p ∈ rest, bindLevel p.1.type = level ∧ p.2.type = .IDENTIFIER)
    (hz : bindLevel z.type = 0) :
    ∃ y l, opOperands rest ++ [z] = y :: l ∧ bindLevel y.type ≤ level := by
  cases rest with
  | nil => exact ⟨z, [], rfl, by omega⟩
  | cons p rest =>
    obtain ⟨o, x⟩ := p
    exact ⟨o, x :: (opOperands rest ++ [z]), rfl, by
      have := (hrest (o, x) (by simp)).1
      simp only at this
      omega⟩

namespace Parser

theorem parseFactorLoop_chain (ts : List Token) (e : List String) (z : Token)
    (hz : bindLevel z.type = 0) (rest : List (Token × Token)) :
    ∀ (i fuel : Nat) (expr : ExprPtr), TokensAt ts i (opOperands rest ++ [z]) →
      (∀ p ∈ rest, bindLevel p.1.type = 6 ∧ p.2.type = .IDENTIFIER) →
      rest.length + 2 ≤ fuel →
      parseFactorLoop fuel expr ⟨ts, i, e⟩ =
        .ok (leftNest expr rest) ⟨ts, i + 2 * rest.length, e⟩ := by
  induction rest with
  | nil =>
    intro i fuel expr hat _ hfuel
    obtain ⟨k, rfl⟩ : ∃ k, fuel = k + 1 := ⟨fuel - 1, by simp at hfuel; omega⟩
    exact parseFactorLoop_stop ts i e z k expr (tokensAt_head hat) (by omega)
  | cons p rest ih =>
    intro i fuel expr hat hrest hfuel
    obtain ⟨o, x⟩ := p
    obtain ⟨k, rfl⟩ : ∃ k, fuel = k + 3 := ⟨fuel - 3, by simp at hfuel; omega⟩
    have ho := tokensAt_head hat
    have hat1 := tokensAt_tail hat
    have hx := tokensAt_head hat1
    have hat2 := tokensAt_tail hat1
    have hp := hrest (o, x) (by simp)
    have hrest2 : ∀ p ∈ rest, bindLevel p.1.type = 6 ∧ p.2.type = .IDENTIFIER :=
      fun p hp => hrest p (by simp [hp])
    obtain ⟨y, l, hyl, hylevel⟩ := opOperands_head 6 rest z hrest2 hz
    have hy : ts[i + 1 + 1]? = some y := by
      have h2 : TokensAt ts (i + 1 + 1) (y :: l) := by rw [← hyl]; exact hat2
      exact tokensAt_head h2
    rw [parseFactorLoop_step ts i e o (k + 2) expr ho hp.1]
    simp only [bind_apply]
    rw [parseUnary_ident ts (i + 1) e x y k hx hp.2 hy (by omega)]
    simp only
    rw [ih (i + 1 + 1) (k + 2) _ hat2 hrest2 (by simp at hfuel ⊢; omega)]
    simp only [leftNest, List.length_cons]
    congr 2
    omega

theorem parseTermLoop_chain (ts : List Token) (e : List String) (z : Token)
    (hz : bindLevel z.type = 0) (rest : List (Token × Token)) :
    ∀ (i fuel : Nat) (expr : ExprPtr), TokensAt ts i (opOperands rest ++ [z]) →
      (∀ p ∈ rest, bindLevel p.1.type = 5 ∧ p.2.type = .IDENTIFIER) →
      rest.length + 3 ≤ fuel →
      parseTermLoop fuel expr ⟨ts, i, e⟩ =
        .ok (leftNest expr rest) ⟨ts, i + 2 * rest.length, e⟩ := by
  induction rest with
  | nil =>
    intro i fuel expr hat _ hfuel
    obtain ⟨k, rfl⟩ : ∃ k, fuel = k + 1 := ⟨fuel - 1, by simp at hfuel; omega⟩
    exact parseTermLoop_stop ts i e z k expr (tokensAt_head hat) (by omega)
  | cons p rest ih =>
    intro i fuel expr hat hrest hfuel
    obtain ⟨o, x⟩ := p
    obtain ⟨k, rfl⟩ : ∃ k, fuel = k + 4 := ⟨fuel - 4, by simp at hfuel; omega⟩
    have ho := tokensAt_head hat
    have hat1 := tokensAt_tail hat
    have hx := tokensAt_head hat1
    have hat2 := tokensAt_tail hat1
    have hp := hrest (o, x) (by simp)
    have hrest2 : ∀ p ∈ rest, bindLevel p.1.type = 5 ∧ p.2.type = .IDENTIFIER :=
      fun p hp => hrest p (by simp [hp])
    obtain ⟨y, l, hyl, hylevel⟩ := opOperands_head 5 rest z hrest2 hz
    have hy : ts[i + 1 + 1]? = some y := by
      have h2 : TokensAt ts (i + 1 + 1) (y :: l) := by rw [← hyl]; exact hat2
      exact tokensAt_head h2
    rw [parseTermLoop_step ts i e o (k + 3) expr ho hp.1]
    simp only [bind_apply]
    rw [parseFactor_ident ts (i + 1) e x y k hx hp.2 hy (by omega)]
    simp only
    rw [ih (i + 1 + 1) (k + 3) _ hat2 hrest2 (by simp at hfuel ⊢; omega)]
    simp only [leftNest, List.length_cons]
    congr 2
    omega

theorem parseComparisonLoop_chain (ts : List Token) (e : List String) (z : Token)
    (hz : bindLevel z.type = 0) (rest : List (Token × Token)) :
    ∀ (i fuel : Nat) (expr : ExprPtr), TokensAt ts i (opOperands rest ++ [z]) →
      (∀ p ∈ rest, bindLevel p.1.type = 4 ∧ p.2.type = .IDENTIFIER) →
      rest.length + 4 ≤ fuel →
      parseComparisonLoop fuel expr ⟨ts, i, e⟩ =
        .ok (leftNest expr rest) ⟨ts, i + 2 * rest.length, e⟩ := by
  induction rest with
  | nil =>
    intro i fuel expr hat _ hfuel
    obtain ⟨k, rfl⟩ : ∃ k, fuel = k + 1 := ⟨fuel - 1, by simp at hfuel; omega⟩
    exact parseComparisonLoop_stop ts i e z k expr (tokensAt_head hat) (by omega)
  | cons p rest ih =>
    intro i fuel expr hat hrest hfuel
    obtain ⟨o, x⟩ := p
    obtain ⟨k, rfl⟩ : ∃ k, fuel = k + 5 := ⟨fuel - 5, by simp at hfuel; omega⟩
    have ho := tokensAt_head hat
    have hat1 := tokensAt_tail hat
    have hx := tokensAt_head hat1
    have hat2 := tokensAt_tail hat1
    have hp := hrest (o, x) (by simp)
    have hrest2 : ∀ p ∈ rest, bindLevel p.1.type = 4 ∧ p.2.type = .IDENTIFIER :=
      fun p hp => hrest p (by simp [hp])
    obtain ⟨y, l, hyl, hylevel⟩ := opOperands_head 4 rest z hrest2 hz
    have hy : ts[i + 1 + 1]? = some y := by
      have h2 : TokensAt ts (i + 1 + 1) (y :: l) := by rw [← hyl]; exact hat2
      exact tokensAt_head h2
    rw [parseComparisonLoop_step ts i e o (k + 4) expr ho hp.1]
    simp only [bind_apply]
    rw [parseTerm_ident ts (i + 1) e x y k hx hp.2 hy (by omega)]
    simp only
    rw [ih (i + 1 + 1) (k + 4) _ hat2 hrest2 (by simp at hfuel ⊢; omega)]
    simp only [leftNest, List.length_cons]
    congr 2
    omega

theorem parseEqualityLoop_chain (ts : List Token) (e : List String) (z : Token)
    (hz : bindLevel z.type = 0) (rest : List (Token × Token)) :
    ∀ (i fuel : Nat) (expr : ExprPtr), TokensAt ts i (opOperands rest ++ [z]) →
      (∀ p ∈ rest, bindLevel p.1.type = 3 ∧ p.2.type = .IDENTIFIER) →
      rest.length + 5 ≤ fuel →
      parseEqualityLoop fuel expr ⟨ts, i, e⟩ =
        .ok (leftNest expr rest) ⟨ts, i + 2 * rest.length, e⟩ := by
  induction rest with
  | nil =>
    intro i fuel expr hat _ hfuel
    obtain ⟨k, rfl⟩ : ∃ k, fuel = k + 1 := ⟨fuel - 1, by simp at hfuel; omega⟩
    exact parseEqualityLoop_stop ts i e z k expr (tokensAt_head hat) (by omega)
  | cons p rest ih =>
    intro i fuel expr hat hrest hfuel
    obtain ⟨o, x⟩ := p
    obtain ⟨k, rfl⟩ : ∃ k, fuel = k + 6 := ⟨fuel - 6, by simp at hfuel; omega⟩
    have ho := tokensAt_head hat
    have hat1 := tokensAt_tail hat
    have hx := tokensAt_head hat1
    have hat2 := tokensAt_tail hat1
    have hp := hrest (o, x) (by simp)
    have hrest2 : ∀ p ∈ rest, bindLevel p.1.type = 3 ∧ p.2.type = .IDENTIFIER :=
      fun p hp => hrest p (by simp [hp])
    obtain ⟨y, l, hyl, hylevel⟩ := opOperands_head 3 rest z hrest2 hz
    have hy : ts[i + 1 + 1]? = some y := by
      have h2 : TokensAt ts (i + 1 + 1) (y :: l) := by rw [← hyl]; exact hat2
      exact tokensAt_head h2
    rw [parseEqualityLoop_step ts i e o (k + 5) expr ho hp.1]
    simp only [bind_apply]
    rw [parseComparison_ident ts (i + 1) e x y k hx hp.2 hy (by omega)]
    simp only
    rw [ih (i + 1 + 1) (k + 5) _ hat2 hrest2 (by simp at hfuel ⊢; omega)]
    simp only [leftNest, List.length_cons]
    congr 2
    omega

theorem matchTok_eof (ts : List Token) (i : Nat) (e : List String) (z : Token) (ty : TokenType)
    (hz : ts[i]? = some z) (hzt : z.type = .END_OF_FILE) :
    matchTok ty ⟨ts, i, e⟩ = .ok false ⟨ts, i, e⟩ := by
  simp [matchTok, check_at ts i e z ty hz, hzt]

/-- The run of `parseExpression` over a chain of operators of one level
between 3 (equality) and 6 (multiplicative). -/
theorem parseExpression_chain (level : Nat) (hlevel : 3 ≤ level ∧ level ≤ 6)
    (ts : List Token) (e : List String) (i : Nat)
    (first : Token) (rest : List (Token × Token)) (eof : Token) (fuel : Nat)
    (hat : TokensAt ts i (first :: (opOperands rest ++ [eof])))
    (hfirst : first.type = .IDENTIFIER)
    (hrest : ∀ p ∈ rest, bindLevel p.1.type = level ∧ p.2.type = .IDENTIFIER)
    (heof : eof.type = .END_OF_FILE)
    (hfuel : rest.length + 10 ≤ fuel) :
    parseExpression fuel ⟨ts, i, e⟩ =
      .ok (leftNest (some (Expr.Identifier first.lexeme)) rest)
        ⟨ts, i + 1 + 2 * rest.length, e⟩ := by
  obtain ⟨m, rfl⟩ : ∃ m, fuel = m + 10 := ⟨fuel - 10, by omega⟩
  have hz : bindLevel eof.type = 0 := by rw [heof]; rfl
  have hx := tokensAt_head hat
  have hat1 := tokensAt_tail hat
  obtain ⟨y, l, hyl, hylevel⟩ := opOperands_head level rest eof hrest hz
  have hy : ts[i + 1]? = some y := by
    have h2 : TokensAt ts (i + 1) (y :: l) := by rw [← hyl]; exact hat1
    exact tokensAt_head h2
  -- the closing token stands after the chain
  have hend : ts[i + 1 + 2 * rest.length]? = some eof := by
    have key : ∀ (rest : List (Token × Token)) (j : Nat),
        TokensAt ts j (opOperands rest ++ [eof]) → ts[j + 2 * rest.length]? = some eof := by
      intro rest
      induction rest with
      | nil => intro j h; exact tokensAt_head h
      | cons p rest ih =>
        intro j h
        obtain ⟨o, x⟩ := p
        have := ih (j + 1 + 1) (tokensAt_tail (tokensAt_tail h))
        rw [← this, List.length_cons]
        congr 1
        omega
    exact key rest (i + 1) hat1
  have hlt : bindLevel eof.type ≠ 6 ∧ bindLevel eof.type ≠ 5 ∧ bindLevel eof.type ≠ 4 ∧
      bindLevel eof.type ≠ 3 ∧ bindLevel eof.type ≠ 2 ∧ bindLevel eof.type ≠ 1 := by
    rw [hz]; decide
  obtain ⟨h3, h6⟩ := hlevel
  have hcases : level = 3 ∨ level = 4 ∨ level = 5 ∨ level = 6 := by omega
  rcases hcases with rfl | rfl | rfl | rfl
  · simp [parseExpression, parseAssignment, parseOr, parseAnd, parseEquality,
      parseComparison_ident ts i e first y m hx hfirst hy (by omega),
      parseEqualityLoop_chain ts e eof hz rest (i + 1) (m + 5) _ hat1 hrest (by omega),
      parseAndLoop_stop ts _ e eof _ _ hend hlt.2.2.2.2.1,
      parseOrLoop_stop ts _ e eof _ _ hend hlt.2.2.2.2.2,
      matchTok_eof ts _ e eof _ hend heof]
  · simp [parseExpression, parseAssignment, parseOr, parseAnd, parseEquality, parseComparison,
      parseTerm_ident ts i e first y m hx hfirst hy (by omega),
      parseComparisonLoop_chain ts e eof hz rest (i + 1) (m + 4) _ hat1 hrest (by omega),
      parseEqualityLoop_stop ts _ e eof _ _ hend hlt.2.2.2.1,
      parseAndLoop_stop ts _ e eof _ _ hend hlt.2.2.2.2.1,
      parseOrLoop_stop ts _ e eof _ _ hend hlt.2.2.2.2.2,
      matchTok_eof ts _ e eof _ hend heof]
  · simp [parseExpression, parseAssignment, parseOr, parseAnd, parseEquality, parseComparison,
      parseTerm,
      parseFactor_ident ts i e first y m hx hfirst hy (by omega),
      parseTermLoop_chain ts e eof hz rest (i + 1) (m + 3) _ hat1 hrest (by omega),
      parseComparisonLoop_stop ts _ e eof _ _ hend hlt.2.2.1,
      parseEqualityLoop_stop ts _ e eof _ _ hend hlt.2.2.2.1,
      parseAndLoop_stop ts _ e eof _ _ hend hlt.2.2.2.2.1,
      parseOrLoop_stop ts _ e eof _ _ hend hlt.2.2.2.2.2,
      matchTok_eof ts _ e eof _ hend heof]
  · simp [parseExpression, parseAssignment, parseOr, parseAnd, parseEquality, parseComparison,
      parseTerm, parseFactor,
      parseUnary_ident ts i e first y m hx hfirst hy (by omega),
      parseFactorLoop_chain ts e eof hz rest (i + 1) (m + 2) _ hat1 hrest (by omega),
      parseTermLoop_stop ts _ e eof _ _ hend hlt.2.1,
      parseComparisonLoop_stop ts _ e eof _ _ hend hlt.2.2.1,
      parseEqualityLoop_stop ts _ e eof _ _ hend hlt.2.2.2.1,
      parseAndLoop_stop ts _ e eof _ _ hend hlt.2.2.2.2.1,
      parseOrLoop_stop ts _ e eof _ _ hend hlt.2.2.2.2.2,
      matchTok_eof ts _ e eof _ hend heof]

end Parser

namespace Parser

theorem parseAssignment_succ (fuel : Nat) :
    parseAssignment (fuel + 1) = (do
      let left ← parseOr fuel
      if (← matchTok .ASSIGN) then
        let value ← parseAssignment fuel
        pure (some (Expr.Binary left "=" value))
      else pure left) := by
  simp only [parseAssignment]

/-- The run of `parseAssignment` over `x1 = x2 = ... = xn`. -/
theorem parseAssignment_chain (ts : List Token) (e : List String) (eof : Token)
    (heof : eof.type = .END_OF_FILE) (rest : List (Token × Token)) :
    ∀ (i fuel : Nat) (first : Token), TokensAt ts i (first :: (opOperands rest ++ [eof])) →
      first.type = .IDENTIFIER →
      (∀ p ∈ rest, p.1.type = .ASSIGN ∧ p.2.type = .IDENTIFIER) →
      rest.length + 9 ≤ fuel →
      parseAssignment fuel ⟨ts, i, e⟩ =
        .ok (rightNest first rest) ⟨ts, i + 1 + 2 * rest.length, e⟩ := by
  induction rest with
  | nil =>
    intro i fuel first hat hfirst _ hfuel
    obtain ⟨k, rfl⟩ : ∃ k, fuel = k + 9 := ⟨fuel - 9, by simp at hfuel; omega⟩
    have hx := tokensAt_head hat
    have hz := tokensAt_head (tokensAt_tail hat)
    simp [parseAssignment,
      parseOr_ident ts i e first eof k hx hfirst hz (by rw [heof]; decide),
      matchTok_eof ts (i + 1) e eof _ hz heof, rightNest]
  | cons p rest ih =>
    intro i fuel first hat hfirst hrest hfuel
    obtain ⟨o, x⟩ := p
    obtain ⟨k, rfl⟩ : ∃ k, fuel = k + 10 := ⟨fuel - 10, by simp at hfuel; omega⟩
    have hx := tokensAt_head hat
    have hat1 := tokensAt_tail hat
    have ho := tokensAt_head hat1
    have hat2 := tokensAt_tail hat1
    have hp := hrest (o, x) (by simp)
    have hrest2 : ∀ p ∈ rest, p.1.type = .ASSIGN ∧ p.2.type = .IDENTIFIER :=
      fun p hp => hrest p (by simp [hp])
    have hnext := ih (i + 1 + 1) (k + 9) x hat2 hp.2 hrest2 (by simp at hfuel ⊢; omega)
    have hpos : i + 1 + 1 + 1 + 2 * rest.length = i + 1 + 2 * (rest.length + 1) := by omega
    rw [parseAssignment_succ]
    simp only [bind_apply, pure_apply,
      parseOr_ident ts i e first o (k + 1) hx hfirst ho (by rw [hp.1]; decide),
      matchTok_hit ts (i + 1) e o .ASSIGN ho hp.1 (by decide), hnext, rightNest, hpos,
      if_true, List.length_cons]

end Parser

/-! ## Claims about the parser -/

/-- C1 (the code at the failing input): parsing the tokens of
`func f(number x) { return x; }` yields one `Func` named `f` whose body is the
single statement `return x`, with no diagnostics, but its single parameter is
`("number", ")")`: `parseArgList` reads the parameter name with `peek()` after
`match(IDENTIFIER)` has already consumed the identifier, so it stores the
lexeme of the following token. -/
theorem C1_param_name_is_next_lexeme :
    parse (tokenize "func f(number x) \x7b return x; \x7d") =
      .ok
        { decls := [Decl.Func
            { name := "f", params := [("number", ")")],
              body := some [Stmt.ReturnStmt (some (idExpr "x"))] }] }
        { tokens := tokenize "func f(number x) \x7b return x; \x7d",
          current := 11, m_errors := [] } := by
  rfl

/-- C2 (the code at the failing input): parsing the tokens of
`Block B { number n; }` yields one `BlockDecl` named `B` with no methods and one
field, but the field is `VarDecl{typeName = "number", varName = "number"}`:
`parseVarDeclStmt` reads the variable name from the type keyword itself, then
skips the identifier `n` with a diagnostic, and the `;` draws a second one. -/
theorem C2_field_name_is_type_keyword :
    parse (tokenize "Block B \x7b number n; \x7d") =
      .ok
        { decls := [Decl.Block
            { name := "B",
              fields := [{ typeName := "number", varName := "number", initValue := none }],
              methods := [] }] }
        { tokens := tokenize "Block B \x7b number n; \x7d",
          current := 7,
          m_errors :=
            ["Parse error at line 1 col 18: Expected ';' after variable declaration",
             "Parse error at line 1, col 19: Unexpected token inside Block declaration: ;"] } := by
  rfl

/-- The lexer gives every binary operator the token kind and the lexeme that
`BinOp.token` carries. -/
theorem binOp_token_of_lexer (o : BinOp) :
    tokenize o.text = [o.token 1 1, eofToken 1 (1 + o.text.length)] := by
  cases o <;> decide

set_option maxHeartbeats 4000000 in
/-- C8: operator precedence. For identifiers `a`, `b`, `c` (at any line and
column) and binary operators `o1`, `o2` with `o2` at a strictly higher level
than `o1` in the order assignment < equality < relational < additive <
multiplicative, `parseExpression` on `a o1 b o2 c` returns
`Binary(a, o1, Binary(b, o2, c))` and on `a o2 b o1 c` returns
`Binary(Binary(a, o2, b), o1, c)`; and for every prefix operator `u` and every
binary operator `o`, on `u a o b` it returns `Binary(Unary(u, a), o, b)`. In
every case all tokens up to `END_OF_FILE` are consumed and there is no
diagnostic. Thirteen nested calls suffice. -/
theorem C8_precedence (a b c : String) (ln col : Nat → Int) (o1 o2 o : BinOp) (u : PrefixOp)
    (fuel : Nat) (hlevel : o1.level < o2.level) (hfuel : 13 ≤ fuel) :
    Parser.parseExpression fuel
        { tokens := [identToken a (ln 0) (col 0), o1.token (ln 1) (col 1),
            identToken b (ln 2) (col 2), o2.token (ln 3) (col 3),
            identToken c (ln 4) (col 4), eofToken (ln 5) (col 5)] } =
      .ok (binExpr (idExpr a) o1.text (binExpr (idExpr b) o2.text (idExpr c)))
        { tokens := [identToken a (ln 0) (col 0), o1.token (ln 1) (col 1),
            identToken b (ln 2) (col 2), o2.token (ln 3) (col 3),
            identToken c (ln 4) (col 4), eofToken (ln 5) (col 5)],
          current := 5, m_errors := [] } ∧
    Parser.parseExpression fuel
        { tokens := [identToken a (ln 0) (col 0), o2.token (ln 1) (col 1),
            identToken b (ln 2) (col 2), o1.token (ln 3) (col 3),
            identToken c (ln 4) (col 4), eofToken (ln 5) (col 5)] } =
      .ok (binExpr (binExpr (idExpr a) o2.text (idExpr b)) o1.text (idExpr c))
        { tokens := [identToken a (ln 0) (col 0), o2.token (ln 1) (col 1),
            identToken b (ln 2) (col 2), o1.token (ln 3) (col 3),
            identToken c (ln 4) (col 4), eofToken (ln 5) (col 5)],
          current := 5, m_errors := [] } ∧
    Parser.parseExpression fuel
        { tokens := [u.token (ln 0) (col 0), identToken a (ln 1) (col 1),
            o.token (ln 2) (col 2), identToken b (ln 3) (col 3),
            eofToken (ln 4) (col 4)] } =
      .ok (binExpr (unExpr u.text (idExpr a)) o.text (idExpr b))
        { tokens := [u.token (ln 0) (col 0), identToken a (ln 1) (col 1),
            o.token (ln 2) (col 2), identToken b (ln 3) (col 3),
            eofToken (ln 4) (col 4)],
          current := 4, m_errors := [] } := by
  obtain ⟨k, rfl⟩ : ∃ k, fuel = k + 13 := ⟨fuel - 13, by omega⟩
  refine ⟨?_, ?_, ?_⟩
  · cases o1 <;> cases o2 <;> first | exact absurd hlevel (by decide) | rfl
  · cases o1 <;> cases o2 <;> first | exact absurd hlevel (by decide) | rfl
  · cases u <;> cases o <;> rfl

/-- C8 at `a + b * c`, `a * b + c` and `-a * b`, with fuel 13. -/
theorem C8_precedence_witness :
    (BinOp.plus.level < BinOp.mul.level ∧ 13 ≤ 13) ∧
    Parser.parseExpression 13
        { tokens := [identToken "a" 1 1, BinOp.plus.token 1 3, identToken "b" 1 5,
            BinOp.mul.token 1 7, identToken "c" 1 9, eofToken 1 10] } =
      .ok (binExpr (idExpr "a") "+" (binExpr (idExpr "b") "*" (idExpr "c")))
        { tokens := [identToken "a" 1 1, BinOp.plus.token 1 3, identToken "b" 1 5,
            BinOp.mul.token 1 7, identToken "c" 1 9, eofToken 1 10],
          current := 5, m_errors := [] } :=
  ⟨⟨by decide, by decide⟩,
    (C8_precedence "a" "b" "c" (fun _ => 1) (fun j => [1, 3, 5, 7, 9, 10].getD j 0)
      .plus .mul .mul .minus 13 (by decide) (by decide)).1⟩

/-- C9: left associativity. For an identifier `first`, pairs `(oj, xj)` of an
operator token and an identifier token with all operators from one level
between 3 and 6 (3 equality, 4 relational, 5 additive, 6 multiplicative) and a
closing `END_OF_FILE`, `parseExpression` on `first o1 x1 ... on xn` returns
the left-nested tree `Binary(...Binary(first, o1, x1)..., on, xn)`, every node
carrying the lexeme of its operator token; it stops at the `END_OF_FILE` and
records no diagnostic. The fuel needed grows by one per operator. -/
theorem C9_left_associativity (level : Nat) (first : Token) (rest : List (Token × Token))
    (eof : Token) (fuel : Nat)
    (hlevel : 3 ≤ level ∧ level ≤ 6)
    (hfirst : first.type = .IDENTIFIER)
    (hrest : ∀ p ∈ rest, bindLevel p.1.type = level ∧ p.2.type = .IDENTIFIER)
    (heof : eof.type = .END_OF_FILE)
    (hfuel : rest.length + 10 ≤ fuel) :
    Parser.parseExpression fuel { tokens := first :: (opOperands rest ++ [eof]) } =
      .ok (leftNest (some (Expr.Identifier first.lexeme)) rest)
        { tokens := first :: (opOperands rest ++ [eof]),
          current := 2 * rest.length + 1, m_errors := [] } := by
  have h := Parser.parseExpression_chain level hlevel (first :: (opOperands rest ++ [eof])) [] 0
    first rest eof fuel (tokensAt_self _) hfirst hrest heof hfuel
  rw [h]
  congr 1
  simp only [Parser.mk.injEq, true_and, and_true]
  omega

/-- C9 at `a - b + c` (additive level), with fuel 12. -/
theorem C9_left_associativity_witness :
    Parser.parseExpression 12
        { tokens := [identToken "a" 1 1, BinOp.minus.token 1 3, identToken "b" 1 5,
            BinOp.plus.token 1 7, identToken "c" 1 9, eofToken 1 10] } =
      .ok (binExpr (binExpr (idExpr "a") "-" (idExpr "b")) "+" (idExpr "c"))
        { tokens := [identToken "a" 1 1, BinOp.minus.token 1 3, identToken "b" 1 5,
            BinOp.plus.token 1 7, identToken "c" 1 9, eofToken 1 10],
          current := 5, m_errors := [] } :=
  C9_left_associativity 5 (identToken "a" 1 1)
    [(BinOp.minus.token 1 3, identToken "b" 1 5), (BinOp.plus.token 1 7, identToken "c" 1 9)]
    (eofToken 1 10) 12 (by decide) rfl (by decide) rfl (by decide)

/-- C10: assignment is right-associative and is a `Binary` with operator
`"="`. For an identifier `first`, pairs of an `ASSIGN` token and an identifier
token and a closing `END_OF_FILE`, `parseExpression` on
`first = x2 = ... = xn` returns
`Binary(first, "=", Binary(x2, "=", ... Binary(x(n-1), "=", xn)))`; it stops at
the `END_OF_FILE` and records no diagnostic. -/
theorem C10_assignment_right_associative (first : Token) (rest : List (Token × Token))
    (eof : Token) (fuel : Nat)
    (hfirst : first.type = .IDENTIFIER)
    (hrest : ∀ p ∈ rest, p.1.type = .ASSIGN ∧ p.2.type = .IDENTIFIER)
    (heof : eof.type = .END_OF_FILE)
    (hfuel : rest.length + 10 ≤ fuel) :
    Parser.parseExpression fuel { tokens := first :: (opOperands rest ++ [eof]) } =
      .ok (rightNest first rest)
        { tokens := first :: (opOperands rest ++ [eof]),
          current := 2 * rest.length + 1, m_errors := [] } := by
  obtain ⟨k, rfl⟩ : ∃ k, fuel = k + 1 := ⟨fuel - 1, by omega⟩
  have h := Parser.parseAssignment_chain (first :: (opOperands rest ++ [eof])) [] eof heof rest
    0 k first (tokensAt_self _) hfirst hrest (by omega)
  simp only [Parser.parseExpression]
  rw [h]
  congr 1
  simp only [Parser.mk.injEq, true_and, and_true]
  omega

/-- C10 at `a = b = c`, with fuel 12. -/
theorem C10_assignment_right_associative_witness :
    Parser.parseExpression 12
        { tokens := [identToken "a" 1 1, BinOp.assign.token 1 3, identToken "b" 1 5,
            BinOp.assign.token 1 7, identToken "c" 1 9, eofToken 1 10] } =
      .ok (binExpr (idExpr "a") "=" (binExpr (idExpr "b") "=" (idExpr "c")))
        { tokens := [identToken "a" 1 1, BinOp.assign.token 1 3, identToken "b" 1 5,
            BinOp.assign.token 1 7, identToken "c" 1 9, eofToken 1 10],
          current := 5, m_errors := [] } :=
  C10_assignment_right_associative (identToken "a" 1 1)
    [(BinOp.assign.token 1 3, identToken "b" 1 5), (BinOp.assign.token 1 7, identToken "c" 1 9)]
    (eofToken 1 10) 12 rfl (by decide) rfl (by decide)

/-! ## Termination of the parser

Every production returns normally, without reading outside the token vector,
when its budget is at least sixteen times the number of tokens between the
cursor and an `END_OF_FILE` token plus a constant that depends on the
production. -/

namespace Parser

theorem typeAt_of_getElem? {ts : List Token} {i : Nat} {t : Token} (h : ts[i]? = some t) :
    typeAt ts i = t.type := by
  simp [typeAt, h]

theorem exists_token {ts : List Token} {k i : Nat} (c : EofAt ts k) (hi : i ≤ k) :
    ∃ t, ts[i]? = some t ∧ typeAt ts i = t.type := by
  have hlt : i < ts.length := Nat.lt_of_le_of_lt hi c.lt
  exact ⟨ts[i], List.getElem?_eq_getElem hlt, by simp [typeAt, List.getElem?_eq_getElem hlt]⟩

theorem lt_of_not_eof {ts : List Token} {k i : Nat} (c : EofAt ts k) (hi : i ≤ k)
    (h : typeAt ts i ≠ .END_OF_FILE) : i < k := by
  rcases Nat.lt_or_ge i k with h1 | h1
  · exact h1
  · have : i = k := Nat.le_antisymm hi h1
    subst this
    exact absurd c.eof h

section Combinators

variable {ts : List Token} {k : Nat}

theorem Runs.bind {α β : Type} {p : P α} {f : α → P β} {i : Nat} {Q : α → Nat → Prop}
    {R : β → Nat → Prop} (hp : Runs ts k p i Q)
    (hf : ∀ a j, i ≤ j → j ≤ k → Q a j → Runs ts k (f a) j R) :
    Runs ts k (p >>= f) i R := by
  intro e
  obtain ⟨a, j, e1, h1, hij, hjk, hq⟩ := hp e
  obtain ⟨b, l, e2, h2, hjl, hlk, hr⟩ := hf a j hij hjk hq e1
  exact ⟨b, l, e2, by simp [h1, h2], Nat.le_trans hij hjl, hlk, hr⟩

theorem Runs.pure {α : Type} {a : α} {i : Nat} {Q : α → Nat → Prop} (hi : i ≤ k)
    (hq : Q a i) : Runs ts k (pure a : P α) i Q :=
  fun e => ⟨a, i, e, rfl, Nat.le_refl _, hi, hq⟩

theorem Runs.ite {α : Type} {c : Prop} [Decidable c] {p q : P α} {i : Nat}
    {Q : α → Nat → Prop} (hp : c → Runs ts k p i Q) (hq : ¬c → Runs ts k q i Q) :
    Runs ts k (if c then p else q) i Q := by
  by_cases h : c
  · rw [if_pos h]; exact hp h
  · rw [if_neg h]; exact hq h

theorem Runs.weaken {α : Type} {p : P α} {i : Nat} {Q Q1 : α → Nat → Prop}
    (hp : Runs ts k p i Q) (h : ∀ a j, i ≤ j → j ≤ k → Q a j → Q1 a j) :
    Runs ts k p i Q1 := by
  intro e
  obtain ⟨a, j, e1, h1, hij, hjk, hq⟩ := hp e
  exact ⟨a, j, e1, h1, hij, hjk, h a j hij hjk hq⟩

theorem runs_peek (c : EofAt ts k) {i : Nat} (hi : i ≤ k) :
    Runs ts k peek i (fun t j => j = i ∧ t.type = typeAt ts i) := by
  intro e
  obtain ⟨t, ht, hty⟩ := exists_token c hi
  exact ⟨t, i, e, peek_at ts i e t ht, Nat.le_refl _, hi, rfl, hty.symm⟩

theorem runs_previous (c : EofAt ts k) {i : Nat} (hi : i ≤ k) (h1 : 1 ≤ i) :
    Runs ts k previous i (fun _ j => j = i) := by
  intro e
  obtain ⟨t, ht, _⟩ := exists_token c (Nat.le_trans (Nat.sub_le i 1) hi)
  obtain ⟨m, rfl⟩ : ∃ m, i = m + 1 := ⟨i - 1, by omega⟩
  exact ⟨t, m + 1, e, previous_at ts m e t (by simpa using ht), Nat.le_refl _, hi, rfl⟩

theorem runs_isAtEnd (c : EofAt ts k) {i : Nat} (hi : i ≤ k) :
    Runs ts k isAtEnd i (fun b j => j = i ∧ (b = true ↔ typeAt ts i = .END_OF_FILE)) := by
  intro e
  obtain ⟨t, ht, hty⟩ := exists_token c hi
  exact ⟨_, i, e, isAtEnd_at ts i e t ht, Nat.le_refl _, hi, rfl, by simp [hty]⟩

theorem runs_check (c : EofAt ts k) {i : Nat} (hi : i ≤ k) (ty : TokenType) :
    Runs ts k (check ty) i
      (fun b j => j = i ∧ (b = true ↔ typeAt ts i ≠ .END_OF_FILE ∧ typeAt ts i = ty)) := by
  intro e
  obtain ⟨t, ht, hty⟩ := exists_token c hi
  exact ⟨_, i, e, check_at ts i e t ty ht, Nat.le_refl _, hi, rfl, by simp [hty]⟩

theorem runs_isDtypeToken (c : EofAt ts k) {i : Nat} (hi : i ≤ k) :
    Runs ts k isDtypeToken i (fun b j => j = i ∧ b = isDtype (typeAt ts i)) := by
  intro e
  obtain ⟨t, ht, hty⟩ := exists_token c hi
  exact ⟨_, i, e, by simp [isDtypeToken, peek_at ts i e t ht]; rfl, Nat.le_refl _, hi, rfl,
    by simp [hty, isDtype]⟩

theorem runs_isLiteralToken (c : EofAt ts k) {i : Nat} (hi : i ≤ k) :
    Runs ts k isLiteralToken i (fun b j => j = i ∧ b = isLiteralType (typeAt ts i)) := by
  intro e
  obtain ⟨t, ht, hty⟩ := exists_token c hi
  exact ⟨_, i, e, by simp [isLiteralToken, peek_at ts i e t ht]; rfl, Nat.le_refl _, hi, rfl,
    by simp [hty, isLiteralType]⟩

theorem runs_pushError {i : Nat} (hi : i ≤ k) (msg : String) :
    Runs ts k (pushError msg) i (fun _ j => j = i) :=
  fun e => ⟨(), i, e ++ [msg], rfl, Nat.le_refl _, hi, rfl⟩

theorem runs_logError (c : EofAt ts k) {i : Nat} (hi : i ≤ k) (msg : String) :
    Runs ts k (logError msg) i (fun _ j => j = i) := by
  unfold logError
  refine Runs.bind (runs_peek c hi) ?_
  rintro t j _ hjk ⟨rfl, _⟩
  exact runs_pushError hjk _

/-- The outcome of `advance`, `consume` and a successful `match`: the cursor
moves by one token unless it stands on `END_OF_FILE`, and it is positive
afterwards. -/
theorem runs_advance (c : EofAt ts k) {i : Nat} (hi : i ≤ k)
    (h1 : 1 ≤ i ∨ typeAt ts i ≠ .END_OF_FILE) :
    Runs ts k advance i
      (fun _ j => 1 ≤ j ∧ (typeAt ts i ≠ .END_OF_FILE → j = i + 1) ∧
        (typeAt ts i = .END_OF_FILE → j = i)) := by
  intro e
  obtain ⟨t, ht, hty⟩ := exists_token c hi
  by_cases hend : typeAt ts i = .END_OF_FILE
  · have h1i : 1 ≤ i := by
      rcases h1 with h | h
      · exact h
      · exact absurd hend h
    obtain ⟨m, rfl⟩ : ∃ m, i = m + 1 := ⟨i - 1, by omega⟩
    obtain ⟨u, hu, _⟩ := exists_token c (Nat.le_trans (Nat.le_succ m) hi)
    refine ⟨u, m + 1, e, ?_, Nat.le_refl _, hi, by omega, fun h => absurd hend h, fun _ => rfl⟩
    simp [advance, isAtEnd_at ts (m + 1) e t ht, ← hty, hend, previous_at ts m e u hu]
  · have hlt := lt_of_not_eof c hi hend
    refine ⟨t, i + 1, e, ?_, Nat.le_succ _, hlt, by omega, fun _ => rfl,
      fun h => absurd h hend⟩
    have hne : t.type ≠ .END_OF_FILE := by rw [← hty]; exact hend
    simp [advance, isAtEnd_at ts i e t ht, hne, incCurrent, previous_at ts i e t ht]

theorem runs_matchTok (c : EofAt ts k) {i : Nat} (hi : i ≤ k) (ty : TokenType) :
    Runs ts k (matchTok ty) i
      (fun b j => (b = true → j = i + 1 ∧ typeAt ts i = ty) ∧
        (b = false → j = i ∧ (typeAt ts i = .END_OF_FILE ∨ typeAt ts i ≠ ty))) := by
  unfold matchTok
  refine Runs.bind (runs_check c hi ty) ?_
  rintro b j _ hjk ⟨rfl, hb⟩
  refine Runs.ite (fun hb1 => ?_) (fun hb1 => ?_)
  · have hh := hb.1 hb1
    refine Runs.bind (runs_advance c hjk (Or.inr hh.1)) ?_
    rintro _ l _ hlk ⟨_, hl, _⟩
    exact Runs.pure hlk ⟨fun _ => ⟨hl hh.1, hh.2⟩, fun h => by simp at h⟩
  · refine Runs.pure hjk ⟨fun h => by simp at h, fun _ => ⟨rfl, ?_⟩⟩
    by_cases hend : typeAt ts j = .END_OF_FILE
    · exact Or.inl hend
    · right
      intro hty
      exact hb1 (hb.2 ⟨hend, hty⟩)

theorem runs_consume (c : EofAt ts k) {i : Nat} (hi : i ≤ k)
    (h1 : 1 ≤ i ∨ typeAt ts i ≠ .END_OF_FILE) (ty : TokenType) (msg : String) :
    Runs ts k (consume ty msg) i
      (fun _ j => 1 ≤ j ∧ (typeAt ts i ≠ .END_OF_FILE → j = i + 1)) := by
  unfold consume
  refine Runs.bind (runs_check c hi ty) ?_
  rintro b j _ hjk ⟨rfl, _⟩
  have tail : ∀ u : Unit, Runs ts k (do let _ ← advance; Pure.pure ()) j
      (fun _ l => 1 ≤ l ∧ (typeAt ts j ≠ .END_OF_FILE → l = j + 1)) := by
    intro _
    refine Runs.bind (runs_advance c hjk h1) ?_
    rintro _ m _ hmk ⟨hm1, hm2, _⟩
    exact Runs.pure hmk ⟨hm1, hm2⟩
  dsimp only
  refine Runs.ite (fun _ => ?_) (fun _ => ?_)
  · refine Runs.bind (runs_peek c hjk) ?_
    rintro t l _ hlk ⟨rfl, _⟩
    refine Runs.bind (runs_pushError hlk _) ?_
    rintro _ m _ _ rfl
    exact tail ()
  · refine Runs.bind (Runs.pure (Q := fun _ l => l = j) hjk rfl) ?_
    rintro _ m _ _ rfl
    exact tail ()

end Combinators

section Expressions

variable {ts : List Token} {k : Nat}

theorem runs_matched (c : EofAt ts k) {i : Nat} (hi : i ≤ k) (ty : TokenType) :
    Runs ts k (matchTok ty) i (Matched i) :=
  Runs.weaken (runs_matchTok c hi ty)
    (fun _ _ _ _ h => ⟨fun hb => (h.1 hb).1, fun hb => (h.2 hb).1⟩)

theorem runs_orElse_matched {a b : P Bool} {i : Nat} (ha : Runs ts k a i (Matched i))
    (hb : Runs ts k b i (Matched i)) : Runs ts k (orElse a b) i (Matched i) := by
  unfold orElse
  refine Runs.bind ha ?_
  rintro x j _ hjk ⟨h1, h2⟩
  refine Runs.ite (fun hx => ?_) (fun hx => ?_)
  · exact Runs.pure hjk ⟨fun _ => h1 hx, fun h => by simp at h⟩
  · have hj : j = i := h2 (by simpa using hx)
    subst hj
    exact hb

theorem exprRuns_zero : ExprRuns ts k 0 := by
  constructor <;> intros <;> omega

theorem runs_parsePrimary (c : EofAt ts k) {n : Nat} (ih : ExprRuns ts k n) (i : Nat)
    (hpre : ExprStart ts i) (hi : i ≤ k) (hf : 16 * (k - i) + 1 ≤ n + 1) :
    Runs ts k (parsePrimary (n + 1)) i (MovesUnlessLiteral ts i) := by
  simp only [parsePrimary]
  refine Runs.bind (runs_isLiteralToken c hi) ?_
  rintro b j _ hjk ⟨rfl, hb⟩
  refine Runs.ite (fun hb1 => ?_) (fun _ => ?_)
  · have h1 : 1 ≤ j := by
      rcases hpre with h | ⟨h, _⟩
      · exact h
      · rw [hb, h] at hb1
        simp at hb1
    refine Runs.bind (runs_previous c hjk h1) ?_
    rintro _ l _ hlk rfl
    refine Runs.pure hlk ?_
    intro hnl _
    rw [hb, hnl] at hb1
    simp at hb1
  · refine Runs.bind (runs_matched c hjk .IDENTIFIER) ?_
    rintro b2 l _ hlk ⟨hm1, hm2⟩
    refine Runs.ite (fun hb2 => ?_) (fun hb2 => ?_)
    · have hl := hm1 hb2
      subst hl
      refine Runs.bind (runs_previous c hlk (by omega)) ?_
      rintro _ l _ hlk rfl
      refine Runs.bind (runs_matched c hlk .LPAREN) ?_
      rintro b3 m _ hmk ⟨hp1, hp2⟩
      refine Runs.ite (fun hb3 => ?_) (fun hb3 => ?_)
      · have hm := hp1 hb3
        subst hm
        refine Runs.bind (Q := Anyhow) ?_ ?_
        · refine Runs.bind (runs_check c hmk .RPAREN) ?_
          rintro b4 m _ hmk ⟨rfl, _⟩
          refine Runs.ite (fun _ => ?_) (fun _ => Runs.pure hmk trivial)
          exact ih.callArgs _ _ (by omega) hmk (by omega)
        · rintro _ m _ hmk _
          refine Runs.bind (runs_consume c hmk (Or.inl (by omega)) _ _) ?_
          rintro _ m2 _ hm2k _
          exact Runs.pure hm2k (fun _ _ => by omega)
      · exact Runs.pure hmk (fun _ _ => by omega)
    · have hl := hm2 (by simpa using hb2)
      subst hl
      refine Runs.bind (runs_matched c hlk .LPAREN) ?_
      rintro b3 m _ hmk ⟨hp1, hp2⟩
      refine Runs.ite (fun hb3 => ?_) (fun hb3 => ?_)
      · have hm := hp1 hb3
        subst hm
        refine Runs.bind (ih.expression _ (Or.inl (by omega)) hmk (by omega)) ?_
        rintro _ m _ hmk _
        refine Runs.bind (runs_consume c hmk (Or.inl (by omega)) _ _) ?_
        rintro _ m2 _ hm2k _
        exact Runs.pure hm2k (fun _ _ => by omega)
      · have hm := hp2 (by simpa using hb3)
        subst hm
        refine Runs.bind (runs_peek c hmk) ?_
        rintro _ m _ hmk ⟨rfl, _⟩
        refine Runs.bind (runs_pushError hmk _) ?_
        rintro _ m _ hmk rfl
        refine Runs.bind (runs_advance c hmk (hpre.imp_right And.right)) ?_
        rintro _ m2 _ hm2k ⟨_, hadv, _⟩
        refine Runs.pure hm2k ?_
        intro _ hne
        have := hadv hne
        omega

theorem runs_parseUnary (c : EofAt ts k) {n : Nat} (ih : ExprRuns ts k n) (i : Nat)
    (hpre : ExprStart ts i) (hi : i ≤ k) (hf : 16 * (k - i) + 2 ≤ n + 1) :
    Runs ts k (parseUnary (n + 1)) i (MovesUnlessLiteral ts i) := by
  simp only [parseUnary]
  refine Runs.bind (runs_orElse_matched (runs_orElse_matched (runs_matched c hi _)
    (runs_matched c hi _)) (runs_matched c hi _)) ?_
  rintro b j _ hjk ⟨hm1, hm2⟩
  refine Runs.ite (fun hb => ?_) (fun hb => ?_)
  · have hj := hm1 hb
    subst hj
    refine Runs.bind (runs_previous c hjk (by omega)) ?_
    rintro _ l _ hlk rfl
    refine Runs.bind (ih.unary _ (Or.inl (by omega)) hlk (by omega)) ?_
    rintro _ m _ hmk _
    exact Runs.pure hmk (fun _ _ => by omega)
  · have hj := hm2 (by simpa using hb)
    subst hj
    exact ih.primary _ hpre hjk (by omega)

/-- The shape shared by the loops of the binary levels: a test built from
`match`, then `previous()`, the operand of the next level and the loop
again. -/
theorem runs_binaryLoop (c : EofAt ts k) {i : Nat} {cond : P Bool}
    {operand : P ExprPtr} {loop : ExprPtr → P ExprPtr} {mk : Token → ExprPtr → ExprPtr}
    {expr : ExprPtr} (hcond : Runs ts k cond i (Matched i))
    (hoperand : i + 1 ≤ k → Runs ts k operand (i + 1) (MovesUnlessLiteral ts (i + 1)))
    (hloop : ∀ j e, i + 1 ≤ j → j ≤ k → Runs ts k (loop e) j Anyhow) :
    Runs ts k (do
      if (← cond) then
        let prev ← previous
        let right ← operand
        loop (mk prev right)
      else Pure.pure expr) i Anyhow := by
  refine Runs.bind hcond ?_
  rintro b j _ hjk ⟨hm1, hm2⟩
  refine Runs.ite (fun hb => ?_) (fun hb => ?_)
  · have hj := hm1 hb
    subst hj
    refine Runs.bind (runs_previous c hjk (by omega)) ?_
    rintro _ l _ hlk rfl
    refine Runs.bind (hoperand hlk) ?_
    rintro _ m hlm hmk _
    exact hloop m _ hlm hmk
  · exact Runs.pure hjk trivial

/-- The shape shared by the binary levels: the operand of the next level
followed by the loop, which is entered past the first token. -/
theorem runs_binaryLevel {i : Nat} {operand : P ExprPtr} {loop : ExprPtr → P ExprPtr}
    (hpre : ExprStart ts i) (hoperand : Runs ts k operand i (MovesUnlessLiteral ts i))
    (hloop : ∀ j e, 1 ≤ j → i ≤ j → j ≤ k → Runs ts k (loop e) j Anyhow) :
    Runs ts k (operand >>= loop) i (MovesUnlessLiteral ts i) := by
  refine Runs.bind hoperand ?_
  rintro e j hij hjk hmove
  have h1j : 1 ≤ j := by
    rcases hpre with h | ⟨h, hne⟩
    · omega
    · have := hmove h hne
      omega
  refine Runs.weaken (hloop j e h1j hij hjk) ?_
  intro _ l hjl _ _ hnl hne
  have := hmove hnl hne
  omega

theorem runs_parseAssignment (c : EofAt ts k) {n : Nat} (ih : ExprRuns ts k n) (i : Nat)
    (hpre : ExprStart ts i) (hi : i ≤ k) (hf : 16 * (k - i) + 9 ≤ n + 1) :
    Runs ts k (parseAssignment (n + 1)) i (MovesUnlessLiteral ts i) := by
  simp only [parseAssignment]
  refine Runs.bind (ih.or i hpre hi (by omega)) ?_
  rintro left j hij hjk hmove
  refine Runs.bind (runs_matched c hjk .ASSIGN) ?_
  rintro b l _ hlk ⟨hm1, hm2⟩
  refine Runs.ite (fun hb => ?_) (fun hb => ?_)
  · have hl := hm1 hb
    subst hl
    refine Runs.bind (ih.assignment _ (Or.inl (by omega)) hlk (by omega)) ?_
    rintro _ m _ hmk _
    exact Runs.pure hmk (fun _ _ => by omega)
  · have hl := hm2 (by simpa using hb)
    subst hl
    exact Runs.pure hlk hmove

theorem runs_parseCallArgs (c : EofAt ts k) {n : Nat} (ih : ExprRuns ts k n) (i : Nat)
    (args : List ExprPtr) (h1 : 1 ≤ i) (hi : i ≤ k) (hf : 16 * (k - i) + 11 ≤ n + 1) :
    Runs ts k (parseCallArgs (n + 1) args) i Anyhow := by
  simp only [parseCallArgs]
  refine Runs.bind (ih.expression i (Or.inl h1) hi (by omega)) ?_
  rintro e j hij hjk _
  refine Runs.bind (runs_matched c hjk .COMMA) ?_
  rintro b l _ hlk ⟨hm1, _⟩
  refine Runs.ite (fun hb => ?_) (fun _ => Runs.pure hlk trivial)
  have hl := hm1 hb
  subst hl
  exact ih.callArgs _ _ (by omega) hlk (by omega)

/-- Every expression production returns normally when its budget covers the
tokens that are left. -/
theorem exprRuns (c : EofAt ts k) : ∀ fuel, ExprRuns ts k fuel := by
  intro fuel
  induction fuel with
  | zero => exact exprRuns_zero
  | succ n ih =>
    refine
      { primary := fun i h1 hi hf => runs_parsePrimary c ih i h1 hi hf
        unary := fun i h1 hi hf => runs_parseUnary c ih i h1 hi hf
        factorLoop := fun i expr h1 hi hf => ?_
        factor := fun i h1 hi hf => ?_
        termLoop := fun i expr h1 hi hf => ?_
        term := fun i h1 hi hf => ?_
        comparisonLoop := fun i expr h1 hi hf => ?_
        comparison := fun i h1 hi hf => ?_
        equalityLoop := fun i expr h1 hi hf => ?_
        equality := fun i h1 hi hf => ?_
        andLoop := fun i expr h1 hi hf => ?_
        and := fun i h1 hi hf => ?_
        orLoop := fun i expr h1 hi hf => ?_
        or := fun i h1 hi hf => ?_
        assignment := fun i h1 hi hf => runs_parseAssignment c ih i h1 hi hf
        expression := fun i h1 hi hf => ?_
        callArgs := fun i args h1 hi hf => runs_parseCallArgs c ih i args h1 hi hf }
    · simp only [parseFactorLoop]
      exact runs_binaryLoop c
        (runs_orElse_matched (runs_orElse_matched (runs_matched c hi _) (runs_matched c hi _))
          (runs_matched c hi _))
        (fun h => ih.unary _ (Or.inl (by omega)) h (by omega))
        (fun j e hj hjk => ih.factorLoop j e (by omega) hjk (by omega))
    · simp only [parseFactor]
      exact runs_binaryLevel h1 (ih.unary i h1 hi (by omega))
        (fun j e h1j hj hjk => ih.factorLoop j e h1j hjk (by omega))
    · simp only [parseTermLoop]
      exact runs_binaryLoop c
        (runs_orElse_matched (runs_matched c hi _) (runs_matched c hi _))
        (fun h => ih.factor _ (Or.inl (by omega)) h (by omega))
        (fun j e hj hjk => ih.termLoop j e (by omega) hjk (by omega))
    · simp only [parseTerm]
      exact runs_binaryLevel h1 (ih.factor i h1 hi (by omega))
        (fun j e h1j hj hjk => ih.termLoop j e h1j hjk (by omega))
    · simp only [parseComparisonLoop]
      exact runs_binaryLoop c
        (runs_orElse_matched (runs_orElse_matched (runs_orElse_matched (runs_matched c hi _)
          (runs_matched c hi _)) (runs_matched c hi _)) (runs_matched c hi _))
        (fun h => ih.term _ (Or.inl (by omega)) h (by omega))
        (fun j e hj hjk => ih.comparisonLoop j e (by omega) hjk (by omega))
    · simp only [parseComparison]
      exact runs_binaryLevel h1 (ih.term i h1 hi (by omega))
        (fun j e h1j hj hjk => ih.comparisonLoop j e h1j hjk (by omega))
    · simp only [parseEqualityLoop]
      exact runs_binaryLoop c
        (runs_orElse_matched (runs_matched c hi _) (runs_matched c hi _))
        (fun h => ih.comparison _ (Or.inl (by omega)) h (by omega))
        (fun j e hj hjk => ih.equalityLoop j e (by omega) hjk (by omega))
    · simp only [parseEquality]
      exact runs_binaryLevel h1 (ih.comparison i h1 hi (by omega))
        (fun j e h1j hj hjk => ih.equalityLoop j e h1j hjk (by omega))
    · simp only [parseAndLoop]
      exact runs_binaryLoop c (runs_matched c hi _)
        (fun h => ih.equality _ (Or.inl (by omega)) h (by omega))
        (fun j e hj hjk => ih.andLoop j e (by omega) hjk (by omega))
    · simp only [parseAnd]
      exact runs_binaryLevel h1 (ih.equality i h1 hi (by omega))
        (fun j e h1j hj hjk => ih.andLoop j e h1j hjk (by omega))
    · simp only [parseOrLoop]
      exact runs_binaryLoop c (runs_matched c hi _)
        (fun h => ih.and _ (Or.inl (by omega)) h (by omega))
        (fun j e hj hjk => ih.orLoop j e (by omega) hjk (by omega))
    · simp only [parseOr]
      exact runs_binaryLevel h1 (ih.and i h1 hi (by omega))
        (fun j e h1j hj hjk => ih.orLoop j e h1j hjk (by omega))
    · simp only [parseExpression]
      exact ih.assignment i h1 hi (by omega)

end Expressions

section Statements

variable {ts : List Token} {k : Nat}

theorem runs_parseVarDeclStmt (c : EofAt ts k) (fuel i : Nat) (hi : i ≤ k)
    (h1 : 1 ≤ i ∨ typeAt ts i ≠ .END_OF_FILE) (hf : 16 * (k - i) + 11 ≤ fuel) :
    Runs ts k (parseVarDeclStmt fuel) i (MovesUnlessEof ts i) := by
  obtain ⟨n, rfl⟩ : ∃ n, fuel = n + 1 := ⟨fuel - 1, by omega⟩
  simp only [parseVarDeclStmt]
  refine Runs.bind (runs_peek c hi) ?_
  rintro _ j _ hjk ⟨rfl, _⟩
  refine Runs.bind (Q := fun _ l => l = j) ?_ ?_
  · refine Runs.bind (runs_check c hjk _) ?_
    rintro _ l _ hlk ⟨rfl, _⟩
    refine Runs.ite (fun _ => ?_) (fun _ => ?_)
    · refine Runs.bind (runs_peek c hlk) ?_
      rintro _ m _ hmk ⟨rfl, _⟩
      exact Runs.pure hmk rfl
    · refine Runs.bind (runs_logError c hlk _) ?_
      rintro _ m _ hmk rfl
      exact Runs.pure hmk rfl
  · rintro _ l _ hlk rfl
    refine Runs.bind (runs_advance c hlk h1) ?_
    rintro _ m hlm hmk ⟨hm1, hadv, _⟩
    refine Runs.bind (Q := Anyhow) ?_ ?_
    · refine Runs.bind (runs_matched c hmk .ASSIGN) ?_
      rintro b p _ hpk ⟨hm, _⟩
      refine Runs.ite (fun hb => ?_) (fun _ => Runs.pure hpk trivial)
      have hp := hm hb
      subst hp
      refine Runs.bind ((exprRuns c n).expression _ (Or.inl (by omega)) hpk (by omega)) ?_
      rintro _ q _ hqk _
      exact Runs.pure hqk trivial
    · rintro _ p hmp hpk _
      refine Runs.bind (runs_consume c hpk (Or.inl (by omega)) _ _) ?_
      rintro _ q hpq hqk _
      refine Runs.pure hqk ?_
      intro hne
      have := hadv hne
      omega

/-- After an expression production entered at `i` the cursor is past the
first token. -/
theorem one_le_of_exprStart {i j : Nat} {α : Type} {a : α} (hpre : ExprStart ts i)
    (hij : i ≤ j) (hmove : MovesUnlessLiteral ts i a j) : 1 ≤ j := by
  rcases hpre with h | ⟨h, hne⟩
  · omega
  · have := hmove h hne
    omega

theorem runs_parseReturnStmt (c : EofAt ts k) (fuel i : Nat) (hpre : ExprStart ts i)
    (hi : i ≤ k) (hf : 16 * (k - i) + 11 ≤ fuel) :
    Runs ts k (parseReturnStmt fuel) i (MovesUnlessEof ts i) := by
  obtain ⟨n, rfl⟩ : ∃ n, fuel = n + 1 := ⟨fuel - 1, by omega⟩
  simp only [parseReturnStmt]
  refine Runs.bind (Q := fun _ p => 1 ≤ p ∨ typeAt ts p ≠ .END_OF_FILE) ?_ ?_
  · refine Runs.bind (runs_check c hi _) ?_
    rintro _ l _ hlk ⟨rfl, _⟩
    refine Runs.ite (fun _ => ?_) (fun _ => Runs.pure hlk (hpre.imp_right And.right))
    refine Runs.bind ((exprRuns c n).expression _ hpre hlk (by omega)) ?_
    rintro _ q hlq hqk hmove
    exact Runs.pure hqk (Or.inl (one_le_of_exprStart hpre hlq hmove))
  · rintro _ p hip hpk hp
    refine Runs.bind (runs_consume c hpk hp _ _) ?_
    rintro _ q hpq hqk ⟨_, hadv⟩
    refine Runs.pure hqk ?_
    intro hne
    rcases Nat.eq_or_lt_of_le hip with h | h
    · subst h
      have := hadv hne
      omega
    · omega

theorem runs_parseExprStmt (c : EofAt ts k) (fuel i : Nat) (hpre : ExprStart ts i)
    (hi : i ≤ k) (hf : 16 * (k - i) + 11 ≤ fuel) :
    Runs ts k (parseExprStmt fuel) i (MovesUnlessEof ts i) := by
  obtain ⟨n, rfl⟩ : ∃ n, fuel = n + 1 := ⟨fuel - 1, by omega⟩
  simp only [parseExprStmt]
  refine Runs.bind ((exprRuns c n).expression _ hpre hi (by omega)) ?_
  rintro _ p hip hpk hmove
  refine Runs.bind
    (runs_consume c hpk (Or.inl (one_le_of_exprStart hpre hip hmove)) _ _) ?_
  rintro _ q hpq hqk ⟨_, hadv⟩
  refine Runs.pure hqk ?_
  intro hne
  rcases Nat.eq_or_lt_of_le hip with h | h
  · subst h
    have := hadv hne
    omega
  · omega

/-- The test `!check(RBRACE) && !isAtEnd()` of the block loops reads the
current token only, and it fails on `END_OF_FILE`. -/
theorem runs_notClosed (c : EofAt ts k) {i : Nat} (hi : i ≤ k) :
    Runs ts k (andThen (notP (check .RBRACE)) (notP isAtEnd)) i
      (fun b j => j = i ∧ (b = true → typeAt ts i ≠ .END_OF_FILE)) := by
  unfold andThen notP
  refine Runs.bind (Q := fun _ j => j = i) ?_ ?_
  · refine Runs.bind (runs_check c hi _) ?_
    rintro _ l _ hlk ⟨rfl, _⟩
    exact Runs.pure hlk rfl
  · rintro b j _ hjk rfl
    refine Runs.ite (fun _ => ?_) (fun _ => Runs.pure hjk ⟨rfl, fun h => by simp at h⟩)
    refine Runs.bind (runs_isAtEnd c hjk) ?_
    rintro b2 l _ hlk ⟨rfl, hend⟩
    refine Runs.pure hlk ⟨rfl, ?_⟩
    intro hb2 hE
    have := hend.2 hE
    rw [this] at hb2
    simp at hb2

/-- The same test fails only on `\x7d` and on `END_OF_FILE`. -/
theorem runs_notClosed_exit (c : EofAt ts k) {i : Nat} (hi : i ≤ k) :
    Runs ts k (andThen (notP (check .RBRACE)) (notP isAtEnd)) i
      (fun b j => j = i ∧ (b = true → typeAt ts i ≠ .END_OF_FILE) ∧
        (b = false → typeAt ts i = .RBRACE ∨ typeAt ts i = .END_OF_FILE)) := by
  unfold andThen notP
  refine Runs.bind (Q := fun b j => j = i ∧ (b = false → typeAt ts i = .RBRACE)) ?_ ?_
  · refine Runs.bind (runs_check c hi _) ?_
    rintro b l _ hlk ⟨rfl, hb⟩
    refine Runs.pure hlk ⟨rfl, fun h => ?_⟩
    exact (hb.mp (by simpa using h)).2
  · rintro b j _ hjk ⟨rfl, hb⟩
    refine Runs.ite (fun _ => ?_) (fun hn => Runs.pure hjk
      ⟨rfl, fun h => by simp at h, fun _ => Or.inl (hb (by simpa using hn))⟩)
    refine Runs.bind (runs_isAtEnd c hjk) ?_
    rintro b2 l _ hlk ⟨rfl, hend⟩
    refine Runs.pure hlk ⟨rfl, ?_, fun hb2 => Or.inr (hend.1 (by simpa using hb2))⟩
    intro hb2 hE
    have := hend.2 hE
    rw [this] at hb2
    simp at hb2

/-- The tail `if (match(LBRACE)) body = parseBlock(); else if
(!check(SEMICOLON)) consume(...)` returns normally when `parseBlock` does so
after the brace, and it moves the cursor unless it starts on `;` or on
`END_OF_FILE`. -/
theorem runs_bodyOrSemicolon (c : EofAt ts k) {i : Nat}
    (h1 : 1 ≤ i ∨ typeAt ts i ≠ .END_OF_FILE) (hi : i ≤ k)
    {parseBody : P Block} {Q : Block → Nat → Prop} (msg : String)
    (hbody : i + 1 ≤ k → Runs ts k parseBody (i + 1) Q) :
    Runs ts k (bodyOrSemicolon parseBody msg) i (MovesUnlessSemicolon ts i) := by
  unfold bodyOrSemicolon
  refine Runs.bind (runs_matched c hi .LBRACE) ?_
  rintro b j _ hjk ⟨hm1, hm2⟩
  refine Runs.ite (fun hb => ?_) (fun hb => ?_)
  · have hj := hm1 hb
    subst hj
    exact Runs.weaken (hbody hjk) (fun _ l hl _ _ _ _ => by omega)
  · have hj := hm2 (by simpa using hb)
    subst hj
    refine Runs.bind (runs_check c hjk _) ?_
    rintro x l _ hlk ⟨rfl, hx⟩
    dsimp only
    refine Runs.ite (fun _ => ?_) (fun hn => ?_)
    · refine Runs.bind (runs_consume c hlk h1 _ _) ?_
      rintro _ m _ hmk ⟨_, hadv⟩
      refine Runs.pure hmk ?_
      intro _ hne
      have := hadv hne
      omega
    · refine Runs.bind (Runs.pure (Q := fun _ m => m = l) hlk rfl) ?_
      rintro _ m _ hmk rfl
      refine Runs.pure hmk ?_
      intro hsemi _
      exact absurd (hx.1 (by simpa using hn)).2 hsemi

/-- An action run under a test and followed by the rest of the function (the
shape of an `if` without `else`). -/
theorem runs_when {β : Type} {cnd : Prop} [Decidable cnd] {act : P PUnit}
    {rest : PUnit → P β} {i : Nat} {Q : PUnit → Nat → Prop} {R : β → Nat → Prop} (hi : i ≤ k)
    (hact : Runs ts k act i Q)
    (hrest : ∀ u j, i ≤ j → j ≤ k → Runs ts k (rest u) j R) :
    Runs ts k (if cnd then act >>= rest else Pure.pure PUnit.unit >>= rest) i R := by
  refine Runs.ite (fun _ => ?_) (fun _ => ?_)
  · refine Runs.bind hact ?_
    rintro u j hij hjk _
    exact hrest u j hij hjk
  · refine Runs.bind (Runs.pure (Q := Anyhow) hi trivial) ?_
    rintro u j hij hjk _
    exact hrest u j hij hjk

/-- The same shape, where the rest of the function is told whether the
action was run. -/
theorem runs_when_cases {β : Type} {cnd : Prop} [Decidable cnd] {act : P PUnit}
    {rest : PUnit → P β} {i : Nat} {Q : PUnit → Nat → Prop} {R : β → Nat → Prop} (hi : i ≤ k)
    (hact : cnd → Runs ts k act i Q)
    (hrest : ∀ u j, i ≤ j → j ≤ k → (cnd → Q u j) → (¬cnd → j = i) → Runs ts k (rest u) j R) :
    Runs ts k (if cnd then act >>= rest else Pure.pure PUnit.unit >>= rest) i R := by
  refine Runs.ite (fun hc => ?_) (fun hc => ?_)
  · refine Runs.bind (hact hc) ?_
    rintro u j hij hjk hq
    exact hrest u j hij hjk (fun _ => hq) (fun h => absurd hc h)
  · refine Runs.bind (Runs.pure (Q := fun _ j => j = i) hi rfl) ?_
    rintro u j hij hjk hj
    exact hrest u j hij hjk (fun h => absurd h hc) (fun _ => hj)

/-- The test `check(IDENTIFIER) || isLiteralToken()` reads the current token
only. -/
theorem runs_identOrLiteral (c : EofAt ts k) {i : Nat} (hi : i ≤ k) :
    Runs ts k (orElse (check .IDENTIFIER) isLiteralToken) i (fun _ j => j = i) := by
  unfold orElse
  refine Runs.bind (runs_check c hi _) ?_
  rintro _ j _ hjk ⟨rfl, _⟩
  refine Runs.ite (fun _ => Runs.pure hjk rfl) (fun _ => ?_)
  exact Runs.weaken (runs_isLiteralToken c hjk) (fun _ _ _ _ h => h.1)

theorem stmtRuns_zero : StmtRuns ts k 0 := by
  constructor <;> intros <;> omega

theorem runs_parseStatement (c : EofAt ts k) {n : Nat} (ih : StmtRuns ts k n) (i : Nat)
    (hpre : 1 ≤ i ∨ typeAt ts i ≠ .END_OF_FILE) (hi : i ≤ k)
    (hf : 16 * (k - i) + 12 ≤ n + 1) :
    Runs ts k (parseStatement (n + 1)) i (MovesUnlessEof ts i) := by
  have step : ∀ (ty : TokenType) (p q : P StmtPtr) (Q : StmtPtr → Nat → Prop),
      (i + 1 ≤ k → Runs ts k p (i + 1) Q) → Runs ts k q i (MovesUnlessEof ts i) →
      Runs ts k (do if (← matchTok ty) then p else q) i (MovesUnlessEof ts i) := by
    intro ty p q Q hp hq
    refine Runs.bind (runs_matched c hi ty) ?_
    rintro b j _ hjk ⟨hm1, hm2⟩
    refine Runs.ite (fun hb => ?_) (fun hb => ?_)
    · have hj := hm1 hb
      subst hj
      exact Runs.weaken (hp hjk) (fun _ l hl _ _ _ => by omega)
    · have hj := hm2 (by simpa using hb)
      subst hj
      exact hq
  simp only [parseStatement]
  refine step _ _ _ _
    (fun h => runs_parseReturnStmt c n _ (Or.inl (by omega)) h (by omega)) ?_
  refine step _ _ _ _ (fun h => ih.ifStmt _ (Or.inl (by omega)) h (by omega)) ?_
  refine step _ _ _ _ (fun h => ih.whileStmt _ (Or.inl (by omega)) h (by omega)) ?_
  refine step _ _ _ _ (fun h => ih.loopStmt _ (Or.inl (by omega)) h (by omega)) ?_
  refine step _ _ _ _ (fun h => ih.iterStmt _ (Or.inl (by omega)) h (by omega)) ?_
  refine Runs.bind (runs_isDtypeToken c hi) ?_
  rintro b j _ hjk ⟨rfl, _⟩
  refine Runs.ite (fun _ => ?_) (fun _ => ?_)
  · refine Runs.bind (runs_parseVarDeclStmt c n _ hjk hpre (by omega)) ?_
    rintro _ l _ hlk hmove
    exact Runs.pure hlk hmove
  · refine Runs.bind (runs_check c hjk .IDENTIFIER) ?_
    rintro b2 l _ hlk ⟨rfl, hb2⟩
    refine Runs.ite (fun hb => ?_) (fun _ => ?_)
    · have hI := hb2.1 hb
      exact runs_parseExprStmt c n _ (Or.inr ⟨by rw [hI.2]; decide, hI.1⟩) hlk (by omega)
    · refine Runs.bind (runs_peek c hlk) ?_
      rintro _ m _ hmk ⟨rfl, _⟩
      refine Runs.bind (runs_logError c hmk _) ?_
      rintro _ m _ hmk rfl
      refine Runs.bind (runs_advance c hmk hpre) ?_
      rintro _ m2 _ hm2k ⟨_, hadv, _⟩
      refine Runs.pure hm2k ?_
      intro hne
      have := hadv hne
      omega

theorem runs_parseBlockLoop (c : EofAt ts k) {n : Nat} (ih : StmtRuns ts k n) (i : Nat)
    (b : Block) (hpre : 1 ≤ i ∨ typeAt ts i ≠ .END_OF_FILE) (hi : i ≤ k)
    (hf : 16 * (k - i) + 13 ≤ n + 1) :
    Runs ts k (parseBlockLoop (n + 1) b) i
      (fun _ j => 1 ≤ j ∨ typeAt ts j ≠ .END_OF_FILE) := by
  simp only [parseBlockLoop]
  refine Runs.bind (runs_notClosed c hi) ?_
  rintro x j _ hjk ⟨rfl, hx⟩
  refine Runs.ite (fun hb => ?_) (fun _ => Runs.pure hjk hpre)
  refine Runs.bind (ih.statement _ hpre hjk (by omega)) ?_
  rintro _ l _ hlk hmove
  have := hmove (hx hb)
  exact ih.blockLoop _ _ (Or.inl (by omega)) hlk (by omega)

theorem runs_parseBlock (c : EofAt ts k) {n : Nat} (ih : StmtRuns ts k n) (i : Nat)
    (hpre : 1 ≤ i ∨ typeAt ts i ≠ .END_OF_FILE) (hi : i ≤ k)
    (hf : 16 * (k - i) + 14 ≤ n + 1) :
    Runs ts k (parseBlock (n + 1)) i (MovesUnlessEof ts i) := by
  simp only [parseBlock]
  refine Runs.bind (ih.blockLoop _ _ hpre hi (by omega)) ?_
  rintro _ j hij hjk hj
  refine Runs.bind (runs_consume c hjk hj _ _) ?_
  rintro _ l hjl hlk ⟨_, hadv⟩
  refine Runs.pure hlk ?_
  intro hne
  rcases Nat.eq_or_lt_of_le hij with h | h
  · subst h
    have := hadv hne
    omega
  · omega

theorem runs_parseWhileStmt (c : EofAt ts k) {n : Nat} (ih : StmtRuns ts k n) (i : Nat)
    (hpre : 1 ≤ i ∨ typeAt ts i ≠ .END_OF_FILE) (hi : i ≤ k)
    (hf : 16 * (k - i) + 15 ≤ n + 1) :
    Runs ts k (parseWhileStmt (n + 1)) i (MovesUnlessSemicolon ts i) := by
  simp only [parseWhileStmt]
  refine Runs.bind (Q := fun _ j => i < j ∨ j = i) ?_ ?_
  · refine Runs.bind (runs_check c hi _) ?_
    rintro x j _ hjk ⟨rfl, hx⟩
    refine Runs.ite (fun hb => ?_) (fun _ => Runs.pure hjk (Or.inr rfl))
    have hP := hx.1 hb
    refine Runs.weaken
      ((exprRuns c n).expression _ (Or.inr ⟨by rw [hP.2]; decide, hP.1⟩) hjk (by omega)) ?_
    intro _ l _ _ hmove
    exact Or.inl (hmove (by rw [hP.2]; decide) hP.1)
  · rintro _ j hij hjk hj
    have hstart : 1 ≤ j ∨ typeAt ts j ≠ .END_OF_FILE := by
      rcases hj with h | h
      · exact Or.inl (by omega)
      · rw [h]; exact hpre
    refine Runs.bind (runs_bodyOrSemicolon c hstart hjk _
      (fun h => ih.block _ (Or.inl (by omega)) h (by omega))) ?_
    rintro _ l hjl hlk hmove
    refine Runs.pure hlk ?_
    intro hsemi hne
    rcases hj with h | h
    · omega
    · subst h
      exact hmove hsemi hne

theorem runs_parseElseChain (c : EofAt ts k) {n : Nat} (ih : StmtRuns ts k n) (i : Nat)
    (a : Option (List (ExprPtr × Block))) (b : Option Block)
    (h1 : 1 ≤ i) (hi : i ≤ k) (hf : 16 * (k - i) + 1 ≤ n + 1) :
    Runs ts k (parseElseChain (n + 1) a b) i Anyhow := by
  simp only [parseElseChain]
  refine Runs.bind (runs_matched c hi .ELSE) ?_
  rintro x j _ hjk ⟨hm1, _⟩
  refine Runs.ite (fun hx => ?_) (fun _ => Runs.pure hjk trivial)
  have hj := hm1 hx
  subst hj
  refine Runs.bind (runs_check c hjk .LBRACE) ?_
  rintro _ j _ hjk ⟨rfl, _⟩
  refine Runs.ite (fun _ => ?_) (fun _ => ?_)
  · refine Runs.bind (ih.block _ (by omega) hjk (by omega)) ?_
    rintro _ l _ hlk _
    exact ih.elseChain _ _ _ (by omega) hlk (by omega)
  · refine Runs.bind (runs_check c hjk .LPAREN) ?_
    rintro _ j _ hjk ⟨rfl, _⟩
    refine Runs.ite (fun _ => ?_) (fun _ => ?_)
    · refine Runs.bind ((exprRuns c n).expression _ (by omega) hjk (by omega)) ?_
      rintro _ l _ hlk _
      refine Runs.bind (runs_matched c hlk .LBRACE) ?_
      rintro y m _ hmk ⟨hy1, hy2⟩
      refine Runs.ite (fun hy => ?_) (fun hy => ?_)
      · have hm := hy1 hy
        subst hm
        refine Runs.bind (ih.block _ (by omega) hmk (by omega)) ?_
        rintro _ p _ hpk _
        exact ih.elseChain _ _ _ (by omega) hpk (by omega)
      · have hm := hy2 (by simpa using hy)
        subst hm
        refine Runs.bind (runs_check c hmk .SEMICOLON) ?_
        rintro _ m _ hmk ⟨rfl, _⟩
        refine Runs.ite (fun _ => ?_) (fun _ => ?_)
        · refine Runs.bind (runs_consume c hmk (Or.inl (by omega)) _ _) ?_
          rintro _ p _ hpk _
          exact ih.elseChain _ _ _ (by omega) hpk (by omega)
        · exact ih.elseChain _ _ _ (by omega) hmk (by omega)
    · refine Runs.bind (runs_logError c hjk _) ?_
      rintro _ l _ hlk rfl
      exact ih.elseChain _ _ _ (by omega) hlk (by omega)

theorem runs_parseIfStmt (c : EofAt ts k) {n : Nat} (ih : StmtRuns ts k n) (i : Nat)
    (hpre : 1 ≤ i ∨ typeAt ts i ≠ .END_OF_FILE) (hi : i ≤ k)
    (hf : 16 * (k - i) + 15 ≤ n + 1) :
    Runs ts k (parseIfStmt (n + 1)) i (MovesUnlessSemicolon ts i) := by
  simp only [parseIfStmt]
  refine Runs.bind (Q := fun _ j => i < j ∨ j = i) ?_ ?_
  · refine Runs.bind (runs_matched c hi .RPAREN) ?_
    rintro x j _ hjk ⟨hm1, hm2⟩
    refine Runs.ite (fun hx => ?_) (fun hx => ?_)
    · have hj := hm1 hx
      subst hj
      exact Runs.weaken ((exprRuns c n).expression _ (Or.inl (by omega)) hjk (by omega))
        (fun _ l hl _ _ => Or.inl (by omega))
    · have hj := hm2 (by simpa using hx)
      subst hj
      refine Runs.bind (runs_logError c hjk _) ?_
      rintro _ l _ hlk rfl
      exact Runs.pure hlk (Or.inr rfl)
  · rintro cond j hij hjk hj
    have hstart : 1 ≤ j ∨ typeAt ts j ≠ .END_OF_FILE := by
      rcases hj with h | h
      · exact Or.inl (by omega)
      · rw [h]; exact hpre
    refine Runs.bind (Q := MovesUnlessSemicolon ts i) ?_ ?_
    · refine Runs.bind (runs_check c hjk .LBRACE) ?_
      rintro _ l _ hlk ⟨rfl, _⟩
      refine Runs.ite (fun _ => ?_) (fun _ => ?_)
      · refine Runs.weaken (ih.block _ hstart hlk (by omega)) ?_
        intro _ m hlm _ hmove _ hne
        rcases hj with h | h
        · omega
        · subst h
          exact hmove hne
      · refine Runs.bind (runs_check c hlk .SEMICOLON) ?_
        rintro y m _ hmk ⟨rfl, hy⟩
        refine runs_when_cases hmk (fun _ => runs_consume c hmk hstart _ _) ?_
        intro _ p hmp hpk hran hskip
        refine Runs.pure hpk ?_
        intro hsemi hne
        rcases hj with h | h
        · omega
        · subst h
          by_cases hy1 : (!y) = true
          · have := (hran hy1).2 hne
            omega
          · exact absurd (hy.1 (by simpa using hy1)).2 hsemi
    · rintro thenBlock l _ hlk hl
      refine Runs.bind (Q := fun x m => x = true → l + 1 ≤ m) ?_ ?_
      · unfold andThen
        refine Runs.bind (runs_matched c hlk .ELSE) ?_
        rintro x m _ hmk ⟨hm1, _⟩
        refine Runs.ite (fun hx => ?_) (fun _ => Runs.pure hmk (fun h => by simp at h))
        have hm := hm1 hx
        subst hm
        exact Runs.weaken (runs_check c hmk _) (fun _ _ _ _ h _ => by omega)
      · rintro x m hlm hmk hx
        refine Runs.ite (fun hb => ?_) (fun _ => ?_)
        · have := hx hb
          refine Runs.bind (ih.elseChain _ _ _ (by omega) hmk (by omega)) ?_
          rintro _ p hmp hpk _
          refine Runs.pure hpk ?_
          intro hsemi hne
          have := hl hsemi hne
          omega
        · refine Runs.pure hmk ?_
          intro hsemi hne
          have := hl hsemi hne
          omega

/-- The body of a `loop` or `iter` statement. -/
theorem runs_loopBody (c : EofAt ts k) {n : Nat} (ih : StmtRuns ts k n) (j : Nat)
    (f : Block → StmtPtr) (msg : String) (hstart : 1 ≤ j ∨ typeAt ts j ≠ .END_OF_FILE)
    (hjk : j ≤ k) (hf : 16 * (k - j) + 15 ≤ n + 1) :
    Runs ts k (do
      let body ← bodyOrSemicolon (parseBlock n) msg
      Pure.pure (f body)) j (MovesUnlessSemicolon ts j) := by
  refine Runs.bind (runs_bodyOrSemicolon c hstart hjk _
    (fun h => ih.block _ (Or.inl (by omega)) h (by omega))) ?_
  rintro _ l _ hlk hmove
  exact Runs.pure hlk hmove

theorem runs_parseLoopStmt (c : EofAt ts k) {n : Nat} (ih : StmtRuns ts k n) (i : Nat)
    (hpre : 1 ≤ i ∨ typeAt ts i ≠ .END_OF_FILE) (hi : i ≤ k)
    (hf : 16 * (k - i) + 15 ≤ n + 1) :
    Runs ts k (parseLoopStmt (n + 1)) i (MovesUnlessSemicolon ts i) := by
  have expr : ∀ (j : Nat), i + 1 ≤ j → j ≤ k → Runs ts k (parseExpression n) j Anyhow :=
    fun j hij hjk => Runs.weaken
      ((exprRuns c n).expression _ (Or.inl (by omega)) hjk (by omega))
      (fun _ _ _ _ _ => trivial)
  simp only [parseLoopStmt]
  refine Runs.bind (runs_matched c hi .LPAREN) ?_
  rintro x j hij hjk ⟨hm1, hm2⟩
  refine Runs.ite (fun hx => ?_) (fun hx => ?_)
  · have hj := hm2 (by simpa using hx)
    subst hj
    refine Runs.bind (runs_logError c hjk _) ?_
    rintro _ l _ hlk rfl
    exact runs_loopBody c ih _ _ _ hpre hlk hf
  · have hj := hm1 (by simpa using hx)
    subst hj
    refine Runs.weaken (Q := Anyhow) ?_ (fun _ l hl _ _ _ _ => by omega)
    refine Runs.bind (Q := fun _ l => l = i + 1) ?_ ?_
    · refine Runs.bind (runs_isDtypeToken c hjk) ?_
      rintro _ l _ hlk ⟨rfl, _⟩
      refine Runs.ite (fun _ => ?_) (fun _ => Runs.pure hlk rfl)
      refine Runs.bind (runs_peek c hlk) ?_
      rintro _ m _ hmk ⟨rfl, _⟩
      exact Runs.pure hmk rfl
    · rintro dtype l _ hlk rfl
      refine Runs.bind (Q := Anyhow) ?_ ?_
      · refine Runs.bind (runs_check c hlk _) ?_
        rintro _ m _ hmk ⟨rfl, _⟩
        refine Runs.ite (fun _ => ?_) (fun _ => Runs.pure hmk trivial)
        refine Runs.bind (expr _ (Nat.le_refl _) hmk) ?_
        rintro _ p _ hpk _
        exact Runs.pure hpk trivial
      · rintro init m hlm hmk _
        dsimp only
        refine runs_when hmk (runs_logError c hmk _) ?_
        rintro _ p hmp hpk
        refine Runs.bind (runs_consume c hpk (Or.inl (by omega)) _ _) ?_
        rintro _ q hpq hqk _
        refine Runs.bind (Q := Anyhow) ?_ ?_
        · refine Runs.bind (runs_identOrLiteral c hqk) ?_
          rintro _ r _ hrk rfl
          refine Runs.ite (fun _ => expr _ (by omega) hrk) (fun _ => Runs.pure hrk trivial)
        · rintro _ r hqr hrk _
          refine Runs.bind (runs_consume c hrk (Or.inl (by omega)) _ _) ?_
          rintro _ s hrs hsk _
          refine Runs.bind (Q := Anyhow) ?_ ?_
          · refine Runs.bind (runs_identOrLiteral c hsk) ?_
            rintro _ t _ htk rfl
            refine Runs.ite (fun _ => ?_) (fun _ => Runs.pure htk trivial)
            refine Runs.bind (expr _ (by omega) htk) ?_
            rintro _ u _ huk _
            exact Runs.pure huk trivial
          · rintro _ t hst htk _
            refine Runs.bind (runs_consume c htk (Or.inl (by omega)) _ _) ?_
            rintro _ u htu huk _
            exact Runs.weaken (runs_loopBody c ih _ _ _ (Or.inl (by omega)) huk (by omega))
              (fun _ _ _ _ _ => trivial)

theorem runs_parseIterStmt (c : EofAt ts k) {n : Nat} (ih : StmtRuns ts k n) (i : Nat)
    (hpre : 1 ≤ i ∨ typeAt ts i ≠ .END_OF_FILE) (hi : i ≤ k)
    (hf : 16 * (k - i) + 15 ≤ n + 1) :
    Runs ts k (parseIterStmt (n + 1)) i (MovesUnlessSemicolon ts i) := by
  simp only [parseIterStmt]
  refine Runs.bind (runs_matched c hi .LPAREN) ?_
  rintro x j hij hjk ⟨hm1, hm2⟩
  refine Runs.ite (fun hx => ?_) (fun hx => ?_)
  · have hj := hm2 (by simpa using hx)
    subst hj
    refine Runs.bind (runs_logError c hjk _) ?_
    rintro _ l _ hlk rfl
    exact runs_loopBody c ih _ _ _ hpre hlk hf
  · have hj := hm1 (by simpa using hx)
    subst hj
    refine Runs.weaken (Q := Anyhow) ?_ (fun _ l hl _ _ _ _ => by omega)
    refine Runs.bind (Q := Anyhow) ?_ ?_
    · refine Runs.bind (runs_check c hjk _) ?_
      rintro _ m _ hmk ⟨rfl, _⟩
      refine Runs.ite (fun _ => ?_) (fun _ => Runs.pure hmk trivial)
      exact Runs.weaken ((exprRuns c n).expression _ (Or.inl (by omega)) hmk (by omega))
        (fun _ _ _ _ _ => trivial)
    · rintro iterable m hjm hmk _
      dsimp only
      refine runs_when hmk (runs_logError c hmk _) ?_
      rintro _ p hmp hpk
      refine Runs.bind (runs_consume c hpk (Or.inl (by omega)) _ _) ?_
      rintro _ q hpq hqk _
      refine Runs.bind (Q := fun _ r => r = q) ?_ ?_
      · unfold andThen
        refine Runs.bind (Q := fun _ r => r = q) ?_ ?_
        · refine Runs.bind (runs_isDtypeToken c hqk) ?_
          rintro _ r _ hrk ⟨rfl, _⟩
          refine Runs.ite (fun _ => ?_) (fun _ => Runs.pure hrk rfl)
          exact Runs.weaken (runs_check c hrk _) (fun _ _ _ _ h => h.1)
        · rintro _ r _ hrk rfl
          refine Runs.ite (fun _ => ?_) (fun _ => Runs.pure hrk rfl)
          refine Runs.bind (runs_peek c hrk) ?_
          rintro _ s _ hsk ⟨rfl, _⟩
          exact Runs.pure hsk rfl
      · rintro _ r _ hrk rfl
        refine Runs.bind (runs_consume c hrk (Or.inl (by omega)) _ _) ?_
        rintro _ s hrs hsk _
        exact Runs.weaken (runs_loopBody c ih _ _ _ (Or.inl (by omega)) hsk (by omega))
          (fun _ _ _ _ _ => trivial)

/-- Every statement production returns normally when its budget covers the
tokens that are left. -/
theorem stmtRuns (c : EofAt ts k) : ∀ fuel, StmtRuns ts k fuel := by
  intro fuel
  induction fuel with
  | zero => exact stmtRuns_zero
  | succ n ih =>
    exact
      { statement := fun i h1 hi hf => runs_parseStatement c ih i h1 hi hf
        ifStmt := fun i h1 hi hf => runs_parseIfStmt c ih i h1 hi hf
        elseChain := fun i a b h1 hi hf => runs_parseElseChain c ih i a b h1 hi hf
        whileStmt := fun i h1 hi hf => runs_parseWhileStmt c ih i h1 hi hf
        loopStmt := fun i h1 hi hf => runs_parseLoopStmt c ih i h1 hi hf
        iterStmt := fun i h1 hi hf => runs_parseIterStmt c ih i h1 hi hf
        block := fun i h1 hi hf => runs_parseBlock c ih i h1 hi hf
        blockLoop := fun i b h1 hi hf => runs_parseBlockLoop c ih i b h1 hi hf }

end Statements

section Declarations

variable {ts : List Token} {k : Nat}

theorem runs_parseHeader (c : EofAt ts k) (i : Nat)
    (hpre : 1 ≤ i ∨ typeAt ts i ≠ .END_OF_FILE) (hi : i ≤ k) :
    Runs ts k parseHeader i
      (fun h j => h.isSome = true ∧ (typeAt ts i ≠ .END_OF_FILE → i < j)) := by
  unfold parseHeader
  refine Runs.bind (runs_consume c hi hpre _ _) ?_
  rintro _ j hij hjk ⟨h1j, hadv⟩
  refine Runs.bind (Q := fun _ l => l = j) ?_ ?_
  · refine Runs.bind (runs_check c hjk _) ?_
    rintro _ l _ hlk ⟨rfl, _⟩
    refine Runs.ite (fun _ => ?_) (fun _ => Runs.pure hlk rfl)
    refine Runs.bind (runs_peek c hlk) ?_
    rintro _ m _ hmk ⟨rfl, _⟩
    exact Runs.pure hmk rfl
  · rintro _ l _ hlk rfl
    refine Runs.bind (runs_advance c hlk (Or.inl h1j)) ?_
    rintro _ m hlm hmk _
    refine Runs.bind (runs_consume c hmk (Or.inl (by omega)) _ _) ?_
    rintro _ p hmp hpk _
    refine Runs.bind (runs_consume c hpk (Or.inl (by omega)) _ _) ?_
    rintro _ q hpq hqk _
    refine Runs.pure hqk ⟨rfl, ?_⟩
    intro hne
    have := hadv hne
    omega

/-- The test `!match(RPAREN) || match(COMMA)` of the parameter loop never
moves the cursor back, and it fails only past a `)`. -/
theorem runs_moreParams (c : EofAt ts k) {i : Nat} (hi : i ≤ k) :
    Runs ts k (orElse (notP (matchTok .RPAREN)) (matchTok .COMMA)) i
      (fun b j => b = false → i < j) := by
  unfold orElse notP
  refine Runs.bind (Q := fun b j => b = false → i < j) ?_ ?_
  · refine Runs.bind (runs_matched c hi _) ?_
    rintro x j _ hjk ⟨hm1, _⟩
    refine Runs.pure hjk ?_
    intro hx
    have := hm1 (by simpa using hx)
    omega
  · rintro b j hij hjk hb
    refine Runs.ite (fun _ => Runs.pure hjk (fun h => by simp at h)) (fun hn => ?_)
    have := hb (by simpa using hn)
    exact Runs.weaken (runs_matched c hjk _) (fun _ l _ _ _ _ => by omega)

/-- The test `!check(RPAREN) && !check(COMMA) || isAtEnd()` of the parameter
loop reads the current token only, and it holds on `END_OF_FILE`. -/
theorem runs_paramsBroken (c : EofAt ts k) {i : Nat} (hi : i ≤ k) :
    Runs ts k (orElse (andThen (notP (check .RPAREN)) (notP (check .COMMA))) isAtEnd) i
      (fun b j => j = i ∧ (b = false → typeAt ts i ≠ .END_OF_FILE)) := by
  unfold orElse andThen notP
  refine Runs.bind (Q := fun _ j => j = i) ?_ ?_
  · refine Runs.bind (Q := fun _ j => j = i) ?_ ?_
    · refine Runs.bind (runs_check c hi _) ?_
      rintro _ j _ hjk ⟨rfl, _⟩
      exact Runs.pure hjk rfl
    · rintro _ j _ hjk rfl
      refine Runs.ite (fun _ => ?_) (fun _ => Runs.pure hjk rfl)
      refine Runs.bind (runs_check c hjk _) ?_
      rintro _ l _ hlk ⟨rfl, _⟩
      exact Runs.pure hlk rfl
  · rintro _ j _ hjk rfl
    refine Runs.ite (fun _ => Runs.pure hjk ⟨rfl, fun h => by simp at h⟩) (fun _ => ?_)
    refine Runs.weaken (runs_isAtEnd c hjk) ?_
    rintro b l _ _ ⟨rfl, hb⟩
    refine ⟨rfl, ?_⟩
    intro hfalse hE
    have := hb.2 hE
    rw [hfalse] at this
    simp at this

theorem runs_parseArgListLoop (c : EofAt ts k) :
    ∀ (fuel i : Nat) (params : List (String × String)),
      1 ≤ i ∨ typeAt ts i ≠ .END_OF_FILE → i ≤ k → 16 * (k - i) + 1 ≤ fuel →
      Runs ts k (parseArgListLoop fuel params) i (MovesUnlessEof ts i) := by
  intro fuel
  induction fuel with
  | zero => intros; omega
  | succ n ih =>
    intro i params hpre hi hf
    simp only [parseArgListLoop]
    refine Runs.bind (runs_moreParams c hi) ?_
    rintro b j hij hjk hb
    refine Runs.ite (fun _ => ?_) (fun hn => Runs.pure hjk (fun _ => hb (by simpa using hn)))
    have hstart : 1 ≤ j ∨ typeAt ts j ≠ .END_OF_FILE := by
      rcases Nat.eq_or_lt_of_le hij with h | h
      · rw [← h]; exact hpre
      · exact Or.inl (by omega)
    refine Runs.bind (Q := fun _ l => l = j) ?_ ?_
    · refine Runs.bind (runs_isDtypeToken c hjk) ?_
      rintro _ l _ hlk ⟨rfl, _⟩
      refine Runs.ite (fun _ => ?_) (fun _ => ?_)
      · refine Runs.bind (runs_logError c hlk _) ?_
        rintro _ m _ hmk rfl
        exact Runs.pure hmk rfl
      · refine Runs.bind (runs_peek c hlk) ?_
        rintro _ m _ hmk ⟨rfl, _⟩
        exact Runs.pure hmk rfl
    · rintro ptype l _ hlk rfl
      refine Runs.bind (runs_advance c hlk hstart) ?_
      rintro _ m hlm hmk ⟨h1m, hadv, hstay⟩
      have hprog : typeAt ts i ≠ .END_OF_FILE → i < m := by
        intro hne
        rcases Nat.eq_or_lt_of_le hij with h | h
        · have := hadv (by rw [← h]; exact hne)
          omega
        · omega
      refine Runs.bind (Q := fun _ p => typeAt ts l = .END_OF_FILE → p = l) ?_ ?_
      · refine Runs.bind (runs_matchTok c hmk .IDENTIFIER) ?_
        rintro x p hmp hpk ⟨hx1, hx2⟩
        refine Runs.ite (fun hx => ?_) (fun hx => ?_)
        · refine Runs.bind (runs_peek c hpk) ?_
          rintro _ q _ hqk ⟨rfl, _⟩
          refine Runs.pure hqk ?_
          intro hE
          have hm := hstay hE
          subst hm
          have := (hx1 hx).2
          rw [hE] at this
          exact absurd this (by decide)
        · refine Runs.bind (runs_logError c hpk _) ?_
          rintro _ q _ hqk rfl
          refine Runs.pure hqk ?_
          intro hE
          have := (hx2 (by simpa using hx)).1
          have := hstay hE
          omega
      · rintro pname p hmp hpk hp
        dsimp only
        refine Runs.bind (runs_paramsBroken c hpk) ?_
        rintro y q _ hqk ⟨rfl, hy⟩
        refine Runs.ite (fun _ => ?_) (fun hbr => ?_)
        · refine Runs.bind (runs_logError c hqk _) ?_
          rintro _ r _ hrk rfl
          refine Runs.pure hrk ?_
          intro hne
          have := hprog hne
          omega
        · have hne : typeAt ts l ≠ .END_OF_FILE := by
            intro hE
            have hpl := hp hE
            subst hpl
            exact hy (by simpa using hbr) hE
          have := hadv hne
          refine Runs.weaken (ih q _ (Or.inl (by omega)) hqk (by omega)) ?_
          intro _ r hqr _ _ _
          omega

/-- The function name and the parameter list: the cursor is past the first
token afterwards, and it has moved unless it started on `END_OF_FILE`. -/
theorem runs_parseFuncHead (c : EofAt ts k) (fuel i : Nat)
    (hpre : 1 ≤ i ∨ typeAt ts i ≠ .END_OF_FILE) (hi : i ≤ k)
    (hf : 16 * (k - i) + 1 ≤ fuel) :
    Runs ts k (parseFuncHead fuel) i
      (fun _ j => 1 ≤ j ∧ (typeAt ts i ≠ .END_OF_FILE → i < j)) := by
  unfold parseFuncHead
  refine Runs.bind (Q := fun _ l => l = i) ?_ ?_
  · refine Runs.bind (runs_check c hi _) ?_
    rintro _ l _ hlk ⟨rfl, _⟩
    refine Runs.ite (fun _ => ?_) (fun _ => ?_)
    · refine Runs.bind (runs_peek c hlk) ?_
      rintro _ m _ hmk ⟨rfl, _⟩
      exact Runs.pure hmk rfl
    · refine Runs.bind (runs_logError c hlk _) ?_
      rintro _ m _ hmk rfl
      exact Runs.pure hmk rfl
  · rintro fname l _ hlk rfl
    refine Runs.bind (runs_advance c hlk hpre) ?_
    rintro _ m hlm hmk ⟨h1m, hadv, _⟩
    refine Runs.bind (Q := Anyhow) ?_ ?_
    · refine Runs.bind (runs_matched c hmk .LPAREN) ?_
      rintro x p hmp hpk _
      refine Runs.ite (fun _ => ?_) (fun _ => ?_)
      · exact Runs.weaken (runs_parseArgListLoop c fuel p [] (Or.inl (by omega)) hpk (by omega))
          (fun _ _ _ _ _ => trivial)
      · refine Runs.bind (runs_consume c hpk (Or.inl (by omega)) _ _) ?_
        rintro _ q _ hqk _
        exact Runs.pure hqk trivial
    · rintro _ p hmp hpk _
      refine Runs.pure hpk ⟨by omega, ?_⟩
      intro hne
      have := hadv hne
      omega

theorem runs_parseFuncDecl (c : EofAt ts k) (fuel i : Nat)
    (hpre : 1 ≤ i ∨ typeAt ts i ≠ .END_OF_FILE) (hi : i ≤ k)
    (hf : 16 * (k - i) + 1 ≤ fuel) :
    Runs ts k (parseFuncDecl fuel) i (MovesUnlessEof ts i) := by
  unfold parseFuncDecl
  refine Runs.bind (runs_parseFuncHead c fuel i hpre hi hf) ?_
  rintro _ j hij hjk ⟨h1j, hmove⟩
  refine Runs.bind (runs_consume c hjk (Or.inl h1j) _ _) ?_
  rintro _ l hjl hlk _
  refine Runs.pure hlk ?_
  intro hne
  have := hmove hne
  omega

theorem runs_parseFuncDef (c : EofAt ts k) (fuel i : Nat)
    (hpre : 1 ≤ i ∨ typeAt ts i ≠ .END_OF_FILE) (hi : i ≤ k)
    (hf : 16 * (k - i) + 14 ≤ fuel) :
    Runs ts k (parseFuncDef fuel) i (MovesUnlessEof ts i) := by
  unfold parseFuncDef
  refine Runs.bind (runs_parseFuncHead c fuel i hpre hi (by omega)) ?_
  rintro _ j hij hjk ⟨h1j, hmove⟩
  refine Runs.bind (Q := Anyhow) ?_ ?_
  · refine Runs.bind (runs_matched c hjk .LBRACE) ?_
    rintro x l hjl hlk _
    refine Runs.ite (fun _ => ?_) (fun _ => ?_)
    · exact Runs.weaken ((stmtRuns c fuel).block _ (Or.inl (by omega)) hlk (by omega))
        (fun _ _ _ _ _ => trivial)
    · refine Runs.bind (runs_consume c hlk (Or.inl (by omega)) _ _) ?_
      rintro _ m _ hmk _
      exact Runs.pure hmk trivial
  · rintro _ l hjl hlk _
    refine Runs.pure hlk ?_
    intro hne
    have := hmove hne
    omega

theorem isDtype_ne_eof {t : TokenType} (h : isDtype t = true) : t ≠ .END_OF_FILE := by
  intro hE
  rw [hE] at h
  simp [isDtype] at h

/-- The test `match(AT) && check(FUNC)` consumes the `@` also when it
fails on the token after it. -/
theorem runs_atFunc (c : EofAt ts k) {i : Nat} (hi : i ≤ k) :
    Runs ts k (andThen (matchTok .AT) (check .FUNC)) i
      (fun b j => (b = true → j = i + 1) ∧ (j = i ∨ j = i + 1)) := by
  unfold andThen
  refine Runs.bind (runs_matched c hi .AT) ?_
  rintro x j _ hjk ⟨hx1, hx2⟩
  refine Runs.ite (fun hx => ?_) (fun hx => ?_)
  · have hj := hx1 hx
    subst hj
    exact Runs.weaken (runs_check c hjk _)
      (fun _ _ _ _ h => ⟨fun _ => h.1, Or.inr h.1⟩)
  · have hj := hx2 (by simpa using hx)
    subst hj
    exact Runs.pure hjk ⟨fun h => by simp at h, Or.inl rfl⟩

/-- The loop of `Parser::parseBlockDecl` returns normally, and it stops on
`\x7d` or on `END_OF_FILE`. -/
theorem runs_parseBlockDeclLoop_exit (c : EofAt ts k) :
    ∀ (fuel i : Nat) (fields : List VarDecl) (methods : List FuncDecl), 1 ≤ i → i ≤ k →
      16 * (k - i) + 12 ≤ fuel →
      Runs ts k (parseBlockDeclLoop fuel fields methods) i
        (fun _ j => typeAt ts j = .RBRACE ∨ typeAt ts j = .END_OF_FILE) := by
  intro fuel
  induction fuel with
  | zero => intros; omega
  | succ n ih =>
    intro i fields methods h1 hi hf
    simp only [parseBlockDeclLoop]
    refine Runs.bind (runs_notClosed_exit c hi) ?_
    rintro x j _ hjk ⟨rfl, hx, hx0⟩
    refine Runs.ite (fun hb => ?_) (fun hb => Runs.pure hjk (hx0 (by simpa using hb)))
    have hne := hx hb
    refine Runs.bind (runs_isDtypeToken c hjk) ?_
    rintro _ l _ hlk ⟨rfl, _⟩
    refine Runs.ite (fun _ => ?_) (fun _ => ?_)
    · refine Runs.bind (runs_parseVarDeclStmt c n _ hlk (Or.inl h1) (by omega)) ?_
      rintro _ m _ hmk hmove
      have := hmove hne
      exact ih m _ _ (by omega) hmk (by omega)
    · refine Runs.bind (runs_atFunc c hlk) ?_
      rintro y m hlm hmk ⟨hy1, hy2⟩
      refine Runs.ite (fun hy => ?_) (fun _ => ?_)
      · have hm := hy1 hy
        subst hm
        refine Runs.bind (runs_advance c hmk (Or.inl (by omega))) ?_
        rintro _ p hmp hpk _
        refine Runs.bind (runs_parseFuncDecl c n p (by omega) hpk (by omega)) ?_
        rintro _ q hpq hqk _
        exact ih q _ _ (by omega) hqk (by omega)
      · refine Runs.bind (runs_matched c hmk .FUNC) ?_
        rintro z p hmp hpk ⟨hz1, hz2⟩
        refine Runs.ite (fun hz => ?_) (fun hz => ?_)
        · have hp := hz1 hz
          subst hp
          refine Runs.bind (runs_parseFuncDef c n _ (by omega) hpk (by omega)) ?_
          rintro _ q hpq hqk _
          exact ih q _ _ (by omega) hqk (by omega)
        · have hp := hz2 (by simpa using hz)
          subst hp
          refine Runs.bind (runs_peek c hpk) ?_
          rintro _ q _ hqk ⟨rfl, _⟩
          refine Runs.bind (runs_logError c hqk _) ?_
          rintro _ q _ hqk rfl
          refine Runs.bind (runs_advance c hqk (Or.inl (by omega))) ?_
          rintro _ r hqr hrk ⟨_, hadv, _⟩
          have hprog : l < r := by
            rcases hy2 with h | h
            · subst h
              have := hadv hne
              omega
            · omega
          exact ih r _ _ (by omega) hrk (by omega)

theorem runs_parseBlockDeclLoop (c : EofAt ts k) :
    ∀ (fuel i : Nat) (fields : List VarDecl) (methods : List FuncDecl), 1 ≤ i → i ≤ k →
      16 * (k - i) + 12 ≤ fuel →
      Runs ts k (parseBlockDeclLoop fuel fields methods) i Anyhow :=
  fun fuel i fields methods h1 hi hf =>
    Runs.weaken (runs_parseBlockDeclLoop_exit c fuel i fields methods h1 hi hf)
      (fun _ _ _ _ _ => trivial)

theorem runs_parseBlockDecl (c : EofAt ts k) (fuel i : Nat)
    (hpre : 1 ≤ i ∨ typeAt ts i ≠ .END_OF_FILE) (hi : i ≤ k)
    (hf : 16 * (k - i) + 12 ≤ fuel) :
    Runs ts k (parseBlockDecl fuel) i (MovesUnlessEof ts i) := by
  unfold parseBlockDecl
  refine Runs.bind (Q := fun _ l => l = i) ?_ ?_
  · refine Runs.bind (runs_check c hi _) ?_
    rintro _ l _ hlk ⟨rfl, _⟩
    refine Runs.ite (fun _ => ?_) (fun _ => ?_)
    · refine Runs.bind (runs_peek c hlk) ?_
      rintro _ m _ hmk ⟨rfl, _⟩
      exact Runs.pure hmk rfl
    · refine Runs.bind (runs_logError c hlk _) ?_
      rintro _ m _ hmk rfl
      exact Runs.pure hmk rfl
  · rintro name l _ hlk rfl
    refine Runs.bind (runs_advance c hlk hpre) ?_
    rintro _ m hlm hmk ⟨h1m, hadv, _⟩
    refine Runs.weaken (Q := Anyhow) ?_
      (fun _ p hmp _ _ hne => by have := hadv hne; omega)
    refine Runs.bind (Q := fun _ p => p = m) ?_ ?_
    · unfold andThen notP
      refine Runs.bind (Q := fun _ p => p = m) ?_ ?_
      · refine Runs.bind (runs_check c hmk _) ?_
        rintro _ p _ hpk ⟨rfl, _⟩
        exact Runs.pure hpk rfl
      · rintro _ p _ hpk rfl
        refine Runs.ite (fun _ => ?_) (fun _ => Runs.pure hpk rfl)
        refine Runs.bind (runs_check c hpk _) ?_
        rintro _ q _ hqk ⟨rfl, _⟩
        exact Runs.pure hqk rfl
    · rintro x p _ hpk rfl
      dsimp only
      refine runs_when hpk (runs_consume c hpk (Or.inl h1m) _ _) ?_
      rintro _ q hpq hqk
      refine Runs.bind (runs_matched c hqk .LBRACE) ?_
      rintro y r hqr hrk _
      refine Runs.ite (fun _ => ?_) (fun _ => Runs.pure hrk trivial)
      refine Runs.bind (runs_parseBlockDeclLoop c fuel r [] [] (by omega) hrk (by omega)) ?_
      rintro _ s hrs hsk _
      refine Runs.bind (runs_consume c hsk (Or.inl (by omega)) _ _) ?_
      rintro _ t _ htk _
      exact Runs.pure htk trivial

/-- The fall-through part of `parseTopLevelDecl` returns normally, and past
its first token unless that is `END_OF_FILE`, when the three calls it makes
do. -/
theorem runs_topLevelFallThrough (c : EofAt ts k) {j : Nat} (hj : j ≤ k)
    (hpre : 1 ≤ j ∨ typeAt ts j ≠ .END_OF_FILE)
    {parseDef : P (Option FuncDecl)} {parseVar : P (Option VarDecl)} {again : P DeclPtr}
    (hdef : j + 1 ≤ k → Runs ts k parseDef (j + 1) Anyhow)
    (hvar : typeAt ts j ≠ .END_OF_FILE → Runs ts k parseVar j (MovesUnlessEof ts j))
    (hagain : ∀ l, 1 ≤ l → j ≤ l → l ≤ k → (typeAt ts j ≠ .END_OF_FILE → j < l) →
      Runs ts k again l Anyhow) :
    Runs ts k (topLevelFallThrough parseDef parseVar again) j (MovesUnlessEof ts j) := by
  unfold topLevelFallThrough
  refine Runs.bind (runs_matched c hj .FUNC) ?_
  rintro x l _ hlk ⟨hx1, hx2⟩
  refine Runs.ite (fun hx => ?_) (fun hx => ?_)
  · have hl := hx1 hx
    subst hl
    refine Runs.bind (hdef hlk) ?_
    rintro _ m _ hmk _
    exact Runs.pure hmk (fun _ => by omega)
  · have hl := hx2 (by simpa using hx)
    subst hl
    refine Runs.bind
      (Q := fun h m => (h.isSome = true → l < m) ∧ (h.isSome = false → m = l)) ?_ ?_
    · refine Runs.bind (runs_matched c hlk .HEADER) ?_
      rintro y m _ hmk ⟨hy1, hy2⟩
      refine Runs.ite (fun hy => ?_) (fun hy => ?_)
      · have hm := hy1 hy
        subst hm
        refine Runs.weaken (runs_parseHeader c _ (Or.inl (by omega)) hmk) ?_
        intro h p hp _ hsome
        exact ⟨fun _ => by omega, fun hn => by rw [hsome.1] at hn; simp at hn⟩
      · have hm := hy2 (by simpa using hy)
        subst hm
        exact Runs.pure hmk ⟨fun h => by simp at h, fun _ => rfl⟩
    · rintro h m _ hmk ⟨hh1, hh2⟩
      refine Runs.ite (fun hs => ?_) (fun hs => ?_)
      · exact Runs.pure hmk (fun _ => hh1 hs)
      · have hm := hh2 (by simpa using hs)
        subst hm
        refine Runs.bind (runs_isDtypeToken c hmk) ?_
        rintro b p _ hpk ⟨rfl, hb⟩
        refine Runs.ite (fun hb1 => ?_) (fun _ => ?_)
        · have hne : typeAt ts p ≠ .END_OF_FILE := isDtype_ne_eof (by rw [← hb]; exact hb1)
          refine Runs.bind (hvar hne) ?_
          rintro _ q _ hqk hmove
          exact Runs.pure hqk hmove
        · refine Runs.bind (Q := fun _ q => q = p) ?_ ?_
          · unfold andThen notP
            refine Runs.bind (Q := fun _ q => q = p) ?_ ?_
            · refine Runs.bind (runs_isAtEnd c hpk) ?_
              rintro _ q _ hqk ⟨rfl, _⟩
              exact Runs.pure hqk rfl
            · rintro _ q _ hqk rfl
              refine Runs.ite (fun _ => ?_) (fun _ => Runs.pure hqk rfl)
              refine Runs.bind (runs_peek c hqk) ?_
              rintro _ r _ hrk ⟨rfl, _⟩
              exact Runs.pure hrk rfl
          · rintro z q _ hqk rfl
            have tail : ∀ u : Unit, Runs ts k (do let _ ← advance; again) q
                (MovesUnlessEof ts q) := by
              intro _
              refine Runs.bind (runs_advance c hqk hpre) ?_
              rintro _ r hqr hrk ⟨hr1, hadv, _⟩
              refine Runs.weaken (hagain r hr1 hqr hrk (fun hne => by have := hadv hne; omega)) ?_
              intro _ s hrs _ _ hne
              have := hadv hne
              omega
            dsimp only
            refine Runs.ite (fun _ => ?_) (fun _ => ?_)
            · refine Runs.bind (runs_peek c hqk) ?_
              rintro _ r _ hrk ⟨rfl, _⟩
              refine Runs.bind (runs_logError c hrk _) ?_
              rintro _ r _ _ rfl
              exact tail ()
            · refine Runs.bind (Runs.pure (Q := fun _ r => r = q) hqk rfl) ?_
              rintro _ r _ _ rfl
              exact tail ()

theorem runs_parseTopLevelDecl (c : EofAt ts k) :
    ∀ (fuel i : Nat), i ≤ k → (1 ≤ i ∨ typeAt ts i ≠ .END_OF_FILE) →
      16 * (k - i) + 12 ≤ fuel →
      Runs ts k (parseTopLevelDecl fuel) i (MovesUnlessEof ts i) := by
  intro fuel
  induction fuel with
  | zero => intros; omega
  | succ n ih =>
    intro i hi hpre hf
    simp only [parseTopLevelDecl]
    refine Runs.bind (runs_isAtEnd c hi) ?_
    rintro b j _ hjk ⟨rfl, hb⟩
    refine Runs.ite (fun hb1 => ?_) (fun hb1 => ?_)
    · exact Runs.pure hjk (fun hne => absurd (hb.1 hb1) hne)
    · have hne : typeAt ts j ≠ .END_OF_FILE := fun hE => hb1 (hb.2 hE)
      have hlt := lt_of_not_eof c hjk hne
      refine Runs.bind (runs_matched c hjk .BLOCK) ?_
      rintro x l _ hlk ⟨hx1, hx2⟩
      refine Runs.ite (fun hx => ?_) (fun hx => ?_)
      · have hl := hx1 hx
        subst hl
        exact Runs.weaken (runs_parseBlockDecl c n _ (by omega) hlk (by omega))
          (fun _ m _ _ _ _ => by omega)
      · have hl := hx2 (by simpa using hx)
        subst hl
        refine Runs.bind (runs_matched c hlk .AT) ?_
        rintro y m _ hmk ⟨hy1, hy2⟩
        refine Runs.ite (fun hy => ?_) (fun hy => ?_)
        · have hm := hy1 hy
          subst hm
          refine Runs.bind (runs_matched c hmk .FUNC) ?_
          rintro z p _ hpk ⟨hz1, hz2⟩
          refine Runs.ite (fun hz => ?_) (fun hz => ?_)
          · have hp := hz1 hz
            subst hp
            refine Runs.bind (runs_parseFuncDecl c n _ (by omega) hpk (by omega)) ?_
            rintro _ q _ hqk _
            exact Runs.pure hqk (fun _ => by omega)
          · have hp := hz2 (by simpa using hz)
            subst hp
            refine Runs.bind (runs_logError c hpk _) ?_
            rintro _ q _ hqk rfl
            refine Runs.weaken (runs_topLevelFallThrough c hqk (Or.inl (by omega))
              (fun h => Runs.weaken (runs_parseFuncDef c n _ (Or.inl (by omega)) h (by omega))
                (fun _ _ _ _ _ => trivial))
              (fun _ => runs_parseVarDeclStmt c n _ hqk (Or.inl (by omega)) (by omega))
              (fun r hr1 hqr hrk _ => Runs.weaken (ih r hrk (Or.inl hr1) (by omega))
                (fun _ _ _ _ _ => trivial))) ?_
            intro _ r hr _ _ _
            omega
        · have hm := hy2 (by simpa using hy)
          subst hm
          exact runs_topLevelFallThrough c hmk hpre
            (fun h => Runs.weaken (runs_parseFuncDef c n _ (Or.inl (by omega)) h (by omega))
              (fun _ _ _ _ _ => trivial))
            (fun _ => runs_parseVarDeclStmt c n _ hmk hpre (by omega))
            (fun r hr1 _ hrk hprog => Runs.weaken
              (ih r hrk (Or.inl hr1) (by have := hprog hne; omega))
              (fun _ _ _ _ _ => trivial))

theorem runs_parseLoop (c : EofAt ts k) :
    ∀ (fuel i : Nat) (decls : List Decl), i ≤ k → 16 * (k - i) + 13 ≤ fuel →
      Runs ts k (parseLoop fuel decls) i (StopsAtEof ts) := by
  intro fuel
  induction fuel with
  | zero => intros; omega
  | succ n ih =>
    intro i decls hi hf
    simp only [parseLoop]
    refine Runs.bind (runs_isAtEnd c hi) ?_
    rintro b j _ hjk ⟨rfl, hb⟩
    refine Runs.ite (fun hb1 => ?_) (fun hb1 => ?_)
    · have hne : typeAt ts j ≠ .END_OF_FILE := by
        intro hE
        have := hb.2 hE
        rw [this] at hb1
        simp at hb1
      refine Runs.bind (runs_parseTopLevelDecl c n j hjk (Or.inr hne) (by omega)) ?_
      rintro d l _ hlk hmove
      have := hmove hne
      exact ih l _ hlk (by omega)
    · refine Runs.pure hjk ?_
      have : b = true := by simpa using hb1
      exact hb.1 this

end Declarations

theorem eofAt_last (tokens : List Token) (eof : Token) (hlast : tokens.getLast? = some eof)
    (heof : eof.type = .END_OF_FILE) : EofAt tokens (tokens.length - 1) := by
  have hne : tokens ≠ [] := by
    intro h
    rw [h] at hlast
    simp at hlast
  have hpos : 0 < tokens.length := List.length_pos.mpr hne
  refine ⟨by omega, ?_⟩
  rw [List.getLast?_eq_getElem?] at hlast
  simp [typeAt, hlast, heof]

/-- The run of `Parser::parse` from a fresh parser returns normally for every
budget of at least `parseBudget tokens`. -/
theorem runs_parseFuel (tokens : List Token) (eof : Token)
    (hlast : tokens.getLast? = some eof) (heof : eof.type = .END_OF_FILE)
    (fuel : Nat) (hfuel : parseBudget tokens ≤ fuel) :
    Runs tokens (tokens.length - 1) (parseFuel fuel) 0 (StopsAtEof tokens) := by
  have c := eofAt_last tokens eof hlast heof
  unfold parseFuel
  refine Runs.bind (runs_parseLoop c fuel 0 [] (Nat.zero_le _) ?_) ?_
  · unfold parseBudget at hfuel
    have := c.lt
    omega
  · rintro _ j _ hjk hstop
    exact Runs.pure hjk hstop

end Parser

/-- C4: for every token sequence whose last token is `END_OF_FILE`,
`Parser::parse` terminates and returns a `Program` together with its
diagnostics: the run `parse tokens` ends normally (it neither exhausts its
budget of sixteen calls per token nor reads outside the token vector), with
the cursor on an `END_OF_FILE` token inside the vector, and so does the run
with any larger budget. -/
theorem C4_parse_terminates (tokens : List Token) (eof : Token)
    (hlast : tokens.getLast? = some eof) (heof : eof.type = .END_OF_FILE) :
    (∃ (program : Program) (cursor : Nat) (diagnostics : List String),
      parse tokens =
        .ok program { tokens := tokens, current := cursor, m_errors := diagnostics } ∧
      cursor < tokens.length ∧ typeAt tokens cursor = .END_OF_FILE) ∧
    ∀ fuel, parseBudget tokens ≤ fuel →
      ∃ (program : Program) (cursor : Nat) (diagnostics : List String),
        Parser.parseFuel fuel { tokens := tokens } =
          .ok program { tokens := tokens, current := cursor, m_errors := diagnostics } ∧
        cursor < tokens.length ∧ typeAt tokens cursor = .END_OF_FILE := by
  have key : ∀ fuel, parseBudget tokens ≤ fuel →
      ∃ (program : Program) (cursor : Nat) (diagnostics : List String),
        Parser.parseFuel fuel { tokens := tokens } =
          .ok program { tokens := tokens, current := cursor, m_errors := diagnostics } ∧
        cursor < tokens.length ∧ typeAt tokens cursor = .END_OF_FILE := by
    intro fuel hfuel
    obtain ⟨program, j, e1, hrun, _, hjk, hstop⟩ :=
      Parser.runs_parseFuel tokens eof hlast heof fuel hfuel []
    have hlt := (Parser.eofAt_last tokens eof hlast heof).lt
    exact ⟨program, j, e1, hrun, by omega, hstop⟩
  exact ⟨key (parseBudget tokens) (Nat.le_refl _), key⟩

/-- C4 at the two tokens of the source text `x`. -/
theorem C4_parse_terminates_witness :
    ∃ (program : Program) (cursor : Nat) (diagnostics : List String),
      parse [identToken "x" 1 1, eofToken 1 2] =
        .ok program
          { tokens := [identToken "x" 1 1, eofToken 1 2], current := cursor,
            m_errors := diagnostics } ∧
      cursor < [identToken "x" 1 1, eofToken 1 2].length ∧
      typeAt [identToken "x" 1 1, eofToken 1 2] cursor = .END_OF_FILE :=
  (C4_parse_terminates [identToken "x" 1 1, eofToken 1 2] (eofToken 1 2) rfl rfl).1

/-! ## Primary expressions, diagnostics and declarations -/

namespace Parser

theorem isLiteralToken_at (ts : List Token) (i : Nat) (e : List String) (t : Token)
    (h : ts[i]? = some t) :
    isLiteralToken ⟨ts, i, e⟩ = .ok (isLiteralType t.type) ⟨ts, i, e⟩ := by
  simp [isLiteralToken, peek_at ts i e t h, isLiteralType]

theorem isDtypeToken_at (ts : List Token) (i : Nat) (e : List String) (t : Token)
    (h : ts[i]? = some t) :
    isDtypeToken ⟨ts, i, e⟩ = .ok (isDtype t.type) ⟨ts, i, e⟩ := by
  simp [isDtypeToken, peek_at ts i e t h, isDtype]

theorem advance_at (ts : List Token) (i : Nat) (e : List String) (t : Token)
    (h : ts[i]? = some t) (hne : t.type ≠ .END_OF_FILE) :
    advance ⟨ts, i, e⟩ = .ok t ⟨ts, i + 1, e⟩ := by
  simp [advance, isAtEnd_at ts i e t h, hne, incCurrent, previous_at ts i e t h]

/-- The literal branch of `parsePrimary`: with the cursor on a literal token
that is not the first token, the result is built from the token before the
cursor and the cursor does not move. -/
theorem parsePrimary_literal (ts : List Token) (i : Nat) (e : List String) (p t : Token)
    (fuel : Nat) (hp : ts[i]? = some p) (ht : ts[i + 1]? = some t)
    (hlit : isLiteralType t.type = true) :
    parsePrimary (fuel + 1) ⟨ts, i + 1, e⟩ =
      .ok (some (Expr.Literal p.lexeme p.type)) ⟨ts, i + 1, e⟩ := by
  simp [parsePrimary, isLiteralToken_at ts (i + 1) e t ht, hlit, previous_at ts i e p hp]

theorem parseLoop_succ (fuel : Nat) (decls : List Decl) :
    parseLoop (fuel + 1) decls = (do
      if !(← isAtEnd) then
        let d ← parseTopLevelDecl fuel
        parseLoop fuel (decls ++ d.toList)
      else pure decls) := by
  simp only [parseLoop]

theorem isDtype_facts {t : TokenType} (h : isDtype t = true) :
    t ≠ .END_OF_FILE ∧ t ≠ .AT ∧ t ≠ .FUNC ∧ t ≠ .HEADER := by
  cases t <;> simp [isDtype] at h ⊢

/-- At a type keyword other than `Block`, `parseTopLevelDecl` runs
`parseVarDeclStmt` and returns a null declaration. -/
theorem parseTopLevelDecl_dtype (ts : List Token) (i : Nat) (e : List String) (t : Token)
    (fuel : Nat) (ht : ts[i]? = some t) (hd : isDtype t.type = true) (hb : t.type ≠ .BLOCK) :
    parseTopLevelDecl (fuel + 1) ⟨ts, i, e⟩ =
      (do
        let _ ← parseVarDeclStmt fuel
        pure none) ⟨ts, i, e⟩ := by
  obtain ⟨h1, h2, h3, h4⟩ := isDtype_facts hd
  simp [parseTopLevelDecl, topLevelFallThrough, isAtEnd_at ts i e t ht, h1, matchTok_miss ts i e t _ ht,
    hb, h2, h3, h4, isDtypeToken_at ts i e t ht, hd]

section Bodies

variable {ts : List Token} {k : Nat}

theorem runs_parseFuncDecl_body (c : EofAt ts k) (fuel i : Nat) (h1 : 1 ≤ i) (hi : i ≤ k)
    (hf : 16 * (k - i) + 1 ≤ fuel) :
    Runs ts k (parseFuncDecl fuel) i (fun r _ => ∃ f, r = some f ∧ f.body = none) := by
  unfold parseFuncDecl
  refine Runs.bind (runs_parseFuncHead c fuel i (Or.inl h1) hi hf) ?_
  rintro _ j hij hjk _
  refine Runs.bind (runs_consume c hjk (Or.inl (by omega)) _ _) ?_
  rintro _ l _ hlk _
  exact Runs.pure hlk ⟨_, rfl, rfl⟩

theorem runs_parseFuncDef_body (c : EofAt ts k) (fuel i : Nat) (h1 : 1 ≤ i) (hi : i ≤ k)
    (hf : 16 * (k - i) + 14 ≤ fuel) :
    Runs ts k (parseFuncDef fuel) i (fun r _ => ∃ f b, r = some f ∧ f.body = some b) := by
  unfold parseFuncDef
  refine Runs.bind (runs_parseFuncHead c fuel i (Or.inl h1) hi (by omega)) ?_
  rintro _ j hij hjk _
  refine Runs.bind (Q := Anyhow) ?_ ?_
  · refine Runs.bind (runs_matched c hjk .LBRACE) ?_
    rintro x l hjl hlk _
    refine Runs.ite (fun _ => ?_) (fun _ => ?_)
    · exact Runs.weaken ((stmtRuns c fuel).block _ (Or.inl (by omega)) hlk (by omega))
        (fun _ _ _ _ _ => trivial)
    · refine Runs.bind (runs_consume c hlk (Or.inl (by omega)) _ _) ?_
      rintro _ m _ hmk _
      exact Runs.pure hmk trivial
  · rintro b l _ hlk _
    exact Runs.pure hlk ⟨_, b, rfl, rfl⟩

end Bodies

end Parser

/-- C11 (the code at the failing input): with the cursor on the literal `1`
of `x + 1`, `parsePrimary` returns `Literal{"+", PLUS}`, built from the token
before the cursor, and leaves the cursor on the literal; `parseExpression` on
`x = 1` accordingly returns `Binary(x, "=", Literal{"=", ASSIGN})` and stops
on the literal. The literal branch reads `previous()` although
`isLiteralToken()` has not consumed the token. -/
theorem C11_literal_is_built_from_previous_token :
    Parser.parsePrimary 1 { tokens := tokenize "x + 1", current := 2 } =
      .ok (some (Expr.Literal "+" .PLUS))
        { tokens := tokenize "x + 1", current := 2, m_errors := [] } ∧
    Parser.parseExpression 20 { tokens := tokenize "x = 1" } =
      .ok (binExpr (idExpr "x") "=" (some (Expr.Literal "=" .ASSIGN)))
        { tokens := tokenize "x = 1", current := 2, m_errors := [] } := by
  refine ⟨?_, ?_⟩ <;> rfl

/-- C12 (the code at the failing input): parsing a primary at `f(1)` returns
`Call{f, [Literal{"(", LPAREN}]}`, records the diagnostic that `)` was
expected and leaves the cursor on the `)`; the literal argument is neither
consumed nor stored. With identifier arguments the call is parsed as claimed:
`f(a, b)` gives `Call{f, [a, b]}`, `f()` gives `Call{f, []}`, and `f` not
followed by `(` gives `Identifier f`, all without diagnostics. -/
theorem C12_call_with_literal_argument :
    Parser.parsePrimary 30 { tokens := tokenize "f(1)" } =
      .ok (some (Expr.Call (idExpr "f") [some (Expr.Literal "(" .LPAREN)]))
        { tokens := tokenize "f(1)", current := 3,
          m_errors := ["Parse error at line 1 col 3: Expected ')' after call arguments"] } ∧
    Parser.parsePrimary 30 { tokens := tokenize "f(a, b)" } =
      .ok (some (Expr.Call (idExpr "f") [idExpr "a", idExpr "b"]))
        { tokens := tokenize "f(a, b)", current := 6, m_errors := [] } ∧
    Parser.parsePrimary 30 { tokens := tokenize "f()" } =
      .ok (some (Expr.Call (idExpr "f") []))
        { tokens := tokenize "f()", current := 3, m_errors := [] } ∧
    Parser.parsePrimary 30 { tokens := tokenize "f + a" } =
      .ok (idExpr "f") { tokens := tokenize "f + a", current := 1, m_errors := [] } := by
  refine ⟨?_, ?_, ?_, ?_⟩ <;> rfl

/-- C13: when `parsePrimary` is called (with a budget of at least one call)
on a token that is not a literal, not an identifier, not `(` and not
`END_OF_FILE`, it appends exactly one diagnostic, "Unexpected token in
expression: " followed by the lexeme of the token, moves the cursor by
exactly one token and returns the non-null placeholder
`Literal{"0", INT_LITERAL}`. -/
theorem C13_primary_fallback (ts : List Token) (i : Nat) (e : List String) (t : Token)
    (fuel : Nat) (ht : ts[i]? = some t) (hlit : isLiteralType t.type = false)
    (hid : t.type ≠ .IDENTIFIER) (hlp : t.type ≠ .LPAREN) (heof : t.type ≠ .END_OF_FILE)
    (hfuel : 1 ≤ fuel) :
    Parser.parsePrimary fuel { tokens := ts, current := i, m_errors := e } =
      .ok (some (Expr.Literal "0" .INT_LITERAL))
        { tokens := ts, current := i + 1,
          m_errors := e ++ ["Unexpected token in expression: " ++ t.lexeme] } := by
  obtain ⟨n, rfl⟩ : ∃ n, fuel = n + 1 := ⟨fuel - 1, by omega⟩
  simp [Parser.parsePrimary, Parser.isLiteralToken_at ts i e t ht, hlit,
    Parser.matchTok_miss ts i e t _ ht, hid, hlp, Parser.peek_at ts i e t ht, Parser.pushError,
    Parser.advance_at ts i _ t ht heof]

/-- C13 at the token `;` of the source text `x = ;`. -/
theorem C13_primary_fallback_witness :
    Parser.parsePrimary 1 { tokens := tokenize "x = ;", current := 2, m_errors := [] } =
      .ok (some (Expr.Literal "0" .INT_LITERAL))
        { tokens := tokenize "x = ;", current := 2 + 1,
          m_errors := [] ++ ["Unexpected token in expression: " ++
            (Token.mk .SEMICOLON ";" 1 5).lexeme] } :=
  C13_primary_fallback (tokenize "x = ;") 2 [] (Token.mk .SEMICOLON ";" 1 5) 1
    (by decide) (by decide) (by decide) (by decide) (by decide) (by decide)

/-- C14 (the code at the failing input): parsing the statement
`if (c) { } else (d) { }` yields an `If` with a null condition, an empty block,
no else-if branches and no else block, two diagnostics, and the cursor on
`c`: `parseIfStmt` tests `match(RPAREN)` where its own message says
"Expected '(' after if", so the condition is never parsed. -/
theorem C14_if_condition_is_never_parsed :
    Parser.parseStatement 60
        { tokens := tokenize "if (c) \x7b \x7d else (d) \x7b \x7d" } =
      .ok (some (Stmt.IfStmt (none, []) none none))
        { tokens := tokenize "if (c) \x7b \x7d else (d) \x7b \x7d", current := 2,
          m_errors :=
            ["Parse error at line 1, col 4: Expected '(' after if",
             "Parse error at line 1 col 4: Expected '\x7b' or ';' after if(condition)"] } := by
  rfl

/-- C15 (the code at the failing input): the tokens of `a + 1` parse as the
expression `Binary(a, "+", Literal{"+", PLUS})` with no diagnostics; the
printer renders it as `(a + +)`; and the tokens of that text parse as
`Binary(a, "+", Unary("+", Literal{"0", INT_LITERAL}))` with two diagnostics.
The round trip changes the tree and produces diagnostics. -/
theorem C15_round_trip_breaks_on_literal :
    Parser.parseExpression 60 { tokens := tokenize "a + 1" } =
      .ok (binExpr (idExpr "a") "+" (some (Expr.Literal "+" .PLUS)))
        { tokens := tokenize "a + 1", current := 2, m_errors := [] } ∧
    printExpr (binExpr (idExpr "a") "+" (some (Expr.Literal "+" .PLUS))) = "(a + +)" ∧
    Parser.parseExpression 60 { tokens := tokenize "(a + +)" } =
      .ok (binExpr (idExpr "a") "+" (unExpr "+" (some (Expr.Literal "0" .INT_LITERAL))))
        { tokens := tokenize "(a + +)", current := 5,
          m_errors :=
            ["Unexpected token in expression: )",
             "Parse error at line 1 col 8: Expected ')' after expression"] } := by
  refine ⟨?_, ?_, ?_⟩ <;> rfl

/-- C16 (the code at the failing inputs): parsing the single token of `header`
records diagnostics of the form "Parse error at line 1 col 7: ..." (written
by `consume`, without the comma after the line number), and parsing
`number = ;` records first the diagnostic
"Unexpected token in expression: ;" (pushed by `parsePrimary` with no
position at all). -/
theorem C16_diagnostics_of_other_forms :
    parse (tokenize "header") =
      .ok { decls := [Decl.Header ""] }
        { tokens := tokenize "header", current := 1,
          m_errors :=
            ["Parse error at line 1 col 7: Expected '(' after 'header'",
             "Parse error at line 1 col 7: Expected ')' after header declaration",
             "Parse error at line 1 col 7: Expected ';' after header declaration"] } ∧
    parse (tokenize "number = ;") =
      .ok { decls := [] }
        { tokens := tokenize "number = ;", current := 3,
          m_errors :=
            ["Unexpected token in expression: ;",
             "Parse error at line 1 col 11: Expected ';' after variable declaration"] } := by
  refine ⟨?_, ?_⟩ <;> rfl

/-- C17: over tokens with an `END_OF_FILE` at index `k`, from every cursor
`i` with `1 ≤ i ≤ k` (the functions are entered after `func` was consumed) and
with a budget that covers the tokens left, `parseFuncDecl` returns a function
with `body = none` and `parseFuncDef` returns a function with
`body = some block`; `@func g();` parses to `Func{g, [], none}` and
`func g() { }` to `Func{g, [], some(empty)}`, both without diagnostics. -/
theorem C17_declaration_has_no_body_definition_has (ts : List Token) (k i fuel : Nat)
    (e : List String) (heof : EofAt ts k) (h1 : 1 ≤ i) (hi : i ≤ k)
    (hfuel : 16 * (k - i) + 14 ≤ fuel) :
    (∃ f j e1, Parser.parseFuncDecl fuel { tokens := ts, current := i, m_errors := e } =
        .ok (some f) { tokens := ts, current := j, m_errors := e1 } ∧ f.body = none) ∧
    (∃ f b j e1, Parser.parseFuncDef fuel { tokens := ts, current := i, m_errors := e } =
        .ok (some f) { tokens := ts, current := j, m_errors := e1 } ∧ f.body = some b) ∧
    parse (tokenize "@func g();") =
      .ok { decls := [Decl.Func { name := "g", params := [], body := none }] }
        { tokens := tokenize "@func g();", current := 6, m_errors := [] } ∧
    parse (tokenize "func g() \x7b \x7d") =
      .ok { decls := [Decl.Func { name := "g", params := [], body := some [] }] }
        { tokens := tokenize "func g() \x7b \x7d", current := 6, m_errors := [] } := by
  refine ⟨?_, ?_, rfl, rfl⟩
  · obtain ⟨r, j, e1, hrun, _, _, f, hr, hbody⟩ :=
      Parser.runs_parseFuncDecl_body heof fuel i h1 hi (by omega) e
    subst hr
    exact ⟨f, j, e1, hrun, hbody⟩
  · obtain ⟨r, j, e1, hrun, _, _, f, b, hr, hbody⟩ :=
      Parser.runs_parseFuncDef_body heof fuel i h1 hi hfuel e
    subst hr
    exact ⟨f, b, j, e1, hrun, hbody⟩

/-- C17 at the tokens of `@func g();`, entered after `@func`. -/
theorem C17_declaration_has_no_body_definition_has_witness :
    ∃ f j e1, Parser.parseFuncDecl 100
        { tokens := tokenize "@func g();", current := 2, m_errors := [] } =
      .ok (some f) { tokens := tokenize "@func g();", current := j, m_errors := e1 } ∧
      f.body = none :=
  (C17_declaration_has_no_body_definition_has (tokenize "@func g();") 6 2 100 []
    ⟨by decide, by decide⟩ (by decide) (by decide) (by decide)).1

/-- C18: a type keyword (other than `Block`) under the cursor of the top-level
loop is parsed by `parseVarDeclStmt` and the loop goes on with `decls`
unchanged; the `Program` returned by any run of `parse` has empty
`globalVars` and `globalExprs`, and each of its decls is a `Header`, a `Func`
or a `BlockDecl`; `number x;` parses to a `Program` without decls. -/
theorem C18_top_level_var_decl_is_discarded (ts : List Token) (i : Nat) (e : List String)
    (t : Token) (fuel : Nat) (decls : List Decl) (tokens : List Token) (budget : Nat)
    (program : Program) (final : Parser)
    (ht : ts[i]? = some t) (hd : isDtype t.type = true) (hb : t.type ≠ .BLOCK)
    (hrun : Parser.parseFuel budget { tokens := tokens } = .ok program final) :
    Parser.parseLoop (fuel + 2) decls { tokens := ts, current := i, m_errors := e } =
      (do
        let _ ← Parser.parseVarDeclStmt fuel
        Parser.parseLoop (fuel + 1) decls) { tokens := ts, current := i, m_errors := e } ∧
    program.globalVars = [] ∧ program.globalExprs = [] ∧
    (∀ d ∈ program.decls, (∃ n, d = Decl.Header n) ∨ (∃ f, d = Decl.Func f) ∨
      (∃ b, d = Decl.Block b)) ∧
    parse (tokenize "number x;") =
      .ok { decls := [] }
        { tokens := tokenize "number x;", current := 3,
          m_errors :=
            ["Parse error at line 1 col 8: Expected ';' after variable declaration",
             "Parse error at line 1, col 9: Unexpected token at top-level: ;"] } := by
  have hne := (Parser.isDtype_facts hd).1
  refine ⟨?_, ?_, ?_, ?_, rfl⟩
  · have hgo : (!t.type == TokenType.END_OF_FILE) = true := by simp [hne]
    rw [Parser.parseLoop_succ]
    simp only [Parser.bind_apply, Parser.isAtEnd_at ts i e t ht]
    rw [if_pos hgo]
    simp only [Parser.bind_apply, Parser.parseTopLevelDecl_dtype ts i e t fuel ht hd hb]
    cases Parser.parseVarDeclStmt fuel { tokens := ts, current := i, m_errors := e } <;>
      simp [Parser.pure_apply]
  all_goals
    unfold Parser.parseFuel at hrun
    simp only [Parser.bind_apply] at hrun
    split at hrun <;> simp only [Parser.pure_apply, Res.ok.injEq, reduceCtorEq] at hrun
    obtain ⟨rfl, _⟩ := hrun
  · rfl
  · rfl
  · intro d _
    cases d with
    | Header n => exact Or.inl ⟨n, rfl⟩
    | Func f => exact Or.inr (Or.inl ⟨f, rfl⟩)
    | Block b => exact Or.inr (Or.inr ⟨b, rfl⟩)

/-- C18 at the tokens of `number x;`. -/
theorem C18_top_level_var_decl_is_discarded_witness :
    Parser.parseLoop (110 + 2) []
        { tokens := tokenize "number x;", current := 0, m_errors := [] } =
      (do
        let _ ← Parser.parseVarDeclStmt 110
        Parser.parseLoop (110 + 1) [])
        { tokens := tokenize "number x;", current := 0, m_errors := [] } :=
  (C18_top_level_var_decl_is_discarded (tokenize "number x;") 0 [] (Token.mk .NUMBER "number" 1 1)
    110 [] (tokenize "number x;") 80 { decls := [] }
    { tokens := tokenize "number x;", current := 3,
      m_errors :=
        ["Parse error at line 1 col 8: Expected ';' after variable declaration",
         "Parse error at line 1, col 9: Unexpected token at top-level: ;"] }
    (by decide) (by decide) (by decide) rfl).1

/-- C19: for every lexeme `s` and all token positions, parsing the token
sequence `header ( s ) ;` with `s` a `STRING_LITERAL` token yields a `Program`
with exactly one decl, `Header{name = s}`, and no diagnostics. -/
theorem C19_header_keeps_string_lexeme (s : String) (ln col : Nat → Int) :
    parse
        [ { type := .HEADER, lexeme := "header", line := ln 0, column := col 0 },
          { type := .LPAREN, lexeme := "(", line := ln 1, column := col 1 },
          { type := .STRING_LITERAL, lexeme := s, line := ln 2, column := col 2 },
          { type := .RPAREN, lexeme := ")", line := ln 3, column := col 3 },
          { type := .SEMICOLON, lexeme := ";", line := ln 4, column := col 4 },
          eofToken (ln 5) (col 5) ] =
      .ok { decls := [Decl.Header s] }
        { tokens :=
            [ { type := .HEADER, lexeme := "header", line := ln 0, column := col 0 },
              { type := .LPAREN, lexeme := "(", line := ln 1, column := col 1 },
              { type := .STRING_LITERAL, lexeme := s, line := ln 2, column := col 2 },
              { type := .RPAREN, lexeme := ")", line := ln 3, column := col 3 },
              { type := .SEMICOLON, lexeme := ";", line := ln 4, column := col 4 },
              eofToken (ln 5) (col 5) ],
          current := 5, m_errors := [] } := by
  rfl

/-- C20 (the code at the failing inputs): started after the `(`, on
`number a, number b)` `parseArgList` returns `[("number", ","), ("", "")]`
with three diagnostics and the cursor on the second `number`; on `number a)`
it returns `[("number", ")")]`; only the empty list `)` is parsed as claimed.
The name is read with `peek()` after the identifier was consumed, and the
loop test `!match(RPAREN) || match(COMMA)` enters the body with the cursor
still on the comma. -/
theorem C20_parameter_list_is_misread :
    Parser.parseArgList 60 { tokens := tokenize "number a, number b)" } =
      .ok [("number", ","), ("", "")]
        { tokens := tokenize "number a, number b)", current := 3,
          m_errors :=
            ["Parse error at line 1, col 9: Expected parameter type in function *args or **kwargs",
             "Parse error at line 1, col 11: Expected parameter name after type in function *args or **kwargs",
             "Parse error at line 1, col 11: Expected ',' or ')' after function parameter"] } ∧
    Parser.parseArgList 60 { tokens := tokenize "number a)" } =
      .ok [("number", ")")]
        { tokens := tokenize "number a)", current := 3, m_errors := [] } ∧
    Parser.parseArgList 60 { tokens := tokenize ")" } =
      .ok [] { tokens := tokenize ")", current := 1, m_errors := [] } := by
  refine ⟨?_, ?_, ?_⟩ <;> rfl

/-! ## The lexer on whole inputs -/

namespace Lexer

theorem tokenizeLoop_end (n : Nat) (lx : Lexer) (acc : List Token) (hend : lx.isAtEnd = true) :
    tokenizeLoop n lx acc = (lx, acc) := by
  cases n with
  | zero => rfl
  | succ n => simp [tokenizeLoop, hend]

theorem skipWhitespaceLoop_id (n : Nat) (lx : Lexer) (h : isSpace lx.peek = false) :
    skipWhitespaceLoop n lx = lx := by
  cases n with
  | zero => rfl
  | succ n =>
    simp only [isSpace, Bool.or_eq_false_iff, beq_eq_false_iff_ne, ne_eq] at h
    obtain ⟨⟨⟨h1, h2⟩, h3⟩, h4⟩ := h
    simp [skipWhitespaceLoop, h1, h2, h3, h4]

theorem skipComment_id (lx : Lexer) (h : lx.peek ≠ '/') : lx.skipComment = lx := by
  simp [skipComment, h]

/-- One pass of the loop of `Lexer::tokenize` that starts on a character which
is neither white space nor a slash: nothing is skipped, and the `switch` runs
on that character. -/
theorem tokenizeLoop_succ (n : Nat) (lx : Lexer) (acc : List Token)
    (hend : lx.isAtEnd = false) (hs : isSpace lx.peek = false) (hc : lx.peek ≠ '/') :
    tokenizeLoop (n + 1) lx acc =
      tokenizeLoop n (scanToken lx.advance.1 lx.advance.2).2
        (acc ++ (scanToken lx.advance.1 lx.advance.2).1.toList) := by
  have h1 : lx.skipWhitespace = lx := skipWhitespaceLoop_id _ lx hs
  have h2 : lx.skipComment = lx := skipComment_id lx hc
  simp only [tokenizeLoop, hend, h1, h2, Bool.false_eq_true, if_false]
  cases (scanToken lx.advance.1 lx.advance.2).1 <;> simp

/-- A loop `while (!isAtEnd() && p(peek())) advance();` that starts before a
run of characters satisfying `p` up to the end of the input stops at the end;
the line is kept and the column grows by the number of characters. -/
theorem advanceWhile_all (p : Char → Bool) (n : Nat) (lx : Lexer)
    (hn : lx.src.length - lx.pos ≤ n) (hle : lx.pos ≤ lx.src.length)
    (hp : ∀ i, lx.pos ≤ i → i < lx.src.length → p (lx.src.getD i '\x00') = true) :
    advanceWhile p n lx =
      { lx with pos := lx.src.length,
                column := lx.column + ((lx.src.length - lx.pos : Nat) : Int) } := by
  induction n generalizing lx with
  | zero =>
    have : lx.pos = lx.src.length := by omega
    cases lx
    simp only [advanceWhile, Lexer.mk.injEq] at *
    subst this
    simp
  | succ n ih =>
    by_cases hend : lx.src.length ≤ lx.pos
    · have : lx.pos = lx.src.length := by omega
      have he : lx.isAtEnd = true := by simp [isAtEnd, hend]
      cases lx
      simp only [advanceWhile, he, Lexer.mk.injEq] at *
      subst this
      simp
    · have he : lx.isAtEnd = false := by simp [isAtEnd, hend]
      have hpk : p lx.peek = true := by
        have := hp lx.pos (Nat.le_refl _) (by omega)
        simpa [peek, he] using this
      simp only [advanceWhile, he, hpk, Bool.not_false, Bool.and_self, if_true]
      rw [ih]
      · cases lx
        simp only [advance, Lexer.mk.injEq, true_and]
        simp only at hend
        omega
      · simp only [advance]; omega
      · simp only [advance]; omega
      · intro i h1 h2
        exact hp i (by simp only [advance] at h1; omega) (by simpa [advance] using h2)

theorem substr_all (lx : Lexer) : lx.substr 0 lx.src.length = String.mk lx.src := by
  simp [substr]

end Lexer

namespace Lexer

/-- The scanner behind `0x` or `0b`, entered at position 2 of a source whose
characters from there on all satisfy `p`. -/
theorem prefixed_literal_all (p : Char → Bool) (m : Char) (body : List Char)
    (hp : ∀ c ∈ body, p c = true) :
    advanceWhile p body.length
        { src := '0' :: m :: body, pos := 2, line := 1, column := 3 } =
      { src := '0' :: m :: body, pos := body.length + 1 + 1, line := 1,
        column := 3 + (body.length : Int) } := by
  rw [advanceWhile_all]
  · simp
  · simp
  · simp
  · intro i h1 h2
    obtain ⟨j, rfl⟩ : ∃ j, i = j + 2 := ⟨i - 2, by simp only at h1; omega⟩
    simp only [List.length_cons] at h2
    have hj : j < body.length := by omega
    simp only [List.getD_cons_succ]
    rw [List.getD_eq_getElem _ _ hj]
    exact hp _ (List.getElem_mem _)

theorem tokenize_hex (h : List Char) (hh : ∀ c ∈ h, isxdigit c = true) :
    Lexer.tokenize { src := '0' :: 'x' :: h } =
      [ { type := .HEX_LITERAL, lexeme := String.mk ('0' :: 'x' :: h), line := 1, column := 1 },
        { type := .END_OF_FILE, lexeme := "", line := 1, column := 3 + (h.length : Int) } ] := by
  have key := prefixed_literal_all isxdigit 'x' h hh
  have hscan : scanToken '0' { src := '0' :: 'x' :: h, pos := 1, line := 1, column := 2 } =
      (some { type := .HEX_LITERAL, lexeme := String.mk ('0' :: 'x' :: h), line := 1, column := 1 },
        { src := '0' :: 'x' :: h, pos := h.length + 1 + 1, line := 1,
          column := 3 + (h.length : Int) }) := by
    simp only [scanToken, hexLiteral, advance, peek, isAtEnd]
    simp [key, makeToken, substr]
    omega
  simp only [Lexer.tokenize, scan, List.length_cons]
  rw [tokenizeLoop_succ _ _ _ (by simp [isAtEnd]) (by simp [peek, isAtEnd, isSpace])
    (by simp [peek, isAtEnd])]
  have hadv : ({ src := '0' :: 'x' :: h } : Lexer).advance =
      ('0', { src := '0' :: 'x' :: h, pos := 1, line := 1, column := 2 }) := by
    simp [advance, peek, isAtEnd]
  rw [hadv, hscan, tokenizeLoop_end _ _ _ (by simp [isAtEnd])]
  simp

theorem tokenize_bin (d : List Char) (hd : ∀ c ∈ d, (c == '0' || c == '1') = true) :
    Lexer.tokenize { src := '0' :: 'b' :: d } =
      [ { type := .BIN_LITERAL, lexeme := String.mk ('0' :: 'b' :: d), line := 1, column := 1 },
        { type := .END_OF_FILE, lexeme := "", line := 1, column := 3 + (d.length : Int) } ] := by
  have key := prefixed_literal_all (fun c => c == '0' || c == '1') 'b' d hd
  have hscan : scanToken '0' { src := '0' :: 'b' :: d, pos := 1, line := 1, column := 2 } =
      (some { type := .BIN_LITERAL, lexeme := String.mk ('0' :: 'b' :: d), line := 1, column := 1 },
        { src := '0' :: 'b' :: d, pos := d.length + 1 + 1, line := 1,
          column := 3 + (d.length : Int) }) := by
    simp only [scanToken, binLiteral, advance, peek, isAtEnd]
    simp [key, makeToken, substr]
    omega
  simp only [Lexer.tokenize, scan, List.length_cons]
  rw [tokenizeLoop_succ _ _ _ (by simp [isAtEnd]) (by simp [peek, isAtEnd, isSpace])
    (by simp [peek, isAtEnd])]
  have hadv : ({ src := '0' :: 'b' :: d } : Lexer).advance =
      ('0', { src := '0' :: 'b' :: d, pos := 1, line := 1, column := 2 }) := by
    simp [advance, peek, isAtEnd]
  rw [hadv, hscan, tokenizeLoop_end _ _ _ (by simp [isAtEnd])]
  simp

end Lexer

/-- C21: for every string `h` of hexadecimal digits, `tokenize ("0x" ++ h)` is
the `HEX_LITERAL` token with lexeme `"0x" ++ h` followed by `END_OF_FILE`, and
for every string `d` of the characters `0` and `1`, `tokenize ("0b" ++ d)` is
the `BIN_LITERAL` token with lexeme `"0b" ++ d` followed by `END_OF_FILE`;
`h` and `d` may be empty. Both literals stand at line 1, column 1. -/
theorem C21_hex_and_bin_literals (h d : String)
    (hh : ∀ c ∈ h.toList, isxdigit c = true)
    (hd : ∀ c ∈ d.toList, c = '0' ∨ c = '1') :
    tokenize ("0x" ++ h) =
      [ { type := .HEX_LITERAL, lexeme := "0x" ++ h, line := 1, column := 1 },
        { type := .END_OF_FILE, lexeme := "", line := 1, column := 3 + (h.length : Int) } ] ∧
    tokenize ("0b" ++ d) =
      [ { type := .BIN_LITERAL, lexeme := "0b" ++ d, line := 1, column := 1 },
        { type := .END_OF_FILE, lexeme := "", line := 1, column := 3 + (d.length : Int) } ] := by
  have e1 : ("0x" ++ h).toList = '0' :: 'x' :: h.toList := by simp
  have e2 : ("0b" ++ d).toList = '0' :: 'b' :: d.toList := by simp
  have s1 : String.mk ('0' :: 'x' :: h.toList) = "0x" ++ h := by
    apply String.ext; simp
  have s2 : String.mk ('0' :: 'b' :: d.toList) = "0b" ++ d := by
    apply String.ext; simp
  constructor
  · unfold tokenize
    rw [e1, Lexer.tokenize_hex _ hh, s1]
    rfl
  · unfold tokenize
    rw [e2, Lexer.tokenize_bin _ (fun c hc => by rcases hd c hc with h | h <;> simp [h]), s2]
    rfl

/-- The claim C21 at `0xFF`, `0b101` and at the bare prefixes `0x`, `0b`. -/
theorem C21_hex_and_bin_literals_witness :
    (tokenize ("0x" ++ "FF") =
      [ { type := .HEX_LITERAL, lexeme := "0x" ++ "FF", line := 1, column := 1 },
        { type := .END_OF_FILE, lexeme := "", line := 1, column := 3 + ("FF".length : Int) } ] ∧
    tokenize ("0b" ++ "101") =
      [ { type := .BIN_LITERAL, lexeme := "0b" ++ "101", line := 1, column := 1 },
        { type := .END_OF_FILE, lexeme := "", line := 1, column := 3 + ("101".length : Int) } ]) :=
  C21_hex_and_bin_literals "FF" "101" (by decide) (by decide)

namespace Lexer

/-- The `default` label of the `switch`: a character that is neither
punctuation, an operator, the quote nor the zero reaches the three tests on
letters and digits. -/
theorem scanToken_default (c : Char) (lx : Lexer) (hp : isPunct c = false) (hq : c ≠ '"')
    (h0 : c ≠ '0') :
    scanToken c lx =
      if isalpha c || c == '_' || c == '@' then
        (some ({ lx with pos := lx.pos - 1, column := lx.column - 1 } : Lexer).identifier.1,
          ({ lx with pos := lx.pos - 1, column := lx.column - 1 } : Lexer).identifier.2)
      else if isdigit c then
        (some ({ lx with pos := lx.pos - 1, column := lx.column - 1 } : Lexer).number.1,
          ({ lx with pos := lx.pos - 1, column := lx.column - 1 } : Lexer).number.2)
      else (none, lx) := by
  simp only [isPunct, punctChars, List.contains_cons, List.contains_nil, Bool.or_false,
    Bool.or_eq_false_iff, beq_eq_false_iff_ne, ne_eq] at hp
  obtain ⟨h1, h2, h3, h4, h5, h6, h7, h8, h9, h10, h11, h12, h13, h14, h15, h16, h17, h18,
    h19, h20, h21⟩ := hp
  simp only [scanToken, h1, h2, h3, h4, h5, h6, h7, h8, h9, h10, h11, h12, h13, h14, h15, h16,
    h17, h18, h19, h20, h21, hq, h0, if_false]

/-- The loop of `Lexer::stringLiteral` runs to the end of an input that holds
no further quote. -/
theorem stringLoop_atEnd (n : Nat) (lx : Lexer) (hn : lx.src.length - lx.pos ≤ n)
    (hq : ∀ i, lx.pos ≤ i → i < lx.src.length → lx.src.getD i '\x00' ≠ '"') :
    (stringLoop n lx).isAtEnd = true := by
  induction n generalizing lx with
  | zero =>
    simp only [stringLoop, isAtEnd, decide_eq_true_eq]
    omega
  | succ n ih =>
    by_cases hend : lx.src.length ≤ lx.pos
    · have he : lx.isAtEnd = true := by simp [isAtEnd, hend]
      simp [stringLoop, he]
    · have he : lx.isAtEnd = false := by simp [isAtEnd, hend]
      have hpk : (lx.peek != '"') = true := by
        have := hq lx.pos (Nat.le_refl _) (by omega)
        simpa [peek, he] using this
      simp only [stringLoop, he, hpk, Bool.not_false, Bool.and_self, if_true]
      apply ih
      · split <;> simp only [advance] <;> omega
      · intro i h1 h2
        have h3 : lx.pos ≤ i := by
          revert h1; split <;> simp only [advance] <;> omega
        have h4 : i < lx.src.length := by
          revert h2; split <;> simp only [advance] <;> exact id
        have := hq i h3 h4
        revert this; split <;> simp only [advance] <;> exact id

/-- An opening quote that is never closed: the token has the empty lexeme
and the position at which the input ends. -/
theorem tokenize_unterminated (l : List Char) (hs : '"' ∉ l) :
    ∃ ln col, Lexer.tokenize { src := '"' :: l } =
      [ { type := .STRING_LITERAL, lexeme := "", line := ln, column := col },
        { type := .END_OF_FILE, lexeme := "", line := ln, column := col } ] := by
  have hadv : ({ src := '"' :: l } : Lexer).advance =
      ('"', { src := '"' :: l, pos := 1, line := 1, column := 2 }) := by
    simp [advance, peek, isAtEnd]
  have hend : (stringLoop (l.length - 1)
      { src := '"' :: l, pos := 2, line := 1, column := 3 }).isAtEnd = true := by
    refine stringLoop_atEnd _ _ (by simp) ?_
    intro i h1 h2
    obtain ⟨j, rfl⟩ : ∃ j, i = j + 1 := ⟨i - 1, by simp only at h1; omega⟩
    simp only [List.length_cons] at h2
    have hj : j < l.length := by omega
    simp only [List.getD_cons_succ]
    rw [List.getD_eq_getElem _ _ hj]
    intro hq
    exact hs (hq ▸ List.getElem_mem _)
  generalize hfin : stringLoop (l.length - 1)
    { src := '"' :: l, pos := 2, line := 1, column := 3 } = fin at hend
  have hscan : scanToken '"' { src := '"' :: l, pos := 1, line := 1, column := 2 } =
      (some { type := .STRING_LITERAL, lexeme := "", line := fin.line, column := fin.column },
        fin) := by
    simp only [scanToken, stringLiteral, advance]
    simp [hfin, hend, makeToken]
  refine ⟨fin.line, fin.column, ?_⟩
  simp only [Lexer.tokenize, scan, List.length_cons]
  rw [tokenizeLoop_succ _ _ _ (by simp [isAtEnd])
    (by simp [peek, isAtEnd, isSpace]) (by simp [peek, isAtEnd]), hadv, hscan,
    tokenizeLoop_end _ _ _ hend]
  simp

end Lexer

/-- C22: for every string `s` without a quote, tokenizing the unterminated
string `"` followed by `s` yields a `STRING_LITERAL` token with the empty
lexeme and then `END_OF_FILE`; both tokens carry the line and column at which
the input ends. -/
theorem C22_unterminated_string (s : String) (hs : '"' ∉ s.toList) :
    ∃ ln col, tokenize ("\"" ++ s) =
      [ { type := .STRING_LITERAL, lexeme := "", line := ln, column := col },
        { type := .END_OF_FILE, lexeme := "", line := ln, column := col } ] := by
  have e1 : ("\"" ++ s).toList = '"' :: s.toList := by simp
  obtain ⟨ln, col, h⟩ := Lexer.tokenize_unterminated s.toList hs
  exact ⟨ln, col, by unfold tokenize; rw [e1, h]⟩

/-- The claim C22 at the unterminated string `"abc`. -/
theorem C22_unterminated_string_witness :
    ∃ ln col, tokenize ("\"" ++ "abc") =
      [ { type := .STRING_LITERAL, lexeme := "", line := ln, column := col },
        { type := .END_OF_FILE, lexeme := "", line := ln, column := col } ] :=
  C22_unterminated_string "abc" (by decide)

/-- C23: tokenizing the empty source yields exactly one token, `END_OF_FILE`
with the empty lexeme at line 1, column 1. -/
theorem C23_empty_source :
    tokenize "" = [ { type := .END_OF_FILE, lexeme := "", line := 1, column := 1 } ] := by
  decide

namespace Lexer

theorem isPunct_mem {c : Char} (h : isPunct c = true) : c ∈ punctChars := by
  simpa [isPunct] using h

/-- A character that starts a word has no `case` of its own in the `switch`
and is not skipped before it. -/
theorem wordStart_default {c : Char} (h : isWordStart c = true) :
    isSpace c = false ∧ isPunct c = false ∧ c ≠ '"' ∧ c ≠ '0' ∧ c ≠ '/' := by
  have hp : ∀ x ∈ punctChars, isWordStart x = false := by decide
  have hs : ∀ x ∈ [' ', '\t', '\r', '\n', '"', '0', '/'], isWordStart x = false := by decide
  have no : ∀ x, isWordStart x = false → c ≠ x := by
    intro x hx hcx
    rw [hcx, hx] at h
    exact Bool.noConfusion h
  refine ⟨?_, ?_, no _ (hs _ (by simp)), no _ (hs _ (by simp)), no _ (hs _ (by simp))⟩
  · have h1 := no _ (hs ' ' (by simp))
    have h2 := no _ (hs '\t' (by simp))
    have h3 := no _ (hs '\r' (by simp))
    have h4 := no _ (hs '\n' (by simp))
    simp [isSpace, h1, h2, h3, h4]
  · cases hq : isPunct c with
    | false => rfl
    | true => exact absurd rfl (no c (hp c (isPunct_mem hq)))

/-- The keyword table of `lexer.hpp` and the 21 keywords of the specification
agree on every text but `@`. -/
theorem keywords_lookup_word (w : String) (h : w ≠ "@") :
    keywords.lookup w = specKeywords.lookup w := by
  have h1 : (w == "@") = false := by simpa using h
  simp [keywords, specKeywords, List.lookup, h1]

/-- A source that is one word is one token: the word, with the kind that the
keyword table gives it. -/
theorem tokenize_word (c : Char) (rest : List Char) (hc : isWordStart c = true)
    (hr : ∀ d ∈ rest, isWordChar d = true) :
    Lexer.tokenize { src := c :: rest } =
      [ { type := (keywords.lookup (String.mk (c :: rest))).getD .IDENTIFIER,
          lexeme := String.mk (c :: rest), line := 1, column := 1 },
        { type := .END_OF_FILE, lexeme := "", line := 1, column := 2 + (rest.length : Int) } ] := by
  obtain ⟨hsp, hpu, hq, h0, hsl⟩ := wordStart_default hc
  have hadv : ({ src := c :: rest } : Lexer).advance =
      (c, { src := c :: rest, pos := 1, line := 1, column := 2 }) := by
    simp [advance, peek, isAtEnd]
  have hall : advanceWhile (fun c => isalnum c || c == '_') (rest.length + 1)
      { src := c :: rest, pos := 0, line := 1, column := 1 } =
      { src := c :: rest, pos := rest.length + 1, line := 1,
        column := 2 + (rest.length : Int) } := by
    rw [advanceWhile_all]
    · simp; omega
    · simp
    · simp
    · intro i _ h2
      simp only [List.length_cons] at h2
      cases i with
      | zero =>
        simp only [isWordStart, Bool.or_eq_true] at hc
        rcases hc with h | h <;> simp [isalnum, h]
      | succ j =>
        have hj : j < rest.length := by omega
        simp only [List.getD_cons_succ]
        rw [List.getD_eq_getElem _ _ hj]
        exact hr _ (List.getElem_mem _)
  have hcond : (isalpha c || c == '_' || c == '@') = true := by
    simp only [isWordStart] at hc
    simp [hc]
  have hscan : scanToken c { src := c :: rest, pos := 1, line := 1, column := 2 } =
      (some { type := (keywords.lookup (String.mk (c :: rest))).getD .IDENTIFIER,
              lexeme := String.mk (c :: rest), line := 1, column := 1 },
        { src := c :: rest, pos := rest.length + 1, line := 1,
          column := 2 + (rest.length : Int) }) := by
    rw [scanToken_default c _ hpu hq h0, if_pos hcond]
    simp only [identifier, Nat.sub_self, List.length_cons, Nat.sub_zero]
    have hcol : (2 : Int) - 1 = 1 := by norm_num
    rw [hcol, hall]
    have hsub : ∀ (ln col : Int),
        Lexer.substr { src := c :: rest, pos := rest.length + 1, line := ln, column := col }
          0 (rest.length + 1) = String.mk (c :: rest) := by
      intro ln col
      simp [substr]
    dsimp only
    rw [hsub]
    cases keywords.lookup (String.mk (c :: rest)) <;> simp [makeToken] <;> omega
  simp only [Lexer.tokenize, scan, List.length_cons]
  rw [tokenizeLoop_succ _ _ _ (by simp [isAtEnd])
    (by simpa [peek, isAtEnd] using hsp) (by simpa [peek, isAtEnd] using hsl), hadv, hscan,
    tokenizeLoop_end _ _ _ (by simp [isAtEnd])]
  simp

end Lexer

/-- C24: for every word `w` of the shape `[A-Za-z_][A-Za-z0-9_]*`,
`tokenize w` is one token with the lexeme `w` at line 1, column 1, followed by
`END_OF_FILE`; the kind of the token is the keyword kind when `w` is one of
the 21 keywords of the specification and `IDENTIFIER` for every other word. -/
theorem C24_word_is_keyword_or_identifier (w : String) (hw : isWord w = true) :
    tokenize w =
      [ { type := wordKind w, lexeme := w, line := 1, column := 1 },
        { type := .END_OF_FILE, lexeme := "", line := 1, column := 1 + (w.length : Int) } ] := by
  unfold isWord at hw
  obtain ⟨l⟩ := w
  cases l with
  | nil => simp at hw
  | cons c rest =>
    simp only [String.toList, Bool.and_eq_true, List.all_eq_true] at hw
    have hne : String.mk (c :: rest) ≠ "@" := by
      intro h
      have h1 : c :: rest = ['@'] := congrArg String.data h
      simp only [List.cons.injEq] at h1
      have h2 := hw.1
      rw [h1.1] at h2
      exact absurd h2 (by decide)
    unfold tokenize
    rw [String.toList, Lexer.tokenize_word c rest hw.1 hw.2, Lexer.keywords_lookup_word _ hne]
    simp only [wordKind, String.length, List.length_cons, Nat.cast_add, Nat.cast_one]
    congr 3
    omega

/-- The claim C24 at the keyword `while` and at the identifier `while_1`. -/
theorem C24_word_is_keyword_or_identifier_witness :
    (tokenize "while" =
      [ { type := wordKind "while", lexeme := "while", line := 1, column := 1 },
        { type := .END_OF_FILE, lexeme := "", line := 1,
          column := 1 + ("while".length : Int) } ] ∧
    tokenize "while_1" =
      [ { type := wordKind "while_1", lexeme := "while_1", line := 1, column := 1 },
        { type := .END_OF_FILE, lexeme := "", line := 1,
          column := 1 + ("while_1".length : Int) } ]) ∧
    wordKind "while" = .WHILE ∧ wordKind "while_1" = .IDENTIFIER :=
  ⟨⟨C24_word_is_keyword_or_identifier "while" (by decide),
    C24_word_is_keyword_or_identifier "while_1" (by decide)⟩, by decide, by decide⟩

namespace Lexer

/-- The loop of `Lexer::tokenize` only ever appends to the token vector. -/
theorem tokenizeLoop_prefix (n : Nat) (lx : Lexer) (acc : List Token) :
    ∃ more, (tokenizeLoop n lx acc).2 = acc ++ more := by
  induction n generalizing lx acc with
  | zero => exact ⟨[], by simp [tokenizeLoop]⟩
  | succ n ih =>
    simp only [tokenizeLoop]
    split
    · exact ⟨[], by simp⟩
    · split
      · exact ⟨[], by simp⟩
      · split
        · next t _ =>
          obtain ⟨more, h⟩ := ih
            (scanToken lx.skipWhitespace.skipComment.skipWhitespace.advance.1
              lx.skipWhitespace.skipComment.skipWhitespace.advance.2).2 (acc ++ [t])
          exact ⟨t :: more, by rw [h]; simp⟩
        · exact ih _ _

/-- The five `case` labels with a lookahead: the long token when the pairing
character follows, the short token otherwise (also at the end of input). -/
theorem scanToken_paired (op : Char × Char × TokenType × TokenType) (hop : op ∈ pairedOps)
    (lx : Lexer) :
    scanToken op.1 lx =
      if (!lx.isAtEnd && lx.peek == op.2.1) = true then
        (some { type := op.2.2.1, lexeme := String.mk [op.1, op.2.1], line := lx.line,
                column := lx.column + 1 - 2 },
          { lx with pos := lx.pos + 1, column := lx.column + 1 })
      else
        (some { type := op.2.2.2, lexeme := String.mk [op.1], line := lx.line,
                column := lx.column - 1 }, lx) := by
  simp only [pairedOps, List.mem_cons, List.mem_singleton, List.not_mem_nil, or_false] at hop
  by_cases h2 : lx.src[lx.pos]?.getD '\x00' = op.2.1 <;>
    rcases hop with rfl | rfl | rfl | rfl | rfl <;>
    cases h : lx.isAtEnd <;>
    simp only [] at h2 <;>
    simp [scanToken, twoChar, matchChar, makeToken, peek, h, h2]
  all_goals rfl

end Lexer

/-- C25: maximal munch. In the `switch` of `Lexer::tokenize` each of `-`, `=`,
`!`, `<`, `>` becomes the two-character token `->`, `==`, `!=`, `<=`, `>=`
when its pairing character follows immediately, and the one-character token
`MINUS`, `ASSIGN`, `NOT`, `LT`, `GT` otherwise, whatever the state of the
lexer; a source that starts with one of the five starts with the token so
chosen; the five two-character sources are one token followed by
`END_OF_FILE`; and `===` is `EQ` then `ASSIGN`. -/
theorem C25_maximal_munch :
    (∀ op ∈ pairedOps, ∀ lx : Lexer,
      Lexer.scanToken op.1 lx =
        if (!lx.isAtEnd && lx.peek == op.2.1) = true then
          (some { type := op.2.2.1, lexeme := String.mk [op.1, op.2.1], line := lx.line,
                  column := lx.column + 1 - 2 },
            { lx with pos := lx.pos + 1, column := lx.column + 1 })
        else
          (some { type := op.2.2.2, lexeme := String.mk [op.1], line := lx.line,
                  column := lx.column - 1 }, lx)) ∧
    (∀ op ∈ pairedOps, ∀ rest : List Char,
      (tokenize (String.mk (op.1 :: rest))).head? =
        some (if rest.head? = some op.2.1 then
          { type := op.2.2.1, lexeme := String.mk [op.1, op.2.1], line := 1, column := 1 }
        else { type := op.2.2.2, lexeme := String.mk [op.1], line := 1, column := 1 })) ∧
    (∀ op ∈ pairedOps,
      tokenize (String.mk [op.1, op.2.1]) =
        [ { type := op.2.2.1, lexeme := String.mk [op.1, op.2.1], line := 1, column := 1 },
          { type := .END_OF_FILE, lexeme := "", line := 1, column := 3 } ]) ∧
    tokenize "===" =
      [ { type := .EQ, lexeme := "==", line := 1, column := 1 },
        { type := .ASSIGN, lexeme := "=", line := 1, column := 3 },
        { type := .END_OF_FILE, lexeme := "", line := 1, column := 4 } ] := by
  refine ⟨fun op hop lx => Lexer.scanToken_paired op hop lx, ?_, by decide, by decide⟩
  intro op hop rest
  have hns : isSpace op.1 = false ∧ op.1 ≠ '/' := by
    revert op
    decide
  have hadv : ({ src := op.1 :: rest } : Lexer).advance =
      (op.1, { src := op.1 :: rest, pos := 1, line := 1, column := 2 }) := by
    simp [Lexer.advance, Lexer.peek, Lexer.isAtEnd]
  simp only [tokenize, Lexer.tokenize, Lexer.scan, String.toList, List.length_cons]
  rw [Lexer.tokenizeLoop_succ _ _ _ (by simp [Lexer.isAtEnd])
    (by simpa [Lexer.peek, Lexer.isAtEnd] using hns.1)
    (by simpa [Lexer.peek, Lexer.isAtEnd] using hns.2), hadv,
    Lexer.scanToken_paired op hop]
  have hcond : ((!({ src := op.1 :: rest, pos := 1, line := 1, column := 2 } : Lexer).isAtEnd &&
      ({ src := op.1 :: rest, pos := 1, line := 1, column := 2 } : Lexer).peek == op.2.1) = true)
      ↔ rest.head? = some op.2.1 := by
    cases rest with
    | nil => simp [Lexer.isAtEnd]
    | cons x r => simp [Lexer.isAtEnd, Lexer.peek]
  by_cases hc : rest.head? = some op.2.1
  · rw [if_pos (hcond.mpr hc), if_pos hc]
    obtain ⟨more, hm⟩ := Lexer.tokenizeLoop_prefix rest.length
      { src := op.1 :: rest, pos := 1 + 1, line := 1, column := 2 + 1 }
      ([] ++ [{ type := op.2.2.1, lexeme := String.mk [op.1, op.2.1], line := 1,
                column := 2 + 1 - 2 }])
    simp only [Option.toList]
    rw [hm]
    simp
  · rw [if_neg (fun h => hc (hcond.mp h)), if_neg hc]
    obtain ⟨more, hm⟩ := Lexer.tokenizeLoop_prefix rest.length
      { src := op.1 :: rest, pos := 1, line := 1, column := 2 }
      ([] ++ [{ type := op.2.2.2, lexeme := String.mk [op.1], line := 1, column := 2 - 1 }])
    simp only [Option.toList]
    rw [hm]
    simp

namespace Lexer

/-- What the tests of `Lexer::tokenize` see of an unrecognized character. -/
theorem unrecognized_facts {c : Char} (h : unrecognized c = true) :
    isSpace c = false ∧ isPunct c = false ∧ c ≠ '"' ∧ c ≠ '0' ∧ c ≠ '/' ∧ c ≠ '@' ∧
      c ≠ '_' ∧ isalpha c = false ∧ isdigit c = false := by
  simp only [unrecognized, isalnum, Bool.and_eq_true, Bool.not_eq_true', Bool.or_eq_false_iff,
    beq_eq_false_iff_ne, ne_eq] at h
  obtain ⟨⟨⟨⟨h1, h2⟩, h3⟩, h4, h5⟩, h6⟩ := h
  have no : ∀ x, isPunct x = true → c ≠ x := by
    intro x hx hcx
    rw [hcx, hx] at h2
    exact Bool.noConfusion h2
  refine ⟨h1, h2, h3, ?_, no _ (by decide), no _ (by decide), h6, h4, h5⟩
  intro h0
  rw [h0] at h5
  exact absurd h5 (by decide)

/-- The `switch` pushes nothing for an unrecognized character. -/
theorem scanToken_unrecognized {c : Char} (h : unrecognized c = true) (lx : Lexer) :
    scanToken c lx = (none, lx) := by
  obtain ⟨_, h2, h3, h4, _, h6, h7, h8, h9⟩ := unrecognized_facts h
  rw [scanToken_default c lx h2 h3 h4]
  simp [h6, h7, h8, h9]

/-- The loop of `Lexer::tokenize` over a rest of the input that holds only
unrecognized characters: it runs to the end and pushes no token. -/
theorem tokenizeLoop_unrecognized (n : Nat) (lx : Lexer) (acc : List Token)
    (hn : lx.src.length - lx.pos ≤ n) (hle : lx.pos ≤ lx.src.length)
    (hu : ∀ i, lx.pos ≤ i → i < lx.src.length → unrecognized (lx.src.getD i '\x00') = true) :
    tokenizeLoop n lx acc =
      ({ lx with pos := lx.src.length,
                 column := lx.column + ((lx.src.length - lx.pos : Nat) : Int) }, acc) := by
  induction n generalizing lx with
  | zero =>
    have : lx.pos = lx.src.length := by omega
    cases lx
    simp only [tokenizeLoop, Prod.mk.injEq, Lexer.mk.injEq, and_true] at *
    subst this
    simp
  | succ n ih =>
    by_cases hend : lx.src.length ≤ lx.pos
    · have : lx.pos = lx.src.length := by omega
      have he : lx.isAtEnd = true := by simp [isAtEnd, hend]
      rw [tokenizeLoop_end _ _ _ he]
      cases lx
      simp only [Prod.mk.injEq, Lexer.mk.injEq, and_true] at *
      subst this
      simp
    · have he : lx.isAtEnd = false := by simp [isAtEnd, hend]
      have hpk : unrecognized lx.peek = true := by
        have := hu lx.pos (Nat.le_refl _) (by omega)
        simpa [peek, he] using this
      obtain ⟨h1, _, _, _, h5, _⟩ := unrecognized_facts hpk
      have hadv : lx.advance.1 = lx.peek := rfl
      rw [tokenizeLoop_succ n lx acc he h1 h5, hadv, scanToken_unrecognized hpk]
      simp only [Option.toList, List.append_nil]
      rw [ih]
      · cases lx
        simp only [advance, Prod.mk.injEq, Lexer.mk.injEq, true_and, and_true]
        simp only at hend
        omega
      · simp only [advance]; omega
      · simp only [advance]; omega
      · intro i h1 h2
        exact hu i (by simp only [advance] at h1; omega) (by simpa [advance] using h2)

end Lexer

/-- C26: unrecognized characters are dropped without a token. For every
source made up only of characters that are neither white space, punctuation
or operators, the quote, ASCII letters, digits nor the underscore, `tokenize`
returns the `END_OF_FILE` token alone; its column counts the dropped
characters. -/
theorem C26_unrecognized_bytes_are_dropped (s : String)
    (hs : ∀ c ∈ s.toList, unrecognized c = true) :
    tokenize s =
      [ { type := .END_OF_FILE, lexeme := "", line := 1, column := 1 + (s.length : Int) } ] := by
  have h := Lexer.tokenizeLoop_unrecognized s.toList.length { src := s.toList } [] (by simp)
    (by simp) (by
      intro i _ h2
      simp only at h2
      rw [List.getD_eq_getElem _ _ h2]
      exact hs _ (List.getElem_mem _))
  simp only [tokenize, Lexer.tokenize, Lexer.scan]
  rw [h]
  rfl

/-- The claim C26 at the source `$&|?~^`. -/
theorem C26_unrecognized_bytes_are_dropped_witness :
    tokenize "$&|?~^" =
      [ { type := .END_OF_FILE, lexeme := "", line := 1,
          column := 1 + ("$&|?~^".length : Int) } ] :=
  C26_unrecognized_bytes_are_dropped "$&|?~^" (by decide)

/-- C27 (counterexample): the string literal of the source `"a`, line break,
`b"` is given column 0. `stringLiteral` sets the column back to 1 at the line
break and `makeToken` then subtracts the length of the whole lexeme, which
counts the characters of both lines: the column is that of the closing line
minus the length of the lexeme. With `aaaa` on the first line the column is
negative. -/
theorem C27_multi_line_string_has_column_below_one :
    tokenize "\"a\nb\"" =
      [ { type := .STRING_LITERAL, lexeme := "a\nb\"", line := 2, column := 0 },
        { type := .END_OF_FILE, lexeme := "", line := 2, column := 4 } ] ∧
    tokenize "\"aaaa\nb\"" =
      [ { type := .STRING_LITERAL, lexeme := "aaaa\nb\"", line := 2, column := -3 },
        { type := .END_OF_FILE, lexeme := "", line := 2, column := 4 } ] := by
  decide

/-! ## Line and column of every token -/

namespace Lexer

theorem tracks_refl (lx : Lexer) (h : lx.pos ≤ lx.src.length) : Tracks lx lx := by
  refine ⟨rfl, rfl, Nat.le_refl _, h, ?_, ?_⟩
  · simp
  · intro idx h1 h2
    omega

theorem peek_eq (lx : Lexer) (hend : lx.isAtEnd = false) :
    lx.peek = lx.src.getD lx.pos '\x00' := by
  simp [peek, hend]

theorem tracks_advance {base r : Lexer} (h : Tracks base r) (hend : r.isAtEnd = false)
    (hpk : r.peek ≠ '\n') : Tracks base r.advance.2 := by
  obtain ⟨h1, h2, h3, h4, h5, h6⟩ := h
  rw [peek_eq r hend, h1] at hpk
  simp only [isAtEnd, decide_eq_false_iff_not, not_le, h1] at hend
  refine ⟨h1, h2, ?_, ?_, ?_, ?_⟩
  · simp only [advance_pos]; omega
  · simp only [advance_pos]; omega
  · simp only [Lexer.advance, h5]
    omega
  · intro idx hi1 hi2
    simp only [advance_pos] at hi2
    rcases Nat.eq_or_lt_of_le (Nat.le_of_lt_succ hi2) with h | h
    · rw [h]; exact hpk
    · exact h6 idx hi1 h

theorem tracks_advanceWhile {base : Lexer} (p : Char → Bool) (hp : p '\n' = false) (n : Nat) :
    ∀ {r : Lexer}, Tracks base r → Tracks base (advanceWhile p n r) := by
  induction n with
  | zero => intro r h; exact h
  | succ n ih =>
    intro r h
    simp only [Lexer.advanceWhile]
    split
    · next hc =>
      simp only [Bool.and_eq_true, Bool.not_eq_true_eq_eq_false] at hc
      refine ih (tracks_advance h hc.1 ?_)
      intro heq
      rw [heq, hp] at hc
      exact absurd hc.2 (by decide)
    · exact h

theorem substr_length (lx : Lexer) (start len : Nat) (h : start + len ≤ lx.src.length) :
    (lx.substr start len).length = len := by
  simp only [substr, String.length, List.length_take, List.length_drop]
  omega

/-- The characters of a lexeme after its first one are characters of the
source after the start. -/
theorem substr_mem_tail (lx : Lexer) (start len idx : Nat) (h1 : start + 1 ≤ idx)
    (h2 : idx < start + len) (h3 : idx < lx.src.length) :
    lx.src.getD idx '\x00' ∈ (lx.substr start len).toList.tail := by
  have hget : (((lx.src.drop start).take len).drop 1)[idx - start - 1]? =
      some (lx.src.getD idx '\x00') := by
    rw [List.getElem?_drop, List.getElem?_take_of_lt (by omega), List.getElem?_drop]
    have : start + (1 + (idx - start - 1)) = idx := by omega
    rw [this, List.getD_eq_getElem?_getD, List.getElem?_eq_getElem h3]
    rfl
  have hmem := List.mem_iff_getElem?.2 ⟨_, hget⟩
  rw [List.drop_one] at hmem
  exact hmem

/-- Every character of a lexeme after its first one is a character of the
source after the start. -/
theorem index_of_mem_tail (lx : Lexer) (start len : Nat) (c : Char)
    (h : c ∈ (lx.substr start len).toList.tail) :
    ∃ idx, start + 1 ≤ idx ∧ idx < start + len ∧ idx < lx.src.length ∧
      lx.src.getD idx '\x00' = c := by
  have h1 : c ∈ ((lx.src.drop start).take len).drop 1 := by
    rw [List.drop_one]; exact h
  obtain ⟨i, hi⟩ := List.mem_iff_getElem?.1 h1
  rw [List.getElem?_drop] at hi
  have hlt : 1 + i < len := by
    by_contra hge
    rw [List.getElem?_take_eq_none (by omega)] at hi
    exact absurd hi (by simp)
  rw [List.getElem?_take_of_lt hlt, List.getElem?_drop] at hi
  have hlen : start + (1 + i) < lx.src.length := by
    by_contra hge
    rw [List.getElem?_eq_none (by omega)] at hi
    exact absurd hi (by simp)
  refine ⟨start + (1 + i), by omega, by omega, hlen, ?_⟩
  rw [List.getD_eq_getElem?_getD, hi]
  rfl

/-- A token closed at `r` whose lexeme started at `start`, not after `base`. -/
theorem makeToken_tracks {base r : Lexer} (h : Tracks base r) (start : Nat)
    (hstart : start ≤ base.pos) (ty : TokenType) :
    (r.makeToken ty (r.substr start (r.pos - start))).line = base.line ∧
      (r.makeToken ty (r.substr start (r.pos - start))).column =
        base.column - ((base.pos - start : Nat) : Int) := by
  obtain ⟨h1, h2, h3, h4, h5, _⟩ := h
  refine ⟨h2, ?_⟩
  simp only [makeToken]
  rw [substr_length r start (r.pos - start) (by rw [h1]; omega), h5]
  omega

/-- The lexeme of such a token holds no line break after its first
character when it starts at most one character before `base`. -/
theorem lexeme_tracks {base r : Lexer} (h : Tracks base r) (start : Nat)
    (hnear : base.pos ≤ start + 1) :
    '\n' ∉ (r.substr start (r.pos - start)).toList.tail := by
  intro hmem
  obtain ⟨idx, h1, h2, _, h4⟩ := index_of_mem_tail r start (r.pos - start) '\n' hmem
  rw [h.1] at h4
  exact h.2.2.2.2.2 idx (by omega) (by omega) h4

theorem placed_of_tracks {base r : Lexer} (h : Tracks base r) (hb : base.Placed) : r.Placed := by
  obtain ⟨h1, h2, h3, h4, h5, _⟩ := h
  exact ⟨by rw [h2]; exact hb.1, by rw [h5]; have := hb.2; omega⟩

theorem skipWhitespaceLoop_placed (n : Nat) (lx : Lexer) (h : lx.Placed) :
    (skipWhitespaceLoop n lx).Placed := by
  induction n generalizing lx with
  | zero => exact h
  | succ n ih =>
    simp only [skipWhitespaceLoop]
    split
    · exact h
    · split
      · exact ih _ ⟨h.1, by simp only [Lexer.advance]; have := h.2; omega⟩
      · split
        · exact ih _ ⟨by simp only [Lexer.advance]; have := h.1; omega, Int.le_refl _⟩
        · exact h

theorem advanceWhile_placed (p : Char → Bool) (n : Nat) (lx : Lexer) (h : lx.Placed) :
    (advanceWhile p n lx).Placed := by
  induction n generalizing lx with
  | zero => exact h
  | succ n ih =>
    simp only [Lexer.advanceWhile]
    split
    · exact ih _ ⟨h.1, by simp only [Lexer.advance]; have := h.2; omega⟩
    · exact h

theorem skipComment_placed (lx : Lexer) (h : lx.Placed) : lx.skipComment.Placed := by
  unfold skipComment
  split
  · exact advanceWhile_placed _ _ lx h
  · exact h

theorem stringLoop_placed (n : Nat) (lx : Lexer) (h : lx.Placed) :
    (stringLoop n lx).Placed := by
  induction n generalizing lx with
  | zero => exact h
  | succ n ih =>
    simp only [stringLoop]
    split
    · refine ih _ ?_
      split
      · exact ⟨by simp only [Lexer.advance]; have := h.1; omega, by simp [Lexer.advance]⟩
      · exact ⟨h.1, by simp only [Lexer.advance]; have := h.2; omega⟩
    · exact h

/-- The loop of `Lexer::stringLiteral` keeps the column in step with the
position as long as it meets no line break. -/
theorem stringLoop_tracks {base : Lexer} (n : Nat) :
    ∀ {r : Lexer}, Tracks base r → (stringLoop n r).pos ≤ base.src.length →
      (∀ idx, r.pos ≤ idx → idx < (stringLoop n r).pos → base.src.getD idx '\x00' ≠ '\n') →
      Tracks base (stringLoop n r) := by
  induction n with
  | zero => intro r h _ _; exact h
  | succ n ih =>
    intro r h hlen hno
    simp only [stringLoop] at hlen hno ⊢
    split
    · next hc =>
      rw [if_pos hc] at hlen hno
      simp only [Bool.and_eq_true, Bool.not_eq_true_eq_eq_false] at hc
      have hend := hc.1
      have hpk : r.peek ≠ '\n' := by
        have hle := stringLoop_pos n
          (if r.peek = '\n' then { r with line := r.line + 1, column := 1 } else r).advance.2
        have hp : (if r.peek = '\n' then { r with line := r.line + 1, column := 1 }
            else r).advance.2.pos = r.pos + 1 := by
          split <;> rfl
        rw [hp] at hle
        have := hno r.pos (Nat.le_refl _) (by omega)
        simpa [Lexer.peek, hend, h.1] using this
      rw [if_neg hpk] at hlen hno ⊢
      refine ih (tracks_advance h hend hpk) hlen ?_
      intro idx h1 h2
      exact hno idx (by simp only [advance_pos] at h1; omega) h2
    · exact h

/-- The loop of `Lexer::stringLiteral` never moves the column on by more
than the position. -/
theorem stringLoop_column_le (n : Nat) :
    ∀ (r : Lexer), 1 ≤ r.column →
      (stringLoop n r).column ≤ r.column + (((stringLoop n r).pos - r.pos : Nat) : Int) := by
  induction n with
  | zero => intro r _; simp [stringLoop]
  | succ n ih =>
    intro r hc
    simp only [stringLoop]
    split
    · by_cases hpk : r.peek = '\n'
      · rw [if_pos hpk]
        have h1 := ih ({ r with line := r.line + 1, column := 1 } : Lexer).advance.2
          (by simp [Lexer.advance])
        have h2 := stringLoop_pos n ({ r with line := r.line + 1, column := 1 } : Lexer).advance.2
        simp only [Lexer.advance] at h1 h2 ⊢
        omega
      · rw [if_neg hpk]
        have h1 := ih r.advance.2 (by simp only [Lexer.advance]; omega)
        have h2 := stringLoop_pos n r.advance.2
        simp only [Lexer.advance] at h1 h2 ⊢
        omega
    · simp

/-- After a line break at the index `q` that the loop of
`Lexer::stringLiteral` has passed, the column is at most the distance from
`q`. -/
theorem stringLoop_newline (n : Nat) :
    ∀ (r : Lexer) (q : Nat), 1 ≤ r.column → r.pos ≤ q → q < (stringLoop n r).pos →
      r.src.getD q '\x00' = '\n' →
      (stringLoop n r).column ≤ (((stringLoop n r).pos - q : Nat) : Int) + 1 := by
  induction n with
  | zero => intro r q _ h1 h2 _; simp only [stringLoop] at h2; omega
  | succ n ih =>
    intro r q hc h1 h2 hq
    simp only [stringLoop] at h2 ⊢
    split
    · next hcond =>
      rw [if_pos hcond] at h2
      simp only [Bool.and_eq_true, Bool.not_eq_true_eq_eq_false] at hcond
      rcases Nat.eq_or_lt_of_le h1 with h | h
      · have hpk : r.peek = '\n' := by rw [peek_eq r hcond.1, h]; exact hq
        rw [if_pos hpk] at h2 ⊢
        have h3 := stringLoop_column_le n
          ({ r with line := r.line + 1, column := 1 } : Lexer).advance.2
          (by simp [Lexer.advance])
        have h4 := stringLoop_pos n ({ r with line := r.line + 1, column := 1 } : Lexer).advance.2
        simp only [Lexer.advance] at h3 h4 h2 ⊢
        omega
      · by_cases hpk : r.peek = '\n'
        · rw [if_pos hpk] at h2 ⊢
          exact ih _ q (by simp [Lexer.advance]) (by simp only [Lexer.advance]; omega) h2 hq
        · rw [if_neg hpk] at h2 ⊢
          exact ih _ q (by simp only [Lexer.advance]; omega)
            (by simp only [Lexer.advance]; omega) h2 hq
    · next hcond =>
      rw [if_neg hcond] at h2
      omega

/-- With a budget that covers the input, the loop of `Lexer::stringLiteral`
stops at the end of the input or on a quote. -/
theorem stringLoop_stops (n : Nat) :
    ∀ (r : Lexer), r.src.length - r.pos ≤ n →
      (stringLoop n r).isAtEnd = true ∨ (stringLoop n r).peek = '"' := by
  induction n with
  | zero =>
    intro r h
    left
    simp only [stringLoop, isAtEnd, decide_eq_true_eq]
    omega
  | succ n ih =>
    intro r h
    simp only [stringLoop]
    split
    · refine ih _ ?_
      have hs : (if r.peek = '\n' then { r with line := r.line + 1, column := 1 }
          else r).advance.2.src = r.src := by split <;> rfl
      have hp : (if r.peek = '\n' then { r with line := r.line + 1, column := 1 }
          else r).advance.2.pos = r.pos + 1 := by split <;> rfl
      rw [hs, hp]
      omega
    · next hcond =>
      by_cases hend : r.isAtEnd = true
      · exact Or.inl hend
      · right
        simp only [Bool.and_eq_true, Bool.not_eq_true_eq_eq_false, not_and] at hcond
        have := hcond (by simpa using hend)
        simpa using this

theorem placed_of_both {t : Token} (hl : 1 ≤ t.line) (hc : 1 ≤ t.column)
    (hn : '\n' ∉ t.lexeme.toList.tail) : t.Placed :=
  ⟨hl, fun _ => hn, fun _ => hc⟩

/-- A token made of the characters from `start` up to the lexer `r`, reached
from `base` on one line, is placed when `base` leaves room for the characters
before it, of which there is at most one. -/
theorem scanPlaced_tracks {base r : Lexer} (h : Tracks base r) (hb : base.Placed)
    (start : Nat) (hstart : start ≤ base.pos) (hnear : base.pos ≤ start + 1)
    (hroom : 1 + ((base.pos - start : Nat) : Int) ≤ base.column) (ty : TokenType) :
    ScanPlaced (some (r.makeToken ty (r.substr start (r.pos - start))), r) := by
  refine ⟨placed_of_tracks h hb, ?_⟩
  intro t ht
  simp only [Option.some.injEq] at ht
  subst ht
  obtain ⟨h1, h2⟩ := makeToken_tracks h start hstart ty
  exact placed_of_both (by rw [h1]; exact hb.1) (by rw [h2]; omega) (lexeme_tracks h start hnear)

theorem scanPlaced_simple (a : Lexer) (hl : 1 ≤ a.line) (hc : 2 ≤ a.column) (ty : TokenType)
    (s : String) (hs : s.length ≤ 1) (hn : '\n' ∉ s.toList.tail) :
    ScanPlaced (some (a.makeToken ty s), a) := by
  refine ⟨⟨hl, Int.le_trans (by decide) hc⟩, ?_⟩
  intro t ht
  simp only [Option.some.injEq] at ht
  subst ht
  exact placed_of_both hl (by simp only [makeToken]; omega) hn

theorem scanPlaced_twoChar (a : Lexer) (hl : 1 ≤ a.line) (hc : 2 ≤ a.column) (second : Char)
    (long short : TokenType) (ll sl : String) (h2 : ll.length ≤ 2) (h1 : sl.length ≤ 1)
    (hln : '\n' ∉ ll.toList.tail) (hsn : '\n' ∉ sl.toList.tail) :
    ScanPlaced (twoChar a second long ll short sl) := by
  unfold twoChar matchChar
  simp only
  split
  · exact scanPlaced_simple a hl hc short sl h1 hsn
  · split
    · exact scanPlaced_simple a hl hc short sl h1 hsn
    · rw [if_pos rfl]
      refine ⟨⟨hl, ?_⟩, ?_⟩
      · show 1 ≤ a.column + 1
        omega
      · intro t ht
        simp only [Option.some.injEq] at ht
        subst ht
        exact placed_of_both hl (by simp only [makeToken]; omega) hln

theorem scanPlaced_identifier (b : Lexer) (hb : b.Placed) (hpos : b.pos ≤ b.src.length) :
    ScanPlaced (some b.identifier.1, b.identifier.2) := by
  have ht := tracks_advanceWhile (fun c => isalnum c || c == '_') (by decide)
    (b.src.length - b.pos) (tracks_refl b hpos)
  have key := fun ty => scanPlaced_tracks ht hb b.pos (Nat.le_refl _) (Nat.le_succ _)
    (by simp only [Nat.sub_self, Nat.cast_zero, add_zero]; exact hb.2) ty
  unfold identifier
  simp only
  split
  · exact key _
  · exact key _

theorem scanPlaced_number (b : Lexer) (hb : b.Placed) (hpos : b.pos ≤ b.src.length) :
    ScanPlaced (some b.number.1, b.number.2) := by
  have ht := tracks_advanceWhile isdigit (by decide) (b.src.length - b.pos) (tracks_refl b hpos)
  have hroom : 1 + ((b.pos - b.pos : Nat) : Int) ≤ b.column := by
    simp only [Nat.sub_self, Nat.cast_zero, add_zero]; exact hb.2
  unfold number
  simp only
  split
  · next hc =>
    simp only [Bool.and_eq_true, Bool.not_eq_true_eq_eq_false, beq_iff_eq] at hc
    exact scanPlaced_tracks
      (tracks_advanceWhile isdigit (by decide) _
        (tracks_advance ht hc.1 (by rw [hc.2]; decide))) hb b.pos
      (Nat.le_refl _) (Nat.le_succ _) hroom _
  · exact scanPlaced_tracks ht hb b.pos (Nat.le_refl _) (Nat.le_succ _) hroom _

/-- The literal `0b...`, entered on the `b` after the `0` has been
consumed. -/
theorem scanPlaced_binLiteral (a : Lexer) (hl : 1 ≤ a.line) (hc : 2 ≤ a.column)
    (h1 : 1 ≤ a.pos) (hpos : a.pos ≤ a.src.length) (hend : a.isAtEnd = false)
    (hpk : a.peek ≠ '\n') :
    ScanPlaced (some a.advance.2.binLiteral.1, a.advance.2.binLiteral.2) := by
  have ht := tracks_advanceWhile (fun c => c == '0' || c == '1') (by decide)
    (a.advance.2.src.length - a.advance.2.pos) (tracks_advance (tracks_refl a hpos) hend hpk)
  have hp : a.advance.2.pos = a.pos + 1 := rfl
  exact scanPlaced_tracks ht ⟨hl, by omega⟩ (a.advance.2.pos - 2) (by omega) (by omega)
    (by omega) _

/-- The literal `0x...`, entered on the `x` after the `0` has been
consumed. -/
theorem scanPlaced_hexLiteral (a : Lexer) (hl : 1 ≤ a.line) (hc : 2 ≤ a.column)
    (h1 : 1 ≤ a.pos) (hpos : a.pos ≤ a.src.length) (hend : a.isAtEnd = false)
    (hpk : a.peek ≠ '\n') :
    ScanPlaced (some a.advance.2.hexLiteral.1, a.advance.2.hexLiteral.2) := by
  have ht := tracks_advanceWhile isxdigit (by decide)
    (a.advance.2.src.length - a.advance.2.pos) (tracks_advance (tracks_refl a hpos) hend hpk)
  have hp : a.advance.2.pos = a.pos + 1 := rfl
  exact scanPlaced_tracks ht ⟨hl, by omega⟩ (a.advance.2.pos - 2) (by omega) (by omega)
    (by omega) _

theorem advance_placed (lx : Lexer) (h : lx.Placed) : lx.advance.2.Placed :=
  ⟨h.1, Int.le_trans h.2 (Int.le_add_of_nonneg_right (by decide))⟩

/-- The string literal: the line is at least 1 in every case. The column is
at least 1 when the literal is unterminated (its lexeme is empty); when it is
terminated, the column is at least 1 exactly when the lexeme holds no line
break after its first character (the first character is consumed without the
test for a line break). -/
theorem scanPlaced_stringLiteral (a : Lexer) (ha : a.Placed) (hpos : a.pos ≤ a.src.length) :
    ScanPlaced (some a.stringLiteral.1, a.stringLiteral.2) := by
  have hp1 := advance_placed a ha
  have hp2 := stringLoop_placed (a.advance.2.src.length - a.advance.2.pos) a.advance.2 hp1
  have hs2 : (stringLoop (a.advance.2.src.length - a.advance.2.pos) a.advance.2).src = a.src :=
    stringLoop_src _ _
  have hq2 : a.pos + 1 ≤ (stringLoop (a.advance.2.src.length - a.advance.2.pos) a.advance.2).pos :=
    stringLoop_pos _ a.advance.2
  have hstop := stringLoop_stops (a.advance.2.src.length - a.advance.2.pos) a.advance.2
    (Nat.le_refl _)
  have hcol := stringLoop_column_le (a.advance.2.src.length - a.advance.2.pos) a.advance.2 hp1.2
  have hnl : ∀ q, a.pos + 1 ≤ q →
      q < (stringLoop (a.advance.2.src.length - a.advance.2.pos) a.advance.2).pos →
      a.src.getD q '\x00' = '\n' →
      (stringLoop (a.advance.2.src.length - a.advance.2.pos) a.advance.2).column ≤
        (((stringLoop (a.advance.2.src.length - a.advance.2.pos) a.advance.2).pos - q : Nat)
          : Int) + 1 :=
    fun q h1 h2 h3 => stringLoop_newline _ a.advance.2 q hp1.2 h1 h2 h3
  have htr : a.pos + 1 ≤ a.src.length →
      (stringLoop (a.advance.2.src.length - a.advance.2.pos) a.advance.2).pos ≤ a.src.length →
      (∀ idx, a.pos + 1 ≤ idx →
        idx < (stringLoop (a.advance.2.src.length - a.advance.2.pos) a.advance.2).pos →
        a.src.getD idx '\x00' ≠ '\n') →
      (stringLoop (a.advance.2.src.length - a.advance.2.pos) a.advance.2).column =
        a.column + (((stringLoop (a.advance.2.src.length - a.advance.2.pos) a.advance.2).pos
          - a.pos : Nat) : Int) := by
    intro h1 h2 h3
    have hend1 : a.isAtEnd = false := by
      simp only [isAtEnd, decide_eq_false_iff_not, not_le]; omega
    have base : Tracks a.advance.2 a.advance.2 := tracks_refl a.advance.2 h1
    have := (stringLoop_tracks _ base h2 h3).2.2.2.2.1
    rw [this]
    have hq := hq2
    simp only [Lexer.advance] at hq ⊢
    omega
  have heq : a.stringLiteral =
      if (stringLoop (a.advance.2.src.length - a.advance.2.pos) a.advance.2).isAtEnd then
        ((stringLoop (a.advance.2.src.length - a.advance.2.pos) a.advance.2).makeToken
          .STRING_LITERAL "",
          stringLoop (a.advance.2.src.length - a.advance.2.pos) a.advance.2)
      else
        ((stringLoop (a.advance.2.src.length - a.advance.2.pos) a.advance.2).advance.2.makeToken
          .STRING_LITERAL
            ((stringLoop (a.advance.2.src.length - a.advance.2.pos) a.advance.2).advance.2.substr
              a.pos ((stringLoop (a.advance.2.src.length - a.advance.2.pos)
                a.advance.2).advance.2.pos - a.pos)),
          (stringLoop (a.advance.2.src.length - a.advance.2.pos) a.advance.2).advance.2) := rfl
  rw [heq]
  generalize stringLoop (a.advance.2.src.length - a.advance.2.pos) a.advance.2 = r
    at hp2 hs2 hq2 hstop hcol hnl htr
  by_cases hend : r.isAtEnd = true
  · rw [if_pos hend]
    refine ⟨hp2, ?_⟩
    intro t ht
    simp only [Option.some.injEq] at ht
    subst ht
    refine placed_of_both hp2.1 ?_ (by simp [makeToken])
    simp only [makeToken, String.length, List.length_nil, Nat.cast_zero, sub_zero]
    exact hp2.2
  · rw [if_neg hend]
    have hend2 : r.isAtEnd = false := by simpa using hend
    have hlt : r.pos < a.src.length := by
      simpa [isAtEnd, hs2] using hend2
    have hquote : a.src.getD r.pos '\x00' = '"' := by
      rcases hstop with h | h
      · exact absurd h hend
      · rw [peek_eq r hend2, hs2] at h
        exact h
    refine ⟨advance_placed r hp2, ?_⟩
    intro t ht
    simp only [Option.some.injEq] at ht
    subst ht
    have hlex : (r.advance.2.substr a.pos (r.advance.2.pos - a.pos)).length =
        r.pos + 1 - a.pos :=
      substr_length r.advance.2 a.pos _ (by rw [advance_src, hs2, advance_pos]; omega)
    have hcolumn : (r.advance.2.makeToken TokenType.STRING_LITERAL
        (r.advance.2.substr a.pos (r.advance.2.pos - a.pos))).column =
        r.column + 1 - ((r.pos + 1 - a.pos : Nat) : Int) := by
      simp only [makeToken]
      rw [hlex]
      rfl
    refine ⟨(advance_placed r hp2).1, ?_⟩
    rw [hcolumn]
    constructor
    · intro hge hmem
      obtain ⟨q, h1, h2, _, h4⟩ := index_of_mem_tail r.advance.2 a.pos
        (r.advance.2.pos - a.pos) '\n' hmem
      rw [advance_src, hs2] at h4
      rw [advance_pos] at h2
      have hq : q < r.pos := by
        rcases Nat.lt_or_ge q r.pos with h | h
        · exact h
        · have : q = r.pos := by omega
          rw [this, hquote] at h4
          exact absurd h4 (by decide)
      have := hnl q h1 hq h4
      omega
    · intro hno
      have hfree : ∀ idx, a.pos + 1 ≤ idx → idx < r.pos → a.src.getD idx '\x00' ≠ '\n' := by
        intro idx h1 h2 heq1
        apply hno
        have hm := substr_mem_tail r.advance.2 a.pos (r.advance.2.pos - a.pos) idx h1
          (by rw [advance_pos]; omega) (by rw [advance_src, hs2]; omega)
        rw [advance_src, hs2, heq1] at hm
        exact hm
      have := htr (by omega) (by omega) hfree
      have := ha.2
      omega

theorem scanPlaced_ite {c : Prop} [Decidable c] {a b : Option Token × Lexer}
    (ha : c → ScanPlaced a) (hb : ¬c → ScanPlaced b) : ScanPlaced (if c then a else b) := by
  by_cases h : c
  · rw [if_pos h]; exact ha h
  · rw [if_neg h]; exact hb h

/-- One pass through the `switch` of `Lexer::tokenize`, entered away from the
end of the input on a placed lexer, leaves a placed lexer and pushes a placed
token. -/
theorem scanToken_placed (lx : Lexer) (hend : lx.isAtEnd = false) (hp : lx.Placed) :
    ScanPlaced (scanToken lx.advance.1 lx.advance.2) := by
  have hlen : lx.pos < lx.src.length := by
    simpa [isAtEnd] using hend
  have hl : 1 ≤ lx.advance.2.line := hp.1
  have hc : 2 ≤ lx.advance.2.column := by
    simp only [Lexer.advance]; have := hp.2; omega
  have hpos : lx.advance.2.pos ≤ lx.advance.2.src.length := by
    simp only [advance_pos, advance_src]; omega
  have hback : ({ lx.advance.2 with
      pos := lx.advance.2.pos - 1, column := lx.advance.2.column - 1 } : Lexer) = lx := by
    cases lx
    simp [Lexer.advance]
  unfold scanToken
  iterate 13
    refine scanPlaced_ite
      (fun _ => scanPlaced_simple _ hl hc _ _ (by decide) (by decide)) (fun _ => ?_)
  refine scanPlaced_ite
    (fun _ => scanPlaced_twoChar _ hl hc _ _ _ _ _ (by decide) (by decide) (by decide)
      (by decide)) (fun _ => ?_)
  iterate 3
    refine scanPlaced_ite
      (fun _ => scanPlaced_simple _ hl hc _ _ (by decide) (by decide)) (fun _ => ?_)
  iterate 4
    refine scanPlaced_ite
      (fun _ => scanPlaced_twoChar _ hl hc _ _ _ _ _ (by decide) (by decide) (by decide)
        (by decide)) (fun _ => ?_)
  refine scanPlaced_ite (fun _ => ?_) (fun _ => ?_)
  · exact scanPlaced_stringLiteral _ ⟨hl, by omega⟩ hpos
  refine scanPlaced_ite (fun _ => ?_) (fun _ => ?_)
  · refine scanPlaced_ite (fun hb => ?_) (fun _ => scanPlaced_ite (fun hx => ?_) (fun _ => ?_))
    · simp only [Bool.and_eq_true, Bool.not_eq_true_eq_eq_false, beq_iff_eq] at hb
      exact scanPlaced_binLiteral _ hl hc (by simp only [advance_pos]; omega) hpos hb.1
        (by rw [hb.2]; decide)
    · simp only [Bool.and_eq_true, Bool.not_eq_true_eq_eq_false, beq_iff_eq] at hx
      exact scanPlaced_hexLiteral _ hl hc (by simp only [advance_pos]; omega) hpos hx.1
        (by rw [hx.2]; decide)
    · exact scanPlaced_number _ ⟨hl, by omega⟩ hpos
  refine scanPlaced_ite (fun _ => ?_) (fun _ => scanPlaced_ite (fun _ => ?_) (fun _ => ?_))
  · rw [hback]
    exact scanPlaced_identifier lx hp (Nat.le_of_lt hlen)
  · rw [hback]
    exact scanPlaced_number lx hp (Nat.le_of_lt hlen)
  · exact ⟨⟨hl, Int.le_trans (by decide) hc⟩, by intro t ht; simp at ht⟩

theorem tokenizeLoop_placed (n : Nat) (lx : Lexer) (tokens : List Token) (hp : lx.Placed)
    (ht : ∀ t ∈ tokens, t.Placed) :
    (tokenizeLoop n lx tokens).1.Placed ∧ ∀ t ∈ (tokenizeLoop n lx tokens).2, t.Placed := by
  induction n generalizing lx tokens with
  | zero => exact ⟨hp, ht⟩
  | succ n ih =>
    simp only [tokenizeLoop]
    split
    · exact ⟨hp, ht⟩
    · have hp3 : lx.skipWhitespace.skipComment.skipWhitespace.Placed :=
        skipWhitespaceLoop_placed _ _
          (skipComment_placed _ (skipWhitespaceLoop_placed _ _ hp))
      split
      · exact ⟨hp3, ht⟩
      · next hend =>
        have hs := scanToken_placed lx.skipWhitespace.skipComment.skipWhitespace
          (by simpa using hend) hp3
        split
        · next t heq =>
          refine ih _ _ hs.1 ?_
          intro u hu
          rcases List.mem_append.1 hu with h | h
          · exact ht u h
          · simp only [List.mem_singleton] at h
            subst h
            exact hs.2 _ heq
        · exact ih _ _ hs.1 ht

/-- Every token of `Lexer::tokenize` started on line 1, column 1 is placed. -/
theorem tokenize_placed (lx : Lexer) (hp : lx.Placed) : ∀ t ∈ lx.tokenize, t.Placed := by
  intro t ht
  have h := tokenizeLoop_placed lx.src.length lx [] hp (by simp)
  simp only [Lexer.tokenize, scan, List.mem_append, List.mem_singleton] at ht
  rcases ht with ht | ht
  · exact h.2 t ht
  · subst ht
    exact placed_of_both h.1.1 h.1.2 (by simp)

end Lexer

/-- Claim C27, amended. For every source string, every token returned by
`tokenize` has line at least 1, and it has column at least 1 exactly when its
lexeme holds no line break after its first character: every token but a
string literal that goes on over a line break. -/
theorem C27_tokens_are_placed_on_their_line (source : String) (t : Token)
    (h : t ∈ tokenize source) :
    1 ≤ t.line ∧ (1 ≤ t.column ↔ '\n' ∉ t.lexeme.toList.tail) :=
  Lexer.tokenize_placed { src := source.toList } ⟨Int.le_refl _, Int.le_refl _⟩ t h

/-- Claim C27, amended: the theorem at the one-line string literal of
`x = "ab";`, whose lexeme leaves the opening quote out and starts in
column 6. -/
theorem C27_tokens_are_placed_on_their_line_witness :
    ({ type := .STRING_LITERAL, lexeme := "ab\"", line := 1, column := 6 } : Token) ∈
        tokenize "x = \"ab\";" ∧
      (1 ≤ (1 : Int) ∧ (1 ≤ (6 : Int) ↔ '\n' ∉ "ab\"".toList.tail)) :=
  ⟨by decide, C27_tokens_are_placed_on_their_line "x = \"ab\";"
    { type := .STRING_LITERAL, lexeme := "ab\"", line := 1, column := 6 } (by decide)⟩

/-! ## The results of the expression productions -/

namespace Parser

section Results

theorem yields_bind {α β : Type} {p : P α} {f : α → P β} {Q : α → Prop} {R : β → Prop}
    (hp : Yields p Q) (hf : ∀ a, Q a → Yields (f a) R) : Yields (p >>= f) R := by
  intro st b st2 h
  rw [bind_apply] at h
  cases hx : p st with
  | ok a st1 =>
    rw [hx] at h
    exact hf a (hp st a st1 hx) st1 b st2 h
  | outOfBounds => rw [hx] at h; cases h
  | outOfFuel => rw [hx] at h; cases h

theorem yields_pure {α : Type} {a : α} {Q : α → Prop} (hq : Q a) :
    Yields (Pure.pure a : P α) Q := by
  intro st b st1 h
  rw [pure_apply] at h
  cases h
  exact hq

theorem yields_ite {α : Type} {c : Prop} [Decidable c] {p q : P α} {Q : α → Prop}
    (hp : Yields p Q) (hq : Yields q Q) : Yields (if c then p else q) Q := by
  by_cases h : c
  · rw [if_pos h]; exact hp
  · rw [if_neg h]; exact hq

theorem yields_any {α : Type} (p : P α) : Yields p (fun _ => True) :=
  fun _ _ _ _ => trivial

theorem yields_outOfFuel {α : Type} {Q : α → Prop} : Yields (Parser.outOfFuel : P α) Q := by
  intro st a st1 h
  cases h

theorem fullPtr_binary {l r : ExprPtr} (op : String) (hl : fullPtr l = true)
    (hr : fullPtr r = true) : fullPtr (some (Expr.Binary l op r)) = true := by
  cases l with
  | none => simp [fullPtr] at hl
  | some x =>
    cases r with
    | none => simp [fullPtr] at hr
    | some y =>
      simp only [fullPtr] at hl hr
      simp [fullPtr, Expr.full, hl, hr]

theorem fullPtr_unary {r : ExprPtr} (op : String) (hr : fullPtr r = true) :
    fullPtr (some (Expr.Unary op r)) = true := by
  cases r with
  | none => simp [fullPtr] at hr
  | some y =>
    simp only [fullPtr] at hr
    simp [fullPtr, Expr.full, hr]

theorem fullArgs_append {args : List ExprPtr} {e : ExprPtr} (ha : Expr.fullArgs args = true)
    (he : fullPtr e = true) : Expr.fullArgs (args ++ [e]) = true := by
  induction args with
  | nil =>
    cases e with
    | none => simp [fullPtr] at he
    | some x =>
      simp only [fullPtr] at he
      simp [Expr.fullArgs, he]
  | cons a rest ih =>
    cases a with
    | none => simp [Expr.fullArgs] at ha
    | some x =>
      simp only [Expr.fullArgs, Bool.and_eq_true] at ha
      simp [Expr.fullArgs, ha.1, ih ha.2]

theorem fullPtr_call {name : String} {args : List ExprPtr} (ha : Expr.fullArgs args = true) :
    fullPtr (some (Expr.Call (some (Expr.Identifier name)) args)) = true := by
  simp [fullPtr, Expr.full, ha]

theorem exprFull_zero : ExprFull 0 := by
  constructor <;> intros <;> exact yields_outOfFuel

/-- The shape shared by the loops of the binary levels. -/
theorem yields_binaryLoop {cond : P Bool} {operand : P ExprPtr} {loop : ExprPtr → P ExprPtr}
    {mk : Token → String} {expr : ExprPtr} (he : fullPtr expr = true)
    (hoperand : Yields operand (fun e => fullPtr e = true))
    (hloop : ∀ e, fullPtr e = true → Yields (loop e) (fun e => fullPtr e = true)) :
    Yields (do
      if (← cond) then
        let prev ← previous
        let right ← operand
        loop (some (Expr.Binary expr (mk prev) right))
      else Pure.pure expr) (fun e => fullPtr e = true) := by
  refine yields_bind (yields_any cond) (fun b _ => ?_)
  refine yields_ite ?_ (yields_pure he)
  refine yields_bind (yields_any previous) (fun prev _ => ?_)
  refine yields_bind hoperand (fun right hr => ?_)
  exact hloop _ (fullPtr_binary _ he hr)

theorem yields_binaryLevel {operand : P ExprPtr} {loop : ExprPtr → P ExprPtr}
    (hoperand : Yields operand (fun e => fullPtr e = true))
    (hloop : ∀ e, fullPtr e = true → Yields (loop e) (fun e => fullPtr e = true)) :
    Yields (operand >>= loop) (fun e => fullPtr e = true) :=
  yields_bind hoperand (fun e he => hloop e he)

theorem yields_parsePrimary {n : Nat} (ih : ExprFull n) :
    Yields (parsePrimary (n + 1)) (fun e => fullPtr e = true) := by
  simp only [parsePrimary]
  refine yields_bind (yields_any _) (fun b _ => ?_)
  refine yields_ite ?_ ?_
  · refine yields_bind (yields_any _) (fun prev _ => ?_)
    exact yields_pure (by simp [fullPtr, Expr.full])
  · refine yields_bind (yields_any _) (fun b2 _ => ?_)
    refine yields_ite ?_ ?_
    · refine yields_bind (yields_any _) (fun prev _ => ?_)
      refine yields_bind (yields_any _) (fun b3 _ => ?_)
      refine yields_ite ?_ (yields_pure (by simp [fullPtr, Expr.full]))
      refine yields_bind (Q := fun l => Expr.fullArgs l = true) ?_ (fun args ha => ?_)
      · refine yields_bind (yields_any _) (fun b4 _ => ?_)
        refine yields_ite (ih.callArgs [] (by simp [Expr.fullArgs])) ?_
        exact yields_pure (by simp [Expr.fullArgs])
      · refine yields_bind (yields_any _) (fun _ _ => ?_)
        exact yields_pure (fullPtr_call ha)
    · refine yields_bind (yields_any _) (fun b3 _ => ?_)
      refine yields_ite ?_ ?_
      · refine yields_bind ih.expression (fun e he => ?_)
        refine yields_bind (yields_any _) (fun _ _ => ?_)
        exact yields_pure he
      · refine yields_bind (yields_any _) (fun t _ => ?_)
        refine yields_bind (yields_any _) (fun _ _ => ?_)
        refine yields_bind (yields_any _) (fun _ _ => ?_)
        exact yields_pure (by simp [fullPtr, Expr.full])

theorem yields_parseUnary {n : Nat} (ih : ExprFull n) :
    Yields (parseUnary (n + 1)) (fun e => fullPtr e = true) := by
  simp only [parseUnary]
  refine yields_bind (yields_any _) (fun b _ => ?_)
  refine yields_ite ?_ ih.primary
  refine yields_bind (yields_any _) (fun prev _ => ?_)
  refine yields_bind ih.unary (fun r hr => ?_)
  exact yields_pure (fullPtr_unary _ hr)

theorem yields_parseAssignment {n : Nat} (ih : ExprFull n) :
    Yields (parseAssignment (n + 1)) (fun e => fullPtr e = true) := by
  simp only [parseAssignment]
  refine yields_bind ih.or (fun left hl => ?_)
  refine yields_bind (yields_any _) (fun b _ => ?_)
  refine yields_ite ?_ (yields_pure hl)
  refine yields_bind ih.assignment (fun value hv => ?_)
  exact yields_pure (fullPtr_binary _ hl hv)

theorem yields_parseCallArgs {n : Nat} (ih : ExprFull n) (args : List ExprPtr)
    (ha : Expr.fullArgs args = true) :
    Yields (parseCallArgs (n + 1) args) (fun l => Expr.fullArgs l = true) := by
  simp only [parseCallArgs]
  refine yields_bind ih.expression (fun e he => ?_)
  refine yields_bind (yields_any _) (fun b _ => ?_)
  exact yields_ite (ih.callArgs _ (fullArgs_append ha he)) (yields_pure (fullArgs_append ha he))

/-- Whatever the budget, an expression production that returns gives a
non-null expression in which no operand slot is null. -/
theorem exprFull : ∀ fuel, ExprFull fuel := by
  intro fuel
  induction fuel with
  | zero => exact exprFull_zero
  | succ n ih =>
    refine
      { primary := yields_parsePrimary ih
        unary := yields_parseUnary ih
        factorLoop := fun expr he => ?_
        factor := ?_
        termLoop := fun expr he => ?_
        term := ?_
        comparisonLoop := fun expr he => ?_
        comparison := ?_
        equalityLoop := fun expr he => ?_
        equality := ?_
        andLoop := fun expr he => ?_
        and := ?_
        orLoop := fun expr he => ?_
        or := ?_
        assignment := yields_parseAssignment ih
        expression := ?_
        callArgs := fun args ha => yields_parseCallArgs ih args ha }
    · simp only [parseFactorLoop]
      exact yields_binaryLoop he ih.unary ih.factorLoop
    · simp only [parseFactor]
      exact yields_binaryLevel ih.unary ih.factorLoop
    · simp only [parseTermLoop]
      exact yields_binaryLoop he ih.factor ih.termLoop
    · simp only [parseTerm]
      exact yields_binaryLevel ih.factor ih.termLoop
    · simp only [parseComparisonLoop]
      exact yields_binaryLoop he ih.term ih.comparisonLoop
    · simp only [parseComparison]
      exact yields_binaryLevel ih.term ih.comparisonLoop
    · simp only [parseEqualityLoop]
      exact yields_binaryLoop he ih.comparison ih.equalityLoop
    · simp only [parseEquality]
      exact yields_binaryLevel ih.comparison ih.equalityLoop
    · simp only [parseAndLoop]
      exact yields_binaryLoop he ih.equality ih.andLoop
    · simp only [parseAnd]
      exact yields_binaryLevel ih.equality ih.andLoop
    · simp only [parseOrLoop]
      exact yields_binaryLoop he ih.and ih.orLoop
    · simp only [parseOr]
      exact yields_binaryLevel ih.and ih.orLoop
    · simp only [parseExpression]
      exact ih.assignment

end Results

end Parser

namespace Parser

/-- The call `consume(t, msg)` on an `END_OF_FILE` token that is not the first
token: one diagnostic with the position of that token, and no move. -/
theorem consume_eof (ts : List Token) (m : Nat) (e : List String) (p t : Token)
    (ty : TokenType) (msg : String) (hp : ts[m]? = some p) (ht : ts[m + 1]? = some t)
    (hE : t.type = .END_OF_FILE) :
    consume ty msg ⟨ts, m + 1, e⟩ =
      .ok () ⟨ts, m + 1, e ++ ["Parse error at line " ++ toString t.line ++ " col "
        ++ toString t.column ++ ": " ++ msg]⟩ := by
  simp [consume, check_at ts (m + 1) e t ty ht, hE, peek_at ts (m + 1) e t ht, pushError,
    advance, isAtEnd_at ts (m + 1) _ t ht, previous_at ts m _ p hp]

/-- After `Block`, on a name followed by `\x7b`, `parseBlockDecl` runs the loop
over the body from the token after the brace and then expects `\x7d`. -/
theorem parseBlockDecl_open (ts : List Token) (i : Nat) (e : List String) (tn tl : Token)
    (fuel : Nat) (hn : ts[i]? = some tn) (hnt : tn.type = .IDENTIFIER)
    (hl : ts[i + 1]? = some tl) (hlt : tl.type = .LBRACE) :
    parseBlockDecl fuel ⟨ts, i, e⟩ =
      (do
        let r ← parseBlockDeclLoop fuel [] []
        consume .RBRACE "Unterminated Block, expected '\x7d'"
        pure (some (Decl.Block { name := tn.lexeme, fields := r.1, methods := r.2 })))
        ⟨ts, i + 2, e⟩ := by
  simp [parseBlockDecl, check_at ts i e tn _ hn, hnt, peek_at ts i e tn hn,
    advance_at ts i e tn hn (by rw [hnt]; decide), andThen, notP,
    check_at ts (i + 1) e tl _ hl, hlt,
    matchTok_hit ts (i + 1) e tl .LBRACE hl hlt (by decide)]

/-- On `Block`, `parseTopLevelDecl` consumes it and runs `parseBlockDecl`. -/
theorem parseTopLevelDecl_block (ts : List Token) (i : Nat) (e : List String) (tb : Token)
    (fuel : Nat) (hb : ts[i]? = some tb) (hbt : tb.type = .BLOCK) :
    parseTopLevelDecl (fuel + 1) ⟨ts, i, e⟩ = parseBlockDecl fuel ⟨ts, i + 1, e⟩ := by
  simp [parseTopLevelDecl, isAtEnd_at ts i e tb hb, hbt,
    matchTok_hit ts i e tb .BLOCK hb hbt (by decide)]

end Parser

/-- C28: a `Block` declaration with a name and an opening brace whose body is
cut off by `END_OF_FILE`. The loop of `parseBlockDecl` over the body, started
after the brace, returns the fields and methods at some cursor `m`; when that
cursor is not on a closing brace (the body is cut off), it is on
`END_OF_FILE`, and the loop of `Parser::parse`, entered on the `Block` token,
returns the declarations it had extended by the `BlockDecl` and records, as
its last diagnostic, one with the message `Unterminated Block, expected '}'`
at the position of the `END_OF_FILE` token; when the `Block` token is the
first token, that is the `Program` which `parse` returns. -/
theorem C28_unterminated_block (ts : List Token) (k i fuel : Nat) (decls : List Decl)
    (errs : List String) (tn : Token) (heof : EofAt ts k) (hk : i + 2 < k)
    (hB : typeAt ts i = .BLOCK) (hn : ts[i + 1]? = some tn) (hN : tn.type = .IDENTIFIER)
    (hL : typeAt ts (i + 2) = .LBRACE) (hfuel : 16 * (k - i) + 12 ≤ fuel) :
    ∃ fields methods m errs0,
      Parser.parseBlockDeclLoop fuel [] [] ⟨ts, i + 3, errs⟩ =
        .ok (fields, methods) ⟨ts, m, errs0⟩ ∧
      (typeAt ts m ≠ .RBRACE →
        ∃ t, ts[m]? = some t ∧ t.type = .END_OF_FILE ∧
          Parser.parseLoop (fuel + 2) decls ⟨ts, i, errs⟩ =
            .ok (decls ++ [Decl.Block { name := tn.lexeme, fields := fields,
                                        methods := methods }])
              ⟨ts, m, errs0 ++ ["Parse error at line " ++ toString t.line ++ " col "
                ++ toString t.column ++ ": " ++ "Unterminated Block, expected '\x7d'"]⟩ ∧
          (i = 0 → decls = [] → errs = [] → fuel + 2 = parseBudget ts →
            parse ts =
              .ok { decls := [Decl.Block { name := tn.lexeme, fields := fields,
                                           methods := methods }] }
                ⟨ts, m, errs0 ++ ["Parse error at line " ++ toString t.line ++ " col "
                  ++ toString t.column ++ ": " ++ "Unterminated Block, expected '\x7d'"]⟩)) := by
  obtain ⟨tb, hb, hbt0⟩ := Parser.exists_token heof (show i ≤ k by omega)
  obtain ⟨tl, hl, hlt0⟩ := Parser.exists_token heof (show i + 2 ≤ k by omega)
  have hbt : tb.type = .BLOCK := by rw [← hbt0, hB]
  have hlt : tl.type = .LBRACE := by rw [← hlt0, hL]
  obtain ⟨⟨fields, methods⟩, m, errs0, hloop, him, hmk, hexit⟩ :=
    Parser.runs_parseBlockDeclLoop_exit heof fuel (i + 3) [] [] (by omega) (by omega)
      (by omega) errs
  refine ⟨fields, methods, m, errs0, hloop, fun hcut => ?_⟩
  have hE : typeAt ts m = .END_OF_FILE := by
    rcases hexit with h | h
    · exact absurd h hcut
    · exact h
  obtain ⟨t, ht, htt0⟩ := Parser.exists_token heof hmk
  have htt : t.type = .END_OF_FILE := by rw [← htt0, hE]
  obtain ⟨p, rfl⟩ : ∃ p, m = p + 1 := ⟨m - 1, by omega⟩
  obtain ⟨tp, hp, _⟩ := Parser.exists_token heof (show p ≤ k by omega)
  have hgo : (!tb.type == TokenType.END_OF_FILE) = true := by simp [hbt]
  have hstop : (!t.type == TokenType.END_OF_FILE) = false := by simp [htt]
  have hrun : Parser.parseLoop (fuel + 2) decls ⟨ts, i, errs⟩ =
      .ok (decls ++ [Decl.Block { name := tn.lexeme, fields := fields, methods := methods }])
        ⟨ts, p + 1, errs0 ++ ["Parse error at line " ++ toString t.line ++ " col "
          ++ toString t.column ++ ": " ++ "Unterminated Block, expected '\x7d'"]⟩ := by
    rw [Parser.parseLoop_succ]
    simp only [Parser.bind_apply, Parser.isAtEnd_at ts i errs tb hb]
    rw [if_pos hgo]
    simp only [Parser.bind_apply, Parser.parseTopLevelDecl_block ts i errs tb fuel hb hbt,
      Parser.parseBlockDecl_open ts (i + 1) errs tn tl fuel hn hN hl hlt, hloop,
      Parser.consume_eof ts p errs0 tp t _ _ hp ht htt, Parser.pure_apply, Option.toList]
    rw [Parser.parseLoop_succ]
    simp only [Parser.bind_apply, Parser.isAtEnd_at ts (p + 1) _ t ht, hstop]
    rfl
  refine ⟨t, ht, htt, hrun, ?_⟩
  rintro rfl rfl rfl hbud
  unfold parse Parser.parseFuel
  rw [← hbud]
  simp only [Parser.bind_apply]
  rw [hrun]
  rfl


/-- The claim C28 at the tokens of `Block B \x7b`, together with the run of
`parse` on them. -/
theorem C28_unterminated_block_witness :
    (∃ fields methods m errs0,
      Parser.parseBlockDeclLoop 78 [] [] ⟨tokenize "Block B \x7b", 0 + 3, []⟩ =
        .ok (fields, methods) ⟨tokenize "Block B \x7b", m, errs0⟩ ∧
      (typeAt (tokenize "Block B \x7b") m ≠ .RBRACE →
        ∃ t, (tokenize "Block B \x7b")[m]? = some t ∧ t.type = .END_OF_FILE ∧
          Parser.parseLoop (78 + 2) [] ⟨tokenize "Block B \x7b", 0, []⟩ =
            .ok ([] ++ [Decl.Block { name := (identToken "B" 1 7).lexeme, fields := fields,
                                     methods := methods }])
              ⟨tokenize "Block B \x7b", m, errs0 ++ ["Parse error at line "
                ++ toString t.line ++ " col " ++ toString t.column ++ ": "
                ++ "Unterminated Block, expected '\x7d'"]⟩ ∧
          (0 = 0 → ([] : List Decl) = [] → ([] : List String) = [] →
            78 + 2 = parseBudget (tokenize "Block B \x7b") →
            parse (tokenize "Block B \x7b") =
              .ok { decls := [Decl.Block { name := (identToken "B" 1 7).lexeme,
                                           fields := fields, methods := methods }] }
                ⟨tokenize "Block B \x7b", m, errs0 ++ ["Parse error at line "
                  ++ toString t.line ++ " col " ++ toString t.column ++ ": "
                  ++ "Unterminated Block, expected '\x7d'"]⟩))) ∧
    parse (tokenize "Block B \x7b") =
      .ok { decls := [Decl.Block { name := "B", fields := [], methods := [] }] }
        { tokens := tokenize "Block B \x7b", current := 3,
          m_errors := ["Parse error at line 1 col 10: Unterminated Block, expected '\x7d'"] } :=
  ⟨C28_unterminated_block (tokenize "Block B \x7b") 3 0 78 [] [] (identToken "B" 1 7)
    ⟨by decide, by decide⟩ (by decide) (by decide) (by decide) (by decide) (by decide)
    (by decide), rfl⟩

/-- C29: over tokens with an `END_OF_FILE` at index `k`, from every cursor
`i` with `1 ≤ i ≤ k` and with a budget that covers the tokens left,
`parseExpression` returns a non-null expression in which no operand slot is
null: both operands of every `Binary` node, the operand of every `Unary` node
and the callee and arguments of every `Call` node are present. Moreover,
whatever the tokens, the cursor and the budget, an expression that
`parseExpression` returns is non-null and has no null operand slot. -/
theorem C29_operands_are_never_null (ts : List Token) (k i fuel : Nat) (errs : List String)
    (heof : EofAt ts k) (h1 : 1 ≤ i) (hi : i ≤ k) (hfuel : 16 * (k - i) + 10 ≤ fuel) :
    (∃ e j errs1, Parser.parseExpression fuel ⟨ts, i, errs⟩ = .ok (some e) ⟨ts, j, errs1⟩ ∧
      e.full = true) ∧
    ∀ (n : Nat) (st st1 : Parser) (r : ExprPtr),
      Parser.parseExpression n st = .ok r st1 → ∃ e, r = some e ∧ e.full = true := by
  have part : ∀ (n : Nat) (st st1 : Parser) (r : ExprPtr),
      Parser.parseExpression n st = .ok r st1 → ∃ e, r = some e ∧ e.full = true := by
    intro n st st1 r h
    have hf := (Parser.exprFull n).expression st r st1 h
    cases r with
    | none => simp [fullPtr] at hf
    | some e => exact ⟨e, rfl, hf⟩
  refine ⟨?_, part⟩
  obtain ⟨r, j, errs1, hrun, _, _, _⟩ :=
    (Parser.exprRuns heof fuel).expression i (Or.inl h1) hi hfuel errs
  obtain ⟨e, rfl, he⟩ := part fuel _ _ r hrun
  exact ⟨e, j, errs1, hrun, he⟩

/-- The claim C29 at the tokens of `= -a * f(b, c)`, entered after the `=`. -/
theorem C29_operands_are_never_null_witness :
    (∃ e j errs1,
      Parser.parseExpression 154 ⟨tokenize "= -a * f(b, c)", 1, []⟩ =
        .ok (some e) ⟨tokenize "= -a * f(b, c)", j, errs1⟩ ∧ e.full = true) ∧
    ∀ (n : Nat) (st st1 : Parser) (r : ExprPtr),
      Parser.parseExpression n st = .ok r st1 → ∃ e, r = some e ∧ e.full = true :=
  C29_operands_are_never_null (tokenize "= -a * f(b, c)") 10 1 154 []
    ⟨by decide, by decide⟩ (by decide) (by decide) (by decide)

/-- The start on a literal token, which the amended claim C30 leaves out (it
is the behaviour reported under C11): on the literal of `x + 1` the
expression productions return without moving the cursor, and on a literal
that is the very first token, as in `1;`, `parseExprStmt` and
`parseReturnStmt` read `tokens[-1]` through `previous()`. -/
theorem productions_on_a_literal :
    Parser.parseExpression 20 ⟨tokenize "x + 1", 2, []⟩ =
      .ok (some (Expr.Literal "+" .PLUS)) ⟨tokenize "x + 1", 2, []⟩ ∧
    Parser.parsePrimary 20 ⟨tokenize "x + 1", 2, []⟩ =
      .ok (some (Expr.Literal "+" .PLUS)) ⟨tokenize "x + 1", 2, []⟩ ∧
    Parser.parseExprStmt 20 ⟨tokenize "1;", 0, []⟩ = .outOfBounds ∧
    Parser.parseReturnStmt 20 ⟨tokenize "1;", 0, []⟩ = .outOfBounds := by
  refine ⟨?_, ?_, ?_, ?_⟩ <;> rfl

/-- C31 (the code at the failing input): in `Block B \x7b @ number ; \x7d` the
stray `@` is consumed by the test `match(AT) && check(FUNC)` without a
diagnostic, the diagnostic names the token after it, `number`, and that token
is skipped as well; no field is parsed, and the `;` gives a second
diagnostic. A stray `;` alone, in `Block B \x7b ; number ; \x7d`, gives one
diagnostic and the type keyword after it starts a field. -/
theorem C31_stray_at_swallows_next_token :
    parse (tokenize "Block B \x7b @ number ; \x7d") =
      .ok { decls := [Decl.Block { name := "B", fields := [], methods := [] }] }
        { tokens := tokenize "Block B \x7b @ number ; \x7d", current := 7,
          m_errors :=
            ["Parse error at line 1, col 13: Unexpected token inside Block declaration: number",
             "Parse error at line 1, col 20: Unexpected token inside Block declaration: ;"] } ∧
    parse (tokenize "Block B \x7b ; number ; \x7d") =
      .ok { decls := [Decl.Block
              { name := "B",
                fields := [{ typeName := "number", varName := "number", initValue := none }],
                methods := [] }] }
        { tokens := tokenize "Block B \x7b ; number ; \x7d", current := 7,
          m_errors :=
            ["Parse error at line 1, col 11: Unexpected token inside Block declaration: ;"] } := by
  refine ⟨?_, ?_⟩ <;> rfl

/-- C32 (counterexample): parsing the statement `loop ( , , ) \x7b \x7d` yields a
`Loop` with init, condition and step absent and an empty body, but it records
a diagnostic: `parseLoopStmt` reports a missing initialization. The same
diagnostic is recorded when the init alone is left out, in
`loop ( , c, s) \x7b \x7d`. -/
theorem C32_missing_init_is_reported :
    Parser.parseStatement 60 { tokens := tokenize "loop ( , , ) \x7b \x7d" } =
      .ok (some (Stmt.LoopStmt none none none none []))
        { tokens := tokenize "loop ( , , ) \x7b \x7d", current := 7,
          m_errors :=
            ["Parse error at line 1, col 8: Expected loop initialization statement"] } ∧
    Parser.parseStatement 60 { tokens := tokenize "loop ( , c, s) \x7b \x7d" } =
      .ok (some (Stmt.LoopStmt none none (some (Expr.Identifier "c"))
          (some (Stmt.ExprStmt (some (Expr.Identifier "s")))) []))
        { tokens := tokenize "loop ( , c, s) \x7b \x7d", current := 9,
          m_errors :=
            ["Parse error at line 1, col 8: Expected loop initialization statement"] } := by
  refine ⟨?_, ?_⟩ <;> rfl

namespace Parser

theorem token_of_typeAt {ts : List Token} {i : Nat} {ty : TokenType} (h : typeAt ts i = ty)
    (hne : ty ≠ .END_OF_FILE) : ∃ t, ts[i]? = some t ∧ t.type = ty := by
  unfold typeAt at h
  split at h
  · next t ht => exact ⟨t, ht, h⟩
  · exact absurd h.symm hne

theorem consume_hit (ts : List Token) (i : Nat) (e : List String) (ty : TokenType)
    (msg : String) (h : typeAt ts i = ty) (hne : ty ≠ .END_OF_FILE) :
    consume ty msg ⟨ts, i, e⟩ = .ok () ⟨ts, i + 1, e⟩ := by
  obtain ⟨t, ht, hty⟩ := token_of_typeAt h hne
  have hne2 : t.type ≠ .END_OF_FILE := by rw [hty]; exact hne
  simp [consume, check_at ts i e t ty ht, hty, hne, advance_at ts i e t ht hne2]

/-- The condition of a loop header, `if (check(IDENTIFIER) || isLiteralToken())
condition = parseExpression();`, on an optional part. -/
theorem headerPart_condition {ts : List Token} {fuel : Nat} {errs : List String}
    {stop : TokenType} {i j : Nat} {part : Option ExprPtr}
    (h : HeaderPart ts fuel errs stop i part j) (hs1 : stop ≠ .END_OF_FILE)
    (hs2 : stop ≠ .IDENTIFIER) (hs3 : isLiteralType stop = false) :
    (do
      if (← orElse (check .IDENTIFIER) isLiteralToken) then parseExpression fuel
      else pure none : P ExprPtr) ⟨ts, i, errs⟩ = .ok part.join ⟨ts, j, errs⟩ := by
  cases part with
  | none =>
    obtain ⟨rfl, hty⟩ := h
    obtain ⟨t, ht, htt⟩ := token_of_typeAt hty hs1
    simp [orElse, check_at ts j errs t _ ht, isLiteralToken_at ts j errs t ht, htt, hs2, hs3]
  | some e =>
    obtain ⟨hty, hrun, _⟩ := h
    obtain ⟨t, ht, htt⟩ := token_of_typeAt hty (by decide)
    simp [orElse, check_at ts i errs t _ ht, htt, hrun]

/-- The step of a loop header on an optional part. -/
theorem headerPart_step {ts : List Token} {fuel : Nat} {errs : List String}
    {stop : TokenType} {i j : Nat} {part : Option ExprPtr}
    (h : HeaderPart ts fuel errs stop i part j) (hs1 : stop ≠ .END_OF_FILE)
    (hs2 : stop ≠ .IDENTIFIER) (hs3 : isLiteralType stop = false) :
    (do
      if (← orElse (check .IDENTIFIER) isLiteralToken) then
        let stepExpr ← parseExpression fuel
        pure (some (Stmt.ExprStmt stepExpr))
      else pure none : P StmtPtr) ⟨ts, i, errs⟩ = .ok (part.map Stmt.ExprStmt) ⟨ts, j, errs⟩ := by
  cases part with
  | none =>
    obtain ⟨rfl, hty⟩ := h
    obtain ⟨t, ht, htt⟩ := token_of_typeAt hty hs1
    simp [orElse, check_at ts j errs t _ ht, isLiteralToken_at ts j errs t ht, htt, hs2, hs3]
  | some e =>
    obtain ⟨hty, hrun, _⟩ := h
    obtain ⟨t, ht, htt⟩ := token_of_typeAt hty (by decide)
    simp [orElse, check_at ts i errs t _ ht, htt, hrun]

theorem headerPart_stop {ts : List Token} {fuel : Nat} {errs : List String}
    {stop : TokenType} {i j : Nat} {part : Option ExprPtr}
    (h : HeaderPart ts fuel errs stop i part j) : typeAt ts j = stop := by
  cases part with
  | none => obtain ⟨rfl, hty⟩ := h; exact hty
  | some e => exact h.2.2

end Parser

/-- Claim C32, amended. In a statement `loop (init, cond, step) \x7b ... \x7d` at
cursor `i`, let each of the three parts be either left out or an expression
that begins with an identifier and that `parseExpression` reads up to its
separator without a diagnostic, and let `parseBlock` read the body. Then
`parseStatement` returns the `Loop` with exactly the parts that are present
and that body. Leaving out the condition or the step adds no diagnostic;
leaving out the init adds the one diagnostic "Expected loop initialization
statement" (at the token where the init was expected), and the parts after it
are parsed as before. -/
theorem C32_loop_header_parts (ts : List Token) (fuel i j1 j2 j3 j4 : Nat)
    (errs errs4 : List String) (init cond step : Option ExprPtr) (t2 : Token) (body : Block)
    (hloop : typeAt ts i = .LOOP) (hparen : typeAt ts (i + 1) = .LPAREN)
    (ht2 : ts[i + 2]? = some t2)
    (hinit : Parser.HeaderPart ts fuel errs .COMMA (i + 2) init j1)
    (hcond : Parser.HeaderPart ts fuel (Parser.afterInit errs t2 init) .COMMA (j1 + 1) cond j2)
    (hstep : Parser.HeaderPart ts fuel (Parser.afterInit errs t2 init) .RPAREN (j2 + 1) step j3)
    (hbrace : typeAt ts (j3 + 1) = .LBRACE)
    (hbody : Parser.parseBlock fuel ⟨ts, j3 + 2, Parser.afterInit errs t2 init⟩ =
      .ok body ⟨ts, j4, errs4⟩) :
    Parser.parseStatement (fuel + 2) ⟨ts, i, errs⟩ =
      .ok (some (Stmt.LoopStmt none (init.map Stmt.ExprStmt) cond.join
        (step.map Stmt.ExprStmt) body)) ⟨ts, j4, errs4⟩ := by
  obtain ⟨t0, h0, h0t⟩ := Parser.token_of_typeAt hloop (by decide)
  obtain ⟨t1, h1, h1t⟩ := Parser.token_of_typeAt hparen (by decide)
  obtain ⟨tb, hb, hbt⟩ := Parser.token_of_typeAt hbrace (by decide)
  have hc := Parser.headerPart_condition hcond (by decide) (by decide) (by decide)
  have hs := Parser.headerPart_step hstep (by decide) (by decide) (by decide)
  have hk1 := Parser.consume_hit ts j1 (Parser.afterInit errs t2 init) .COMMA
    "Expected ',' after loop init" (Parser.headerPart_stop hinit) (by decide)
  have hk2 := Parser.consume_hit ts j2 (Parser.afterInit errs t2 init) .COMMA
    "Expected ',' after loop condition" (Parser.headerPart_stop hcond) (by decide)
  have hk3 := Parser.consume_hit ts j3 (Parser.afterInit errs t2 init) .RPAREN
    "Expected ')' after loop parameters" (Parser.headerPart_stop hstep) (by decide)
  have hstart : Parser.parseStatement (fuel + 2) ⟨ts, i, errs⟩ =
      Parser.parseLoopStmt (fuel + 1) ⟨ts, i + 1, errs⟩ := by
    simp [Parser.parseStatement, Parser.matchTok_miss ts i errs t0 _ h0, h0t,
      Parser.matchTok_hit ts i errs t0 .LOOP h0 h0t (by decide)]
  rw [hstart]
  cases init with
  | none =>
    obtain ⟨rfl, hty⟩ := hinit
    have h2t : t2.type = .COMMA := by
      have := hty
      simp only [typeAt, ht2] at this
      exact this
    simp only [Parser.afterInit] at hc hs hk1 hk2 hk3 hbody
    simp [Parser.parseLoopStmt, Parser.matchTok_hit ts (i + 1) errs t1 .LPAREN h1 h1t (by decide),
      Parser.isDtypeToken_at ts (i + 2) errs t2 ht2, Parser.check_at ts (i + 2) errs t2 _ ht2,
      h2t, isDtype, Parser.logError, Parser.peek_at ts (i + 2) errs t2 ht2, Parser.pushError,
      logErrorText] at hc hs hk1 hk2 hk3 hbody ⊢
    simp [hk1, hc, hk2, hs, hk3, Parser.bodyOrSemicolon,
      Parser.matchTok_hit ts (j3 + 1) _ tb .LBRACE hb hbt (by decide), hbody]
  | some e =>
    obtain ⟨hty, hrun, hstop⟩ := hinit
    have h2t : t2.type = .IDENTIFIER := by
      have := hty
      simp only [typeAt, ht2] at this
      exact this
    simp only [Parser.afterInit, Parser.bind_apply] at hc hs hk1 hk2 hk3 hbody
    simp [Parser.parseLoopStmt, Parser.matchTok_hit ts (i + 1) errs t1 .LPAREN h1 h1t (by decide),
      Parser.isDtypeToken_at ts (i + 2) errs t2 ht2, Parser.check_at ts (i + 2) errs t2 _ ht2,
      h2t, isDtype, hrun, hk1, hc, hk2, hs, hk3, Parser.bodyOrSemicolon,
      Parser.matchTok_hit ts (j3 + 1) _ tb .LBRACE hb hbt (by decide), hbody]

/-- Claim C32, amended: the theorem at `loop (i = a, , i = i + a) \x7b \x7d`, where
the condition is left out, and at `loop ( , g(b, c), ) \x7b x; \x7d`, where the
init and the step are left out. -/
theorem C32_loop_header_parts_witness :
    Parser.parseStatement 62 ⟨tokenize "loop (i = a, , i = i + a) \x7b \x7d", 0, []⟩ =
        .ok (some (Stmt.LoopStmt none
            (some (Stmt.ExprStmt (binExpr (idExpr "i") "=" (idExpr "a")))) none
            (some (Stmt.ExprStmt
              (binExpr (idExpr "i") "=" (binExpr (idExpr "i") "+" (idExpr "a"))))) []))
          ⟨tokenize "loop (i = a, , i = i + a) \x7b \x7d", 15, []⟩ ∧
      Parser.parseStatement 62 ⟨tokenize "loop ( , g(b, c), ) \x7b x; \x7d", 0, []⟩ =
        .ok (some (Stmt.LoopStmt none none
            (some (Expr.Call (idExpr "g") [idExpr "b", idExpr "c"])) none
            [Stmt.ExprStmt (idExpr "x")]))
          ⟨tokenize "loop ( , g(b, c), ) \x7b x; \x7d", 15,
            ["Parse error at line 1, col 8: Expected loop initialization statement"]⟩ :=
  ⟨C32_loop_header_parts (tokenize "loop (i = a, , i = i + a) \x7b \x7d") 60 0 5 6 12 15 [] []
      (some (binExpr (idExpr "i") "=" (idExpr "a"))) none
      (some (binExpr (idExpr "i") "=" (binExpr (idExpr "i") "+" (idExpr "a"))))
      (identToken "i" 1 7) [] (by decide) (by decide) (by decide)
      ⟨by decide, by rfl, by decide⟩ ⟨rfl, by decide⟩ ⟨by decide, by rfl, by decide⟩
      (by decide) (by rfl),
    C32_loop_header_parts (tokenize "loop ( , g(b, c), ) \x7b x; \x7d") 60 0 2 9 10 15 []
      ["Parse error at line 1, col 8: Expected loop initialization statement"]
      none (some (some (Expr.Call (idExpr "g") [idExpr "b", idExpr "c"]))) none
      ⟨.COMMA, ",", 1, 8⟩ [Stmt.ExprStmt (idExpr "x")] (by decide) (by decide) (by decide)
      ⟨rfl, by decide⟩ ⟨by decide, by rfl, by decide⟩ ⟨rfl, by decide⟩
      (by decide) (by rfl)⟩

/-- C33 (the code at the failing input): parsing the statement
`iter (xs, v) \x7b \x7d` yields an `Iter` whose iterable is `xs` but whose
`varName` is empty and whose body is empty, with two diagnostics and the
cursor left on the `\x7b`: the test `isDtypeToken() && check(IDENTIFIER)` cannot
hold of one token, so `v` is never stored, and `consume(RPAREN)` then meets
`v`. -/
theorem C33_iter_variable_is_never_stored :
    Parser.parseStatement 60 { tokens := tokenize "iter (xs, v) \x7b \x7d" } =
      .ok (some (Stmt.IterStmt (some (Expr.Identifier "xs")) "" []))
        { tokens := tokenize "iter (xs, v) \x7b \x7d", current := 6,
          m_errors :=
            ["Parse error at line 1 col 11: Expected ')' after loop parameters",
             "Parse error at line 1 col 12: Expected '\x7b' or ';' after loop(params)"] } := by
  rfl

/-! ## The nodes that the parser builds -/

namespace Parser

theorem yields_bind_run {α β : Type} {p : P α} {f : α → P β} {R : β → Prop}
    (h : ∀ st a st1, p st = .ok a st1 → ∀ b st2, f a st1 = .ok b st2 → R b) :
    Yields (p >>= f) R := by
  intro st b st2 hrun
  rw [bind_apply] at hrun
  cases hx : p st with
  | ok a st1 =>
    rw [hx] at hrun
    exact h st a st1 hx b st2 hrun
  | outOfBounds => rw [hx] at hrun; cases hrun
  | outOfFuel => rw [hx] at hrun; cases hrun

theorem yields_when {β : Type} {cnd : Prop} [Decidable cnd] {act : P PUnit}
    {rest : PUnit → P β} {R : β → Prop} (hrest : ∀ u, Yields (rest u) R) :
    Yields (if cnd then act >>= rest else Pure.pure PUnit.unit >>= rest) R :=
  yields_ite (yields_bind (yields_any act) (fun u _ => hrest u))
    (yields_bind (yields_any _) (fun u _ => hrest u))

/-- A successful `check(t)` leaves the parser alone and has seen a token of
kind `t` under the cursor. -/
theorem check_true {ty : TokenType} {st st1 : Parser} (h : check ty st = .ok true st1) :
    st1 = st ∧ ∃ t, st.tokens[st.current]? = some t ∧ t.type = ty ∧
      t.type ≠ .END_OF_FILE := by
  obtain ⟨ts, i, e⟩ := st
  cases ht : ts[i]? with
  | none => simp [check, isAtEnd, peek, ht] at h
  | some t =>
    rw [check_at ts i e t ty ht] at h
    simp only [Res.ok.injEq, Bool.and_eq_true, bne_iff_ne, ne_eq, beq_iff_eq] at h
    exact ⟨h.2.symm, t, rfl, h.1.2, h.1.1⟩

/-- A successful `isDtypeToken()` leaves the parser alone and has seen a type
keyword under the cursor. -/
theorem isDtypeToken_true {st st1 : Parser} (h : isDtypeToken st = .ok true st1) :
    st1 = st ∧ ∃ t, st.tokens[st.current]? = some t ∧ isDtype t.type = true := by
  obtain ⟨ts, i, e⟩ := st
  cases ht : ts[i]? with
  | none => simp [isDtypeToken, peek, ht] at h
  | some t =>
    rw [isDtypeToken_at ts i e t ht] at h
    simp only [Res.ok.injEq] at h
    exact ⟨h.2.symm, t, rfl, h.1⟩

/-- When the gate `match(ELSE) && check(LPAREN)` of the else chain holds, the
cursor is on a `(`. -/
theorem elseGate_true {st st1 : Parser}
    (h : andThen (matchTok .ELSE) (check .LPAREN) st = .ok true st1) :
    ∃ t, st1.tokens[st1.current]? = some t ∧ t.type = .LPAREN := by
  unfold andThen at h
  rw [bind_apply] at h
  cases hm : matchTok .ELSE st with
  | ok b st0 =>
    rw [hm] at h
    cases b with
    | true =>
      simp only [if_true] at h
      obtain ⟨rfl, t, ht, hty, _⟩ := check_true h
      exact ⟨t, ht, hty⟩
    | false => simp at h
  | outOfBounds => rw [hm] at h; cases h
  | outOfFuel => rw [hm] at h; cases h

/-- With the cursor on a `(`, the loop `while (match(ELSE))` of the else chain
does not run its body: it returns what it was given. -/
theorem parseElseChain_lparen {st st2 : Parser} {t : Token} (fuel : Nat)
    (a : Option (List (ExprPtr × Block))) (b : Option Block)
    (r : Option (List (ExprPtr × Block)) × Option Block)
    (ht : st.tokens[st.current]? = some t) (hty : t.type = .LPAREN)
    (h : parseElseChain fuel a b st = .ok r st2) : r = (a, b) ∧ st2 = st := by
  obtain ⟨ts, i, e⟩ := st
  cases fuel with
  | zero => simp [parseElseChain, outOfFuel] at h
  | succ n =>
    simp only [parseElseChain, bind_apply,
      matchTok_miss ts i e t .ELSE ht (by rw [hty]; decide)] at h
    simp only [Bool.false_eq_true, if_false, pure_apply, Res.ok.injEq] at h
    exact ⟨h.1.symm, h.2.symm⟩

end Parser

namespace Parser

/-- Started on a type keyword, `parseVarDeclStmt` stores the lexeme of that
keyword both as the type name and as the variable name. -/
theorem parseVarDeclStmt_dtype {st st2 : Parser} {t : Token} (fuel : Nat) (v : Option VarDecl)
    (ht : st.tokens[st.current]? = some t) (hd : isDtype t.type = true)
    (h : parseVarDeclStmt fuel st = .ok v st2) :
    ∃ d, v = some d ∧ d.typeName = t.lexeme ∧ d.varName = t.lexeme := by
  obtain ⟨ts, i, e⟩ := st
  have hne : t.type ≠ .IDENTIFIER := by
    intro hI
    rw [hI] at hd
    simp [isDtype] at hd
  cases fuel with
  | zero => simp [parseVarDeclStmt, outOfFuel] at h
  | succ n =>
    have heq : parseVarDeclStmt (n + 1) ⟨ts, i, e⟩ =
        (do
          let _ ← advance
          let init ← (do
            if (← matchTok .ASSIGN) then pure (some (← parseExpression n)) else pure none)
          consume .SEMICOLON "Expected ';' after variable declaration"
          pure (some ({ typeName := t.lexeme, varName := t.lexeme,
                        initValue := init } : VarDecl)))
          ⟨ts, i, e⟩ := by
      simp [parseVarDeclStmt, peek_at ts i e t ht, check_at ts i e t _ ht, hne]
    rw [heq] at h
    refine yields_bind (R := fun v => ∃ d, v = some d ∧ d.typeName = t.lexeme ∧
      d.varName = t.lexeme) (yields_any _) (fun _ _ => ?_) _ _ _ h
    refine yields_bind (yields_any _) (fun init _ => ?_)
    refine yields_bind (yields_any _) (fun _ _ => ?_)
    exact yields_pure ⟨_, rfl, rfl, rfl⟩

section Built

variable {p : Stmt → Bool}

theorem everyList_append {b : List Stmt} {s : Stmt} (hb : Stmt.everyList p b = true)
    (hs : Stmt.every p s = true) : Stmt.everyList p (b ++ [s]) = true := by
  induction b with
  | nil => simp [Stmt.everyList, hs]
  | cons x rest ih =>
    simp only [Stmt.everyList, Bool.and_eq_true] at hb
    simp [Stmt.everyList, hb.1, ih hb.2]

theorem everyList_addStatement {b : List Stmt} {s : StmtPtr}
    (hb : Stmt.everyList p b = true) (hs : everyStmtPtr p s = true) :
    Stmt.everyList p (Block.addStatement b s) = true := by
  cases s with
  | none => exact hb
  | some x => exact everyList_append hb hs

theorem yields_parseReturnStmt (hp : BuiltBy p) (fuel : Nat) :
    Yields (parseReturnStmt fuel) (fun s => everyStmtPtr p s = true) := by
  cases fuel with
  | zero => exact yields_outOfFuel
  | succ n =>
    simp only [parseReturnStmt]
    refine yields_bind (yields_any _) (fun v _ => ?_)
    refine yields_bind (yields_any _) (fun _ _ => ?_)
    exact yields_pure (by simp [everyStmtPtr, Stmt.every, hp.ret])

theorem yields_parseExprStmt (hp : BuiltBy p) (fuel : Nat) :
    Yields (parseExprStmt fuel) (fun s => everyStmtPtr p s = true) := by
  cases fuel with
  | zero => exact yields_outOfFuel
  | succ n =>
    simp only [parseExprStmt]
    refine yields_bind (yields_any _) (fun v _ => ?_)
    refine yields_bind (yields_any _) (fun _ _ => ?_)
    exact yields_pure (by simp [everyStmtPtr, Stmt.every, hp.expr])

theorem yields_bodyOrSemicolon {parseBody : P Block} (msg : String)
    (hbody : Yields parseBody (fun b => Stmt.everyList p b = true)) :
    Yields (bodyOrSemicolon parseBody msg) (fun b => Stmt.everyList p b = true) := by
  unfold bodyOrSemicolon
  refine yields_bind (yields_any _) (fun b _ => ?_)
  refine yields_ite hbody ?_
  refine yields_bind (yields_any _) (fun c _ => ?_)
  dsimp only
  exact yields_when (fun _ => yields_pure rfl)

theorem stmtBuilt_zero : StmtBuilt p 0 := by
  constructor <;> intros <;> exact yields_outOfFuel

theorem yields_parseStatement (hp : BuiltBy p) {n : Nat} (ih : StmtBuilt p n) :
    Yields (parseStatement (n + 1)) (fun s => everyStmtPtr p s = true) := by
  simp only [parseStatement]
  refine yields_bind (yields_any _) (fun _ _ => yields_ite (yields_parseReturnStmt hp n) ?_)
  refine yields_bind (yields_any _) (fun _ _ => yields_ite ih.ifStmt ?_)
  refine yields_bind (yields_any _) (fun _ _ => yields_ite ih.whileStmt ?_)
  refine yields_bind (yields_any _) (fun _ _ => yields_ite ih.loopStmt ?_)
  refine yields_bind (yields_any _) (fun _ _ => yields_ite ih.iterStmt ?_)
  refine yields_bind_run ?_
  intro st b st1 hb r st2 hrun
  cases b with
  | true =>
    simp only [if_true] at hrun
    obtain ⟨rfl, t, ht, hd⟩ := isDtypeToken_true hb
    rw [bind_apply] at hrun
    cases hv : parseVarDeclStmt n st1 with
    | ok v st3 =>
      rw [hv] at hrun
      obtain ⟨d, rfl, h1, h2⟩ := parseVarDeclStmt_dtype n v ht hd hv
      simp only [pure_apply, Res.ok.injEq] at hrun
      rw [← hrun.1]
      simp [everyStmtPtr, Stmt.every, hp.varDecl d (by simp [namedByType, h1, h2])]
    | outOfBounds => rw [hv] at hrun; cases hrun
    | outOfFuel => rw [hv] at hrun; cases hrun
  | false =>
    simp only [Bool.false_eq_true, if_false] at hrun
    refine yields_bind (R := fun s => everyStmtPtr p s = true) (yields_any _)
      (fun _ _ => yields_ite (yields_parseExprStmt hp n) ?_) _ _ _ hrun
    refine yields_bind (yields_any _) (fun _ _ => ?_)
    refine yields_bind (yields_any _) (fun _ _ => ?_)
    refine yields_bind (yields_any _) (fun _ _ => ?_)
    exact yields_pure rfl

theorem yields_parseBlockLoop {n : Nat} (ih : StmtBuilt p n) (b : Block)
    (hb : Stmt.everyList p b = true) :
    Yields (parseBlockLoop (n + 1) b) (fun b1 => Stmt.everyList p b1 = true) := by
  simp only [parseBlockLoop]
  refine yields_bind (yields_any _) (fun _ _ => yields_ite ?_ (yields_pure hb))
  refine yields_bind ih.statement (fun s hs => ?_)
  exact ih.blockLoop _ (everyList_addStatement hb hs)

theorem yields_parseBlock {n : Nat} (ih : StmtBuilt p n) :
    Yields (parseBlock (n + 1)) (fun b => Stmt.everyList p b = true) := by
  simp only [parseBlock]
  refine yields_bind (ih.blockLoop [] rfl) (fun b hb => ?_)
  refine yields_bind (yields_any _) (fun _ _ => ?_)
  exact yields_pure hb

theorem yields_parseWhileStmt (hp : BuiltBy p) {n : Nat} (ih : StmtBuilt p n) :
    Yields (parseWhileStmt (n + 1)) (fun s => everyStmtPtr p s = true) := by
  simp only [parseWhileStmt]
  refine yields_bind (yields_any _) (fun c _ => ?_)
  refine yields_bind (yields_bodyOrSemicolon _ ih.block) (fun b hb => ?_)
  exact yields_pure (by simp [everyStmtPtr, Stmt.every, hp.whileStmt, hb])

end Built

end Parser

namespace Parser

section BuiltStatements

variable {p : Stmt → Bool}

theorem every_if (hp : BuiltBy p) (cond : ExprPtr) {blk : Block}
    (hblk : Stmt.everyList p blk = true) :
    everyStmtPtr p (some (Stmt.IfStmt (cond, blk) none none)) = true := by
  simp [everyStmtPtr, Stmt.every, hp.ifStmt, hblk]

theorem every_loop (hp : BuiltBy p) (dtype : Option String) {init step : StmtPtr}
    (cond : ExprPtr) {body : Block} (hinit : everyStmtPtr p init = true)
    (hstep : everyStmtPtr p step = true) (hbody : Stmt.everyList p body = true) :
    everyStmtPtr p (some (Stmt.LoopStmt dtype init cond step body)) = true := by
  cases init <;> cases step <;>
    simp_all [everyStmtPtr, Stmt.every, hp.loopStmt]

theorem yields_exprStmtPtr (hp : BuiltBy p) {test : P Bool} {expr : P ExprPtr} :
    Yields (do
      if (← test) then
        let e ← expr
        Pure.pure (some (Stmt.ExprStmt e))
      else Pure.pure none) (fun s => everyStmtPtr p s = true) := by
  refine yields_bind (yields_any _) (fun _ _ => yields_ite ?_ (yields_pure rfl))
  refine yields_bind (yields_any _) (fun e _ => ?_)
  exact yields_pure (by simp [everyStmtPtr, Stmt.every, hp.expr])

theorem yields_parseIfStmt (hp : BuiltBy p) {n : Nat} (ih : StmtBuilt p n) :
    Yields (parseIfStmt (n + 1)) (fun s => everyStmtPtr p s = true) := by
  simp only [parseIfStmt]
  refine yields_bind (yields_any _) (fun cond _ => ?_)
  refine yields_bind (Q := fun b => Stmt.everyList p b = true) ?_ (fun blk hblk => ?_)
  · refine yields_bind (yields_any _) (fun _ _ => yields_ite ih.block ?_)
    refine yields_bind (yields_any _) (fun _ _ => ?_)
    dsimp only
    exact yields_when (fun _ => yields_pure rfl)
  · refine yields_bind_run ?_
    intro st b st1 hg r st2 hrun
    cases b with
    | true =>
      simp only [if_true] at hrun
      obtain ⟨t, ht, hty⟩ := elseGate_true hg
      rw [bind_apply] at hrun
      cases hc : parseElseChain n none none st1 with
      | ok c st3 =>
        rw [hc] at hrun
        obtain ⟨rfl, _⟩ := parseElseChain_lparen n none none c ht hty hc
        simp only [pure_apply, Res.ok.injEq] at hrun
        rw [← hrun.1]
        exact every_if hp cond hblk
      | outOfBounds => rw [hc] at hrun; cases hrun
      | outOfFuel => rw [hc] at hrun; cases hrun
    | false =>
      simp only [Bool.false_eq_true, if_false, pure_apply, Res.ok.injEq] at hrun
      rw [← hrun.1]
      exact every_if hp cond hblk

theorem yields_parseLoopStmt (hp : BuiltBy p) {n : Nat} (ih : StmtBuilt p n) :
    Yields (parseLoopStmt (n + 1)) (fun s => everyStmtPtr p s = true) := by
  simp only [parseLoopStmt]
  refine yields_bind (yields_any _) (fun _ _ => yields_ite ?_ ?_)
  · refine yields_bind (yields_any _) (fun _ _ => ?_)
    refine yields_bind (yields_bodyOrSemicolon _ ih.block) (fun body hb => ?_)
    exact yields_pure (every_loop hp none none rfl rfl hb)
  · refine yields_bind (yields_any _) (fun dtype _ => ?_)
    refine yields_bind (yields_exprStmtPtr hp) (fun init hinit => ?_)
    dsimp only
    refine yields_when (fun _ => ?_)
    refine yields_bind (yields_any _) (fun _ _ => ?_)
    refine yields_bind (yields_any _) (fun cond _ => ?_)
    refine yields_bind (yields_any _) (fun _ _ => ?_)
    refine yields_bind (yields_exprStmtPtr hp) (fun step hstep => ?_)
    refine yields_bind (yields_any _) (fun _ _ => ?_)
    refine yields_bind (yields_bodyOrSemicolon _ ih.block) (fun body hb => ?_)
    exact yields_pure (every_loop hp dtype cond hinit hstep hb)

theorem yields_parseIterStmt (hp : BuiltBy p) {n : Nat} (ih : StmtBuilt p n) :
    Yields (parseIterStmt (n + 1)) (fun s => everyStmtPtr p s = true) := by
  simp only [parseIterStmt]
  refine yields_bind (yields_any _) (fun _ _ => yields_ite ?_ ?_)
  · refine yields_bind (yields_any _) (fun _ _ => ?_)
    refine yields_bind (yields_bodyOrSemicolon _ ih.block) (fun body hb => ?_)
    exact yields_pure (by simp [everyStmtPtr, Stmt.every, hp.iterStmt, hb])
  · refine yields_bind (yields_any _) (fun iterable _ => ?_)
    dsimp only
    refine yields_when (fun _ => ?_)
    refine yields_bind (yields_any _) (fun _ _ => ?_)
    refine yields_bind (yields_any _) (fun varName _ => ?_)
    refine yields_bind (yields_any _) (fun _ _ => ?_)
    refine yields_bind (yields_bodyOrSemicolon _ ih.block) (fun body hb => ?_)
    exact yields_pure (by simp [everyStmtPtr, Stmt.every, hp.iterStmt, hb])

/-- Whatever the budget, every node of a statement or block that a statement
production returns passes a test that the parser is built by. -/
theorem stmtBuilt (hp : BuiltBy p) : ∀ fuel, StmtBuilt p fuel := by
  intro fuel
  induction fuel with
  | zero => exact stmtBuilt_zero
  | succ n ih =>
    exact
      { statement := yields_parseStatement hp ih
        ifStmt := yields_parseIfStmt hp ih
        whileStmt := yields_parseWhileStmt hp ih
        loopStmt := yields_parseLoopStmt hp ih
        iterStmt := yields_parseIterStmt hp ih
        block := yields_parseBlock ih
        blockLoop := fun b hb => yields_parseBlockLoop ih b hb }

end BuiltStatements

end Parser

namespace Parser

section BuiltDeclarations

variable {p : Stmt → Bool} {q : VarDecl → Bool}

theorem yields_parseFuncDecl_every (fuel : Nat) :
    Yields (parseFuncDecl fuel) (fun f => everyFuncPtr p f = true) := by
  unfold parseFuncDecl
  refine yields_bind (yields_any _) (fun _ _ => ?_)
  refine yields_bind (yields_any _) (fun _ _ => ?_)
  exact yields_pure rfl

theorem yields_parseFuncDef_every (hp : BuiltBy p) (fuel : Nat) :
    Yields (parseFuncDef fuel) (fun f => everyFuncPtr p f = true) := by
  unfold parseFuncDef
  refine yields_bind (yields_any _) (fun _ _ => ?_)
  refine yields_bind (Q := fun b => Stmt.everyList p b = true) ?_ (fun body hb => ?_)
  · refine yields_bind (yields_any _) (fun _ _ => yields_ite (stmtBuilt hp fuel).block ?_)
    refine yields_bind (yields_any _) (fun _ _ => ?_)
    exact yields_pure rfl
  · exact yields_pure (by simpa [everyFuncPtr, FuncDecl.every] using hb)

theorem all_append_toList {α : Type} {f : α → Bool} {l : List α} {x : Option α}
    (hl : l.all f = true) (hx : ∀ a, x = some a → f a = true) :
    (l ++ x.toList).all f = true := by
  cases x with
  | none => simpa using hl
  | some a =>
    have := hx a rfl
    simp only [Option.toList, List.all_append, List.all_cons, List.all_nil, Bool.and_true,
      Bool.and_eq_true]
    exact ⟨hl, this⟩

theorem everyFuncPtr_some {f : Option FuncDecl} (h : everyFuncPtr p f = true) :
    ∀ a, f = some a → FuncDecl.every p a = true := by
  intro a ha
  subst ha
  exact h

theorem yields_parseBlockDeclLoop_every (hp : BuiltBy p)
    (hq : ∀ d, namedByType d = true → q d = true) :
    ∀ (fuel : Nat) (fields : List VarDecl) (methods : List FuncDecl),
      fields.all q = true → methods.all (FuncDecl.every p) = true →
      Yields (parseBlockDeclLoop fuel fields methods)
        (fun r => r.1.all q = true ∧ r.2.all (FuncDecl.every p) = true) := by
  intro fuel
  induction fuel with
  | zero => intros; exact yields_outOfFuel
  | succ n ih =>
    intro fields methods hf hm
    simp only [parseBlockDeclLoop]
    refine yields_bind (yields_any _) (fun _ _ => yields_ite ?_ (yields_pure ⟨hf, hm⟩))
    refine yields_bind_run ?_
    intro st b st1 hb r st2 hrun
    cases b with
    | true =>
      simp only [if_true] at hrun
      obtain ⟨rfl, t, ht, hd⟩ := isDtypeToken_true hb
      rw [bind_apply] at hrun
      cases hv : parseVarDeclStmt n st1 with
      | ok v st3 =>
        rw [hv] at hrun
        obtain ⟨d, rfl, h1, h2⟩ := parseVarDeclStmt_dtype n v ht hd hv
        refine ih _ methods (all_append_toList hf ?_) hm _ _ _ hrun
        intro a ha
        cases ha
        exact hq _ (by simp [namedByType, h1, h2])
      | outOfBounds => rw [hv] at hrun; cases hrun
      | outOfFuel => rw [hv] at hrun; cases hrun
    | false =>
      simp only [Bool.false_eq_true, if_false] at hrun
      refine yields_bind (R := fun r => r.1.all q = true ∧ r.2.all (FuncDecl.every p) = true)
        (yields_any _) (fun _ _ => yields_ite ?_ ?_) _ _ _ hrun
      · refine yields_bind (yields_any _) (fun _ _ => ?_)
        refine yields_bind (yields_parseFuncDecl_every (p := p) n) (fun m hmth => ?_)
        exact ih fields _ hf (all_append_toList hm (everyFuncPtr_some hmth))
      · refine yields_bind (yields_any _) (fun _ _ => yields_ite ?_ ?_)
        · refine yields_bind (yields_parseFuncDef_every hp n) (fun m hmth => ?_)
          exact ih fields _ hf (all_append_toList hm (everyFuncPtr_some hmth))
        · refine yields_bind (yields_any _) (fun _ _ => ?_)
          refine yields_bind (yields_any _) (fun _ _ => ?_)
          refine yields_bind (yields_any _) (fun _ _ => ?_)
          exact ih fields methods hf hm

theorem yields_parseBlockDecl_every (hp : BuiltBy p)
    (hq : ∀ d, namedByType d = true → q d = true) (fuel : Nat) :
    Yields (parseBlockDecl fuel) (fun d => everyDeclPtr p q d = true) := by
  unfold parseBlockDecl
  refine yields_bind (yields_any _) (fun name _ => ?_)
  refine yields_bind (yields_any _) (fun _ _ => ?_)
  refine yields_bind (yields_any _) (fun _ _ => ?_)
  dsimp only
  refine yields_when (fun _ => ?_)
  refine yields_bind (yields_any _) (fun _ _ => yields_ite ?_ (yields_pure rfl))
  refine yields_bind (yields_parseBlockDeclLoop_every hp hq fuel [] [] rfl rfl)
    (fun r hr => ?_)
  refine yields_bind (yields_any _) (fun _ _ => ?_)
  exact yields_pure (by simp [everyDeclPtr, Decl.every, hr.1, hr.2])

theorem yields_parseHeader_every :
    Yields parseHeader (fun d => everyDeclPtr p q d = true) := by
  unfold parseHeader
  refine yields_bind (yields_any _) (fun _ _ => ?_)
  refine yields_bind (yields_any _) (fun _ _ => ?_)
  refine yields_bind (yields_any _) (fun _ _ => ?_)
  refine yields_bind (yields_any _) (fun _ _ => ?_)
  refine yields_bind (yields_any _) (fun _ _ => ?_)
  exact yields_pure rfl

theorem everyDeclPtr_func {f : Option FuncDecl} (h : everyFuncPtr p f = true) :
    everyDeclPtr p q (f.map Decl.Func) = true := by
  cases f with
  | none => rfl
  | some a => exact h

theorem yields_topLevelFallThrough_every {parseDef : P (Option FuncDecl)}
    {parseVar : P (Option VarDecl)} {again : P DeclPtr}
    (hdef : Yields parseDef (fun f => everyFuncPtr p f = true))
    (hagain : Yields again (fun d => everyDeclPtr p q d = true)) :
    Yields (topLevelFallThrough parseDef parseVar again)
      (fun d => everyDeclPtr p q d = true) := by
  unfold topLevelFallThrough
  refine yields_bind (yields_any _) (fun _ _ => yields_ite ?_ ?_)
  · refine yields_bind hdef (fun f hf => ?_)
    exact yields_pure (everyDeclPtr_func hf)
  · refine yields_bind (Q := fun d => everyDeclPtr p q d = true) ?_ (fun h hh => ?_)
    · refine yields_bind (yields_any _) (fun _ _ => ?_)
      exact yields_ite yields_parseHeader_every (yields_pure rfl)
    · refine yields_ite (yields_pure hh) ?_
      refine yields_bind (yields_any _) (fun _ _ => yields_ite ?_ ?_)
      · refine yields_bind (yields_any _) (fun _ _ => ?_)
        exact yields_pure rfl
      · refine yields_bind (yields_any _) (fun _ _ => ?_)
        dsimp only
        refine yields_ite ?_ ?_
        · refine yields_bind (yields_any _) (fun _ _ => ?_)
          refine yields_bind (yields_any _) (fun _ _ => ?_)
          refine yields_bind (yields_any _) (fun _ _ => ?_)
          exact hagain
        · refine yields_bind (yields_any _) (fun _ _ => ?_)
          refine yields_bind (yields_any _) (fun _ _ => ?_)
          exact hagain

theorem yields_parseTopLevelDecl_every (hp : BuiltBy p)
    (hq : ∀ d, namedByType d = true → q d = true) :
    ∀ fuel, Yields (parseTopLevelDecl fuel) (fun d => everyDeclPtr p q d = true) := by
  intro fuel
  induction fuel with
  | zero => exact yields_outOfFuel
  | succ n ih =>
    simp only [parseTopLevelDecl]
    refine yields_bind (yields_any _) (fun _ _ => yields_ite (yields_pure rfl) ?_)
    refine yields_bind (yields_any _)
      (fun _ _ => yields_ite (yields_parseBlockDecl_every hp hq n) ?_)
    refine yields_bind (yields_any _) (fun _ _ => yields_ite ?_ ?_)
    · refine yields_bind (yields_any _) (fun _ _ => yields_ite ?_ ?_)
      · refine yields_bind (yields_parseFuncDecl_every (p := p) n) (fun f hf => ?_)
        exact yields_pure (everyDeclPtr_func hf)
      · refine yields_bind (yields_any _) (fun _ _ => ?_)
        exact yields_topLevelFallThrough_every (yields_parseFuncDef_every hp n) ih
    · exact yields_topLevelFallThrough_every (yields_parseFuncDef_every hp n) ih

theorem yields_parseLoop_every (hp : BuiltBy p)
    (hq : ∀ d, namedByType d = true → q d = true) :
    ∀ (fuel : Nat) (decls : List Decl), decls.all (Decl.every p q) = true →
      Yields (parseLoop fuel decls) (fun l => l.all (Decl.every p q) = true) := by
  intro fuel
  induction fuel with
  | zero => intros; exact yields_outOfFuel
  | succ n ih =>
    intro decls hd
    simp only [parseLoop]
    refine yields_bind (yields_any _) (fun _ _ => yields_ite ?_ (yields_pure hd))
    refine yields_bind (yields_parseTopLevelDecl_every hp hq n) (fun d hdec => ?_)
    refine ih _ (all_append_toList hd ?_)
    intro a ha
    subst ha
    exact hdec

/-- Whatever the tokens and the budget, every statement node of a `Program`
that `Parser::parse` returns passes a test `p` that the parser is built by,
and every field passes a test `q` that holds of a declaration named by its
type. -/
theorem yields_parseFuel_every (hp : BuiltBy p)
    (hq : ∀ d, namedByType d = true → q d = true) (fuel : Nat) :
    Yields (parseFuel fuel) (fun program => Program.every p q program = true) := by
  unfold parseFuel
  refine yields_bind (yields_parseLoop_every hp hq fuel [] rfl) (fun decls hd => ?_)
  exact yields_pure (by simp [Program.every, hd])

end BuiltDeclarations

end Parser

namespace Parser

theorem builtBy_hasNoElse : BuiltBy hasNoElse := by
  constructor <;> intros <;> rfl

theorem builtBy_declNamedByType : BuiltBy declNamedByType := by
  constructor <;> intros <;> first | rfl | assumption

theorem peek_outOfBounds (st : Parser) :
    peek st = .outOfBounds ↔ st.tokens.length ≤ st.current := by
  unfold peek
  cases h : st.tokens[st.current]? with
  | none => simpa using h
  | some t =>
    have := List.getElem?_eq_some_iff.mp h
    obtain ⟨hlt, _⟩ := this
    simp only [reduceCtorEq, false_iff, not_le]
    exact hlt

theorem previous_outOfBounds (st : Parser) :
    previous st = .outOfBounds ↔ st.current = 0 ∨ st.tokens.length ≤ st.current - 1 := by
  unfold previous
  by_cases h0 : st.current = 0
  · simp [h0]
  · simp only [h0, if_false, false_or]
    cases h : st.tokens[st.current - 1]? with
    | none => simpa using h
    | some t =>
      obtain ⟨hlt, _⟩ := List.getElem?_eq_some_iff.mp h
      simp only [reduceCtorEq, false_iff, not_le]
      exact hlt

end Parser

/-- C34: for every token sequence whose last token is `END_OF_FILE`, `parse`
returns a `Program` in which every `If` node, at any depth of any function or
method body, has no else-if branches and no else block; the same holds of
every `Program` that a run of `Parser::parse` returns, whatever the tokens and
the budget. The body of the else-chain loop never runs: when the gate
`match(ELSE) && check(LPAREN)` holds, the cursor is on the `(`, and the loop
returns at once with neither branch nor block and without moving. -/
theorem C34_if_nodes_have_no_else (tokens : List Token) (eof : Token)
    (hlast : tokens.getLast? = some eof) (heof : eof.type = .END_OF_FILE) :
    (∃ program final, parse tokens = .ok program final ∧
      program.every hasNoElse (fun _ => true) = true) ∧
    (∀ (fuel : Nat) (st st1 : Parser) (program : Program),
      Parser.parseFuel fuel st = .ok program st1 →
        program.every hasNoElse (fun _ => true) = true) ∧
    ∀ (fuel : Nat) (st st1 st2 : Parser)
      (r : Option (List (ExprPtr × Block)) × Option Block),
      Parser.andThen (Parser.matchTok .ELSE) (Parser.check .LPAREN) st = .ok true st1 →
      Parser.parseElseChain fuel none none st1 = .ok r st2 → r = (none, none) ∧ st2 = st1 := by
  have part : ∀ (fuel : Nat) (st st1 : Parser) (program : Program),
      Parser.parseFuel fuel st = .ok program st1 →
        program.every hasNoElse (fun _ => true) = true :=
    fun fuel st st1 program h =>
      Parser.yields_parseFuel_every Parser.builtBy_hasNoElse (fun _ _ => rfl) fuel st program
        st1 h
  refine ⟨?_, part, ?_⟩
  · obtain ⟨program, j, e1, hrun, _⟩ :=
      Parser.runs_parseFuel tokens eof hlast heof (parseBudget tokens) (Nat.le_refl _) []
    exact ⟨program, _, hrun, part _ _ _ _ hrun⟩
  · intro fuel st st1 st2 r hgate hchain
    obtain ⟨t, ht, hty⟩ := Parser.elseGate_true hgate
    exact Parser.parseElseChain_lparen fuel none none r ht hty hchain

/-- The claim C34 at the tokens of a function whose body is
`if (c) \x7b \x7d else (d) \x7b \x7d`. -/
theorem C34_if_nodes_have_no_else_witness :
    (∃ program final,
      parse (tokenize "func f() \x7b if (c) \x7b \x7d else (d) \x7b \x7d \x7d") = .ok program final ∧
      program.every hasNoElse (fun _ => true) = true) ∧
    (∀ (fuel : Nat) (st st1 : Parser) (program : Program),
      Parser.parseFuel fuel st = .ok program st1 →
        program.every hasNoElse (fun _ => true) = true) ∧
    ∀ (fuel : Nat) (st st1 st2 : Parser)
      (r : Option (List (ExprPtr × Block)) × Option Block),
      Parser.andThen (Parser.matchTok .ELSE) (Parser.check .LPAREN) st = .ok true st1 →
      Parser.parseElseChain fuel none none st1 = .ok r st2 → r = (none, none) ∧ st2 = st1 :=
  C34_if_nodes_have_no_else (tokenize "func f() \x7b if (c) \x7b \x7d else (d) \x7b \x7d \x7d")
    (eofToken 1 37) (by decide) (by decide)

/-- C35: for every token sequence whose last token is `END_OF_FILE`, `parse`
returns a `Program` in which every variable declaration, as a statement at
any depth of a function or method body or as a field of a `Block`, has its
type name as variable name; the same holds of every `Program` that a run of
`Parser::parse` returns. Both names are the lexeme of the type keyword:
started on a type keyword `t` with a sufficient budget, `parseVarDeclStmt`
returns a declaration whose `typeName` and `varName` are the lexeme of `t`,
whatever follows. -/
theorem C35_var_decl_is_named_by_its_type (tokens : List Token) (eof : Token)
    (hlast : tokens.getLast? = some eof) (heof : eof.type = .END_OF_FILE) :
    (∃ program final, parse tokens = .ok program final ∧
      program.every declNamedByType namedByType = true) ∧
    (∀ (fuel : Nat) (st st1 : Parser) (program : Program),
      Parser.parseFuel fuel st = .ok program st1 →
        program.every declNamedByType namedByType = true) ∧
    ∀ (ts : List Token) (k i fuel : Nat) (errs : List String) (t : Token),
      EofAt ts k → i ≤ k → ts[i]? = some t → isDtype t.type = true →
      16 * (k - i) + 11 ≤ fuel →
      ∃ d j errs1, Parser.parseVarDeclStmt fuel ⟨ts, i, errs⟩ = .ok (some d) ⟨ts, j, errs1⟩ ∧
        d.typeName = t.lexeme ∧ d.varName = t.lexeme := by
  have part : ∀ (fuel : Nat) (st st1 : Parser) (program : Program),
      Parser.parseFuel fuel st = .ok program st1 →
        program.every declNamedByType namedByType = true :=
    fun fuel st st1 program h =>
      Parser.yields_parseFuel_every Parser.builtBy_declNamedByType (fun _ h => h) fuel st
        program st1 h
  refine ⟨?_, part, ?_⟩
  · obtain ⟨program, j, e1, hrun, _⟩ :=
      Parser.runs_parseFuel tokens eof hlast heof (parseBudget tokens) (Nat.le_refl _) []
    exact ⟨program, _, hrun, part _ _ _ _ hrun⟩
  · intro ts k i fuel errs t hk hi ht hd hfuel
    have hne : typeAt ts i ≠ .END_OF_FILE := by
      rw [Parser.typeAt_of_getElem? ht]
      exact Parser.isDtype_ne_eof hd
    obtain ⟨v, j, errs1, hrun, _⟩ :=
      Parser.runs_parseVarDeclStmt hk fuel i hi (Or.inr hne) hfuel errs
    obtain ⟨d, rfl, h1, h2⟩ :=
      @Parser.parseVarDeclStmt_dtype ⟨ts, i, errs⟩ _ t fuel v ht hd hrun
    exact ⟨d, j, errs1, hrun, h1, h2⟩

/-- The claim C35 at the tokens of `Block B \x7b number x; \x7d`. -/
theorem C35_var_decl_is_named_by_its_type_witness :
    (∃ program final, parse (tokenize "Block B \x7b number x; \x7d") = .ok program final ∧
      program.every declNamedByType namedByType = true) ∧
    (∀ (fuel : Nat) (st st1 : Parser) (program : Program),
      Parser.parseFuel fuel st = .ok program st1 →
        program.every declNamedByType namedByType = true) ∧
    ∀ (ts : List Token) (k i fuel : Nat) (errs : List String) (t : Token),
      EofAt ts k → i ≤ k → ts[i]? = some t → isDtype t.type = true →
      16 * (k - i) + 11 ≤ fuel →
      ∃ d j errs1, Parser.parseVarDeclStmt fuel ⟨ts, i, errs⟩ = .ok (some d) ⟨ts, j, errs1⟩ ∧
        d.typeName = t.lexeme ∧ d.varName = t.lexeme :=
  C35_var_decl_is_named_by_its_type (tokenize "Block B \x7b number x; \x7d")
    (eofToken 1 22) (by decide) (by decide)

/-- C36: for every token sequence with an `END_OF_FILE` token at index `k`
(the last token, or the first `END_OF_FILE` there is), the run of `parse`
returns normally: it never reads `tokens[current]` or `tokens[current - 1]`
outside the vector, it leaves the tokens as they are and its cursor at or
before `k`. In the embedding, `peek` faults exactly when the cursor is not an
index of the vector and `previous` exactly when the cursor is 0 or
`current - 1` is not an index, and a fault ends the run. -/
theorem C36_token_accesses_in_bounds (tokens : List Token) (k : Nat) (hk : EofAt tokens k) :
    (∃ program cursor diagnostics,
      parse tokens = .ok program ⟨tokens, cursor, diagnostics⟩ ∧ cursor ≤ k ∧
        cursor < tokens.length) ∧
    parse tokens ≠ .outOfBounds ∧
    (∀ st : Parser, Parser.peek st = .outOfBounds ↔ st.tokens.length ≤ st.current) ∧
    (∀ st : Parser, Parser.previous st = .outOfBounds ↔
      st.current = 0 ∨ st.tokens.length ≤ st.current - 1) ∧
    ∀ {α β : Type} (x : P α) (f : α → P β) (st : Parser),
      x st = .outOfBounds → (x >>= f) st = .outOfBounds := by
  have hrun : ∃ program cursor diagnostics,
      parse tokens = .ok program ⟨tokens, cursor, diagnostics⟩ ∧ cursor ≤ k ∧
        cursor < tokens.length := by
    have hlt := hk.lt
    obtain ⟨decls, j, e1, hloop, _, hjk, _⟩ :=
      Parser.runs_parseLoop hk (parseBudget tokens) 0 [] (Nat.zero_le _)
        (by unfold parseBudget; omega) []
    refine ⟨{ decls := decls }, j, e1, ?_, hjk, by omega⟩
    unfold parse Parser.parseFuel
    simp only [Parser.bind_apply]
    rw [hloop]
    rfl
  refine ⟨hrun, ?_, Parser.peek_outOfBounds, Parser.previous_outOfBounds, ?_⟩
  · obtain ⟨program, cursor, diagnostics, h, _⟩ := hrun
    rw [h]
    exact fun hh => Res.noConfusion hh
  · intro α β x f st hx
    rw [Parser.bind_apply, hx]

/-- The claim C36 at the tokens of `func f() \x7b return 1; \x7d`. -/
theorem C36_token_accesses_in_bounds_witness :
    (∃ program cursor diagnostics,
      parse (tokenize "func f() \x7b return 1; \x7d") =
        .ok program ⟨tokenize "func f() \x7b return 1; \x7d", cursor, diagnostics⟩ ∧
      cursor ≤ 9 ∧ cursor < (tokenize "func f() \x7b return 1; \x7d").length) ∧
    parse (tokenize "func f() \x7b return 1; \x7d") ≠ .outOfBounds ∧
    (∀ st : Parser, Parser.peek st = .outOfBounds ↔ st.tokens.length ≤ st.current) ∧
    (∀ st : Parser, Parser.previous st = .outOfBounds ↔
      st.current = 0 ∨ st.tokens.length ≤ st.current - 1) ∧
    ∀ {α β : Type} (x : P α) (f : α → P β) (st : Parser),
      x st = .outOfBounds → (x >>= f) st = .outOfBounds :=
  C36_token_accesses_in_bounds (tokenize "func f() \x7b return 1; \x7d") 9
    ⟨by decide, by decide⟩

end Mutagen
